import Mathlib

/-!
# go-gwa `render`: a Graphite render-API client

A shallow embedding of `render/render.go` and of the parts of the Go standard
library it calls (`net/url`, `strconv`, `encoding/json`, `time`, `net/http`),
followed by theorems about request encoding, data point decoding and `Fetch`.

Go strings and byte slices are lists of bytes.  Go functions that return an
`error` return an explicit error value here; functions with a pointer receiver
take the receiver's old value and return its new one.
-/

set_option autoImplicit false
set_option maxRecDepth 8000
set_option exponentiation.threshold 100000

/-- A Go `string` (or `[]byte`): a finite sequence of bytes. -/
abbrev GoString := List (Fin 256)

/-- The bytes of a literal, in UTF-8 as the Go compiler stores it. -/
def bytes (s : String) : GoString :=
  s.toList.flatMap (fun c => (String.utf8EncodeChar c).map (fun b => b.val))

/-- Go's `<` on strings: byte-wise lexicographic order. -/
def strLess : GoString → GoString → Bool
  | [], [] => false
  | [], _ :: _ => true
  | _ :: _, [] => false
  | a :: as, b :: bs => if a < b then true else if b < a then false else strLess as bs

/-- Insert a string into a sorted list of strings. -/
def insertSorted (k : GoString) : List GoString → List GoString
  | [] => [k]
  | x :: xs => if strLess x k then x :: insertSorted k xs else k :: x :: xs

/-- The call `slices.Sort(keys)` on strings. -/
def sortStrings : List GoString → List GoString
  | [] => []
  | x :: xs => insertSorted x (sortStrings xs)

namespace url

/-- The table `upperhex = "0123456789ABCDEF"` of `net/url`, indexed by a nibble. -/
def upperhex (n : Nat) : Fin 256 :=
  if n < 10 then Fin.ofNat (48 + n) else Fin.ofNat (55 + n)

/-- The function `shouldEscape(c, encodeQueryComponent)` of `net/url`: everything is
escaped but the unreserved characters, letters, digits and `-` `_` `.` `~`. -/
def shouldEscape (c : Fin 256) : Bool :=
  if (97 ≤ c.val ∧ c.val ≤ 122) ∨ (65 ≤ c.val ∧ c.val ≤ 90) ∨ (48 ≤ c.val ∧ c.val ≤ 57) then false
  else if c.val = 45 ∨ c.val = 95 ∨ c.val = 46 ∨ c.val = 126 then false
  else true

/-- What `escape(s, encodeQueryComponent)` writes for one byte of `s`. -/
def escapeByte (c : Fin 256) : GoString :=
  if c.val = 32 then [43]
  else if shouldEscape c then [37, upperhex (c.val / 16), upperhex (c.val % 16)]
  else [c]

/-- The function `url.QueryEscape`. -/
def QueryEscape (s : GoString) : GoString :=
  s.flatMap escapeByte

/-- The function `ishex` of `net/url`. -/
def ishex (c : Fin 256) : Bool :=
  (48 ≤ c.val ∧ c.val ≤ 57) ∨ (97 ≤ c.val ∧ c.val ≤ 102) ∨ (65 ≤ c.val ∧ c.val ≤ 70)

/-- The function `unhex` of `net/url`. -/
def unhex (c : Fin 256) : Nat :=
  if 48 ≤ c.val ∧ c.val ≤ 57 then c.val - 48
  else if 97 ≤ c.val ∧ c.val ≤ 102 then c.val - 97 + 10
  else if 65 ≤ c.val ∧ c.val ≤ 70 then c.val - 65 + 10
  else 0

/-- First loop of `unescape(s, encodeQueryComponent)`: every `%` is followed by two
hexadecimal digits. -/
def unescapeValid : GoString → Bool
  | [] => true
  | c :: rest =>
    if c.val = 37 then
      match rest with
      | a :: b :: rest2 => ishex a && ishex b && unescapeValid rest2
      | _ => false
    else unescapeValid rest

/-- Second loop of `unescape(s, encodeQueryComponent)`: `%XX` becomes one byte and
`+` a space. -/
def unescapeBytes : GoString → GoString
  | [] => []
  | c :: rest =>
    if c.val = 37 then
      match rest with
      | a :: b :: rest2 => Fin.ofNat (unhex a * 16 + unhex b) :: unescapeBytes rest2
      | _ => []
    else if c.val = 43 then 32 :: unescapeBytes rest
    else c :: unescapeBytes rest

/-- The function `url.QueryUnescape`; `none` is its `EscapeError`. -/
def QueryUnescape (s : GoString) : Option GoString :=
  if unescapeValid s then some (unescapeBytes s) else none

/-- The type `url.Values`, a `map[string][]string`: one entry per key. -/
abbrev Values := List (GoString × List GoString)

/-- The map read `v[key]`, the nil slice when the key is absent. -/
def Values.lookup (v : Values) (key : GoString) : List GoString :=
  match v with
  | [] => []
  | (k, vs) :: rest => if k = key then vs else Values.lookup rest key

/-- The map write `v[key] = vs`. -/
def Values.store (v : Values) (key : GoString) (vs : List GoString) : Values :=
  match v with
  | [] => [(key, vs)]
  | (k, old) :: rest => if k = key then (k, vs) :: rest else (k, old) :: Values.store rest key vs

/-- The method `Values.Set`: `v[key] = []string{value}`. -/
def Values.Set (v : Values) (key value : GoString) : Values :=
  v.store key [value]

/-- The method `Values.Add`: `v[key] = append(v[key], value)`. -/
def Values.Add (v : Values) (key value : GoString) : Values :=
  v.store key (v.lookup key ++ [value])

/-- One step of the inner loop of `Values.Encode`: write `&` unless the buffer is
empty, then the escaped key, `=` and the escaped value. -/
def encodePair (keyEscaped : GoString) (buf : GoString) (value : GoString) : GoString :=
  (if buf.length > 0 then buf ++ [38] else buf) ++ keyEscaped ++ [61] ++ QueryEscape value

/-- The method `Values.Encode`: keys in sorted order, the values of one key in the
order they were added. -/
def Values.Encode (v : Values) : GoString :=
  if v.length = 0 then []
  else
    (sortStrings (v.map Prod.fst)).foldl
      (fun buf k => (v.lookup k).foldl (encodePair (QueryEscape k)) buf) []

end url

/-- The struct `MetricRequest`. -/
structure MetricRequest where
  From : GoString
  Until : GoString
  Target : List GoString

/-- The loop `for _, t := range m.Target` of `MetricRequest.Encode`. -/
def addTargets (v : url.Values) : List GoString → url.Values
  | [] => v
  | t :: ts => addTargets (if t.length > 0 then v.Add (bytes "target") t else v) ts

/-- The method `MetricRequest.Encode`. -/
def MetricRequest.Encode (m : MetricRequest) : GoString :=
  let v : url.Values := []
  let v := v.Set (bytes "format") (bytes "json")
  let v := if m.From.length > 0 then v.Set (bytes "from") m.From else v
  let v := if m.Until.length > 0 then v.Set (bytes "until") m.Until else v
  let v := addTargets v m.Target
  v.Encode

/-- The non-empty entries of `Target`, in input order. -/
def nonEmptyTargets (m : MetricRequest) : List GoString :=
  m.Target.filter (fun t => decide (t.length > 0))

/-- The text `&from=<From>`, present when `From` is non-empty. -/
def fromParam (m : MetricRequest) : GoString :=
  if m.From.length > 0 then bytes "&from=" ++ url.QueryEscape m.From else []

/-- The text `&until=<Until>`, present when `Until` is non-empty. -/
def untilParam (m : MetricRequest) : GoString :=
  if m.Until.length > 0 then bytes "&until=" ++ url.QueryEscape m.Until else []

/-- The text `&target=<t>` for every non-empty target `t`, in input order. -/
def targetParams (m : MetricRequest) : GoString :=
  (nonEmptyTargets m).flatMap (fun t => bytes "&target=" ++ url.QueryEscape t)


/-! ### Reading a query string back

The query string is read the way a server reads it: cut at every `&`, each piece cut
at its first `=`, key and value unescaped. -/

/-- The call `strings.Split(s, sep)` for a one-byte separator. -/
def splitOn (sep : Fin 256) : GoString → List GoString
  | [] => [[]]
  | c :: rest =>
    if c = sep then [] :: splitOn sep rest
    else
      match splitOn sep rest with
      | [] => [[c]]
      | p :: ps => (c :: p) :: ps

/-- The call `strings.Cut(s, sep)` for a one-byte separator: the text before the
first separator and the text after it. -/
def cutAt (sep : Fin 256) : GoString → GoString × GoString
  | [] => ([], [])
  | c :: rest => if c = sep then ([], rest) else ((c :: (cutAt sep rest).1), (cutAt sep rest).2)

/-- The parameters of a query string: its pieces between `&`. -/
def queryParams (q : GoString) : List GoString :=
  splitOn 38 q

/-- The key of a parameter: the text before its first `=`. -/
def paramKey (p : GoString) : GoString :=
  (cutAt 61 p).1

/-- Key and value of one parameter, unescaped. -/
def parsePair (p : GoString) : Option (GoString × GoString) :=
  match url.QueryUnescape (cutAt 61 p).1, url.QueryUnescape (cutAt 61 p).2 with
  | some k, some v => some (k, v)
  | _, _ => none

/-- Key and value of every parameter of a list; `none` when one does not unescape. -/
def parsePairs : List GoString → Option (List (GoString × GoString))
  | [] => some []
  | p :: ps =>
    match parsePair p, parsePairs ps with
    | some kv, some rest => some (kv :: rest)
    | _, _ => none

/-- All pairs of a query string; `none` when a key or value does not unescape. -/
def parseQuery (q : GoString) : Option (List (GoString × GoString)) :=
  parsePairs (queryParams q)

/-- One encoded parameter, `key=value` with the value escaped. -/
def param (key value : GoString) : GoString :=
  key ++ [61] ++ url.QueryEscape value

/-- The `from` parameter, present when `From` is non-empty. -/
def fromParams (m : MetricRequest) : List GoString :=
  if m.From.length > 0 then [param (bytes "from") m.From] else []

/-- The `until` parameter, present when `Until` is non-empty. -/
def untilParams (m : MetricRequest) : List GoString :=
  if m.Until.length > 0 then [param (bytes "until") m.Until] else []

/-- One `target` parameter for every non-empty target, in input order. -/
def targetParamList (m : MetricRequest) : List GoString :=
  (nonEmptyTargets m).map (param (bytes "target"))

/-- The pairs a request stands for, listed as the specification lists them. -/
def requestPairs (m : MetricRequest) : List (GoString × GoString) :=
  [(bytes "format", bytes "json")]
    ++ (if m.From.length > 0 then [(bytes "from", m.From)] else [])
    ++ (if m.Until.length > 0 then [(bytes "until", m.Until)] else [])
    ++ (nonEmptyTargets m).map (fun t => (bytes "target", t))

/-- The parameters in the order the specification gives: `format`, `from`, `until`,
then the targets. -/
def specOrderParams (m : MetricRequest) : List GoString :=
  bytes "format=json" :: (fromParams m ++ untilParams m ++ targetParamList m)

/-- The parameters in sorted key order: `format`, `from`, the targets, then `until`. -/
def sortedOrderParams (m : MetricRequest) : List GoString :=
  bytes "format=json" :: (fromParams m ++ targetParamList m ++ untilParams m)

/-- The values of the pairs with key `target`, in order. -/
def targetValues (ps : List (GoString × GoString)) : List GoString :=
  (ps.filter (fun p => decide (p.1 = bytes "target"))).map Prod.snd

/-! ## Machine integers -/

/-- A mathematical integer as the `int64` with the same low 64 bits. -/
def wrapInt64 (x : Int) : Int :=
  (x + 2 ^ 63) % 2 ^ 64 - 2 ^ 63

/-- A mathematical natural number as the `uint64` with the same low 64 bits. -/
def wrapUint64 (x : Nat) : Nat :=
  x % 2 ^ 64

namespace strconv

/-- The two errors a `*strconv.NumError` wraps: `ErrSyntax` and `ErrRange`. -/
inductive NumErr where
  | ErrSyntax
  | ErrRange
  deriving DecidableEq, Repr

/-- The function `lower` of `strconv`: `c | ('x' - 'X')`. -/
def lower (c : Fin 256) : Nat :=
  c.val ||| 32

/-- The digit a byte stands for in the `switch` of `ParseUint`: a decimal digit, or a
letter counted from ten; `none` is the `default` case. -/
def digitValue (c : Fin 256) : Option Nat :=
  if 48 ≤ c.val ∧ c.val ≤ 57 then some (c.val - 48)
  else if 97 ≤ lower c ∧ lower c ≤ 122 then some (lower c - 97 + 10)
  else none

/-- The loop of `ParseUint(s, 10, 64)` over the bytes of `s`, from the value `n` read so
far.  The result is the value returned and the error, if any. -/
def parseUintLoop : GoString → Nat → Nat × Option NumErr
  | [], n => (n, none)
  | c :: rest, n =>
    match digitValue c with
    | none => (0, some NumErr.ErrSyntax)
    | some d =>
      if d ≥ 10 then (0, some NumErr.ErrSyntax)
      else if n ≥ (2 ^ 64 - 1) / 10 + 1 then (2 ^ 64 - 1, some NumErr.ErrRange)
      else
        let n10 := wrapUint64 (n * 10)
        let n1 := wrapUint64 (n10 + d)
        if n1 < n10 ∨ n1 > 2 ^ 64 - 1 then (2 ^ 64 - 1, some NumErr.ErrRange)
        else parseUintLoop rest n1

/-- The call `strconv.ParseUint(s, 10, 64)`. -/
def ParseUint (s : GoString) : Nat × Option NumErr :=
  if s = [] then (0, some NumErr.ErrSyntax) else parseUintLoop s 0

/-- The call `strconv.ParseInt(s, 10, 64)`: an optional sign, then `ParseUint`, then the
range check against `1 << 63`. -/
def ParseInt (s : GoString) : Int × Option NumErr :=
  match s with
  | [] => (0, some NumErr.ErrSyntax)
  | c :: rest =>
    let neg := c.val = 45
    let digits := if c.val = 43 then rest else if c.val = 45 then rest else s
    match ParseUint digits with
    | (_, some NumErr.ErrSyntax) => (0, some NumErr.ErrSyntax)
    | (un, _) =>
      let cutoff : Nat := 2 ^ 63
      if ¬ neg ∧ un ≥ cutoff then ((cutoff : Int) - 1, some NumErr.ErrRange)
      else if neg ∧ un > cutoff then (-(cutoff : Int), some NumErr.ErrRange)
      else
        let n := wrapInt64 (un : Int)
        (if neg then wrapInt64 (-n) else n, none)

end strconv

/-! ## Time -/

namespace time

/-- The `*time.Location` of a `Time`; `time.Unix` always gives `Local`. -/
inductive Location where
  | UTC
  | Local
  deriving DecidableEq, Repr

/-- The struct `time.Time`: `wall` holds the nanoseconds (no monotonic reading is ever
set here), `ext` the seconds since January 1, year 1, as an `int64`. -/
structure Time where
  wall : Nat
  ext : Int
  loc : Location
  deriving DecidableEq, Repr

/-- The constant `unixToInternal`: seconds from year 1 to year 1970. -/
def unixToInternal : Int := (1969 * 365 + 1969 / 4 - 1969 / 100 + 1969 / 400) * 86400

/-- The constant `internalToUnix`. -/
def internalToUnix : Int := -unixToInternal

/-- The function `unixTime(sec, nsec)`. -/
def unixTime (sec : Int) (nsec : Int) : Time :=
  ⟨wrapUint64 nsec.toNat, wrapInt64 (sec + unixToInternal), Location.Local⟩

/-- The function `time.Unix(sec, nsec)`. -/
def Unix (sec nsec : Int) : Time :=
  if nsec < 0 ∨ nsec ≥ 1000000000 then
    let n := Int.tdiv nsec 1000000000
    let sec1 := wrapInt64 (sec + n)
    let nsec1 := wrapInt64 (nsec - n * 1000000000)
    if nsec1 < 0 then unixTime (wrapInt64 (sec1 - 1)) (nsec1 + 1000000000)
    else unixTime sec1 nsec1
  else unixTime sec nsec

/-- The method `Time.Unix`: seconds since January 1, 1970 UTC. -/
def Time.Unix (t : Time) : Int :=
  wrapInt64 (t.ext + internalToUnix)

/-- The method `Time.Nanosecond`. -/
def Time.Nanosecond (t : Time) : Nat :=
  t.wall % 2 ^ 30

/-- The constant `wallToInternal`: seconds from year 1 to year 1885. -/
def wallToInternal : Int := (1884 * 365 + 1884 / 4 - 1884 / 100 + 1884 / 400) * 86400

/-- Whether the flag `hasMonotonic`, bit 63 of `wall`, is set. -/
def Time.hasMonotonic (t : Time) : Bool :=
  t.wall / 2 ^ 63 % 2 = 1

/-- The method `Time.sec`: seconds since January 1, year 1; with the flag `hasMonotonic`
they are packed in `wall`, `wallToInternal + int64(t.wall<<1>>(nsecShift+1))`, and
without it they are `ext`. -/
def Time.sec (t : Time) : Int :=
  if t.hasMonotonic then
    wrapInt64 (wallToInternal + ((t.wall * 2 % 2 ^ 64 / 2 ^ 31 : Nat) : Int))
  else t.ext

/-- The method `Time.nsec`: the nanoseconds within the second, `wall & nsecMask`. -/
def Time.nsec (t : Time) : Int :=
  ((t.wall % 2 ^ 30 : Nat) : Int)

/-- The method `Time.Before`. -/
def Time.Before (t u : Time) : Bool :=
  if t.hasMonotonic ∧ u.hasMonotonic then t.ext < u.ext
  else t.sec < u.sec ∨ (t.sec = u.sec ∧ t.nsec < u.nsec)

/-- The method `Time.After`. -/
def Time.After (t u : Time) : Bool :=
  if t.hasMonotonic ∧ u.hasMonotonic then t.ext > u.ext
  else t.sec > u.sec ∨ (t.sec = u.sec ∧ t.nsec > u.nsec)

/-- Whether a year of the Gregorian calendar is a leap year. -/
def isLeap (year : Nat) : Bool :=
  year % 4 = 0 ∧ (year % 100 ≠ 0 ∨ year % 400 = 0)

/-- Days in the years from 1970 up to, not including, `year`. -/
def daysBeforeYear (year : Nat) : Nat :=
  ((List.range (year - 1970)).map (fun k => if isLeap (1970 + k) then 366 else 365)).sum

/-- Days of a year before the first of a month (1 to 12). -/
def daysBeforeMonth (year month : Nat) : Nat :=
  (([31, if isLeap year then 29 else 28, 31, 30, 31, 30, 31, 31, 30, 31, 30, 31].take
    (month - 1))).sum

/-- Seconds from 1970-01-01T00:00:00 UTC to a date and time of day in UTC, for a date
from 1970 on. -/
def utcSeconds (year month day hour min sec : Nat) : Int :=
  (((daysBeforeYear year + daysBeforeMonth year month + (day - 1)) * 86400
    + hour * 3600 + min * 60 + sec : Nat) : Int)

end time

/-! ## Floating point

A `float64` is kept as its sign, its integer significand and the binary exponent of
its last place, so that its value is `± mant * 2 ^ exp`. -/

/-- A finite `float64`: `mant < 2 ^ 53` and `-1074 ≤ exp ≤ 971`; zero is `mant = 0` with
`exp = -1074`, and `mant ≥ 2 ^ 52` whenever `exp > -1074`. -/
structure Float64 where
  neg : Bool
  mant : Nat
  exp : Int
  deriving DecidableEq, Repr

/-- The zero value of `float64`. -/
def Float64.zero : Float64 := ⟨false, 0, -1074⟩

/-- Number of binary digits of `n`, with `fuel` at least that number. -/
def bitLen : Nat → Nat → Nat
  | 0, _ => 0
  | fuel + 1, n => if n = 0 then 0 else bitLen fuel (n / 2) + 1

/-- Whether `num / den ≥ 2 ^ k`. -/
def ratioAtLeastPow2 (num den : Nat) (k : Int) : Bool :=
  if k ≥ 0 then num ≥ den * 2 ^ k.toNat else num * 2 ^ (-k).toNat ≥ den

/-- The quotient `num / den` rounded to the nearest integer, a tie to the even one. -/
def roundHalfEven (num den : Nat) : Nat :=
  let q := num / den
  let r := num % den
  if 2 * r > den ∨ (2 * r = den ∧ q % 2 = 1) then q + 1 else q

/-- The `float64` nearest to `num / den` (ties to even), for `num > 0` and `den > 0`;
`none` when that value is beyond the largest `float64`, which is so from
`2 ^ 1024 - 2 ^ 970` on. -/
def roundToFloat64 (neg : Bool) (num den : Nat) : Option Float64 :=
  if num ≥ (2 ^ 1024 - 2 ^ 970) * den then none
  else
    let e0 : Int := (bitLen num num : Int) - (bitLen den den : Int)
    let e2 : Int := if ratioAtLeastPow2 num den e0 then e0 else e0 - 1
    let q : Int := max (e2 - 52) (-1074)
    let m : Nat :=
      if q ≥ 0 then roundHalfEven num (den * 2 ^ q.toNat)
      else roundHalfEven (num * 2 ^ (-q).toNat) den
    if m = 2 ^ 53 then some ⟨neg, 2 ^ 52, q + 1⟩ else some ⟨neg, m, q⟩

/-- Whether a byte is a decimal digit. -/
def isDigit (c : Fin 256) : Bool :=
  48 ≤ c.val ∧ c.val ≤ 57

/-- The value of a string of decimal digits. -/
def decVal (ds : GoString) : Nat :=
  ds.foldl (fun n c => n * 10 + (c.val - 48)) 0

/-- The parts of a JSON number literal `-? int frac? exp?`: the sign, the digits before
and after the point, and the sign and the digits of the exponent (no digits when the
literal has no exponent part). -/
structure NumberLit where
  neg : Bool
  intDigits : GoString
  fracDigits : GoString
  expNeg : Bool
  expDigits : GoString
  deriving DecidableEq, Repr

/-- A JSON number literal split into its parts, by the grammar of RFC 8259, which the
scanner of `encoding/json` enforces; `none` when the text is not a JSON number. -/
def splitNumber (lit : GoString) : Option NumberLit :=
  let neg := lit.head? = some 45
  let s := if neg then lit.tail else lit
  let ip := s.span isDigit
  if ip.1 = [] ∨ (ip.1.length > 1 ∧ ip.1.head? = some 48) then none
  else
    let fp : GoString × GoString :=
      if ip.2.head? = some 46 then ip.2.tail.span isDigit else ([], ip.2)
    if ip.2.head? = some 46 ∧ fp.1 = [] then none
    else
      match fp.2 with
      | [] => some ⟨neg, ip.1, fp.1, false, []⟩
      | c :: rest =>
        if c.val = 101 ∨ c.val = 69 then
          let es := if rest.head? = some 45 ∨ rest.head? = some 43 then rest.tail else rest
          if es = [] ∨ ¬ es.all isDigit then none
          else some ⟨neg, ip.1, fp.1, rest.head? = some 45, es⟩
        else none

/-- The decimal significand of a number literal: its digits, without the point. -/
def NumberLit.significand (p : NumberLit) : Nat :=
  decVal (p.intDigits ++ p.fracDigits)

/-- The decimal exponent that goes with the significand: the written exponent less the
number of digits after the point. -/
def NumberLit.exponent (p : NumberLit) : Int :=
  (if p.expNeg then -(decVal p.expDigits : Int) else (decVal p.expDigits : Int))
    - (p.fracDigits.length : Int)

/-- The rational number `± m * 10 ^ e`. -/
def decimalValue (neg : Bool) (m : Nat) (e : Int) : ℚ :=
  (if neg then -1 else 1) * ((m : ℚ) * (10 : ℚ) ^ e)

/-- The number that a number literal denotes. -/
def NumberLit.value (p : NumberLit) : ℚ :=
  decimalValue p.neg p.significand p.exponent

/-- That the parts are those of a JSON number, by the grammar of RFC 8259: the digits
before the point are not empty and have no leading zero unless there is one digit, all
digits are decimal digits, and a number without an exponent part has no exponent
sign. -/
def NumberLit.IsJSON (p : NumberLit) : Prop :=
  p.intDigits ≠ [] ∧ p.intDigits.all isDigit = true
  ∧ (p.intDigits.length > 1 → p.intDigits.head? ≠ some 48)
  ∧ p.fracDigits.all isDigit = true ∧ p.expDigits.all isDigit = true
  ∧ (p.expDigits = [] → p.expNeg = false)

instance (p : NumberLit) : Decidable p.IsJSON := by
  unfold NumberLit.IsJSON
  infer_instance

/-- The text of the JSON number with the given parts: the sign, the digits, the point
and the digits after it when there are any, and the exponent part when it has digits,
written with `E` when `upper` is set and with the sign `+` when `plus` is set and the
exponent is not negative. -/
def NumberLit.text (p : NumberLit) (upper plus : Bool) : GoString :=
  (if p.neg then [45] else [])
    ++ (p.intDigits
      ++ ((if p.fracDigits = [] then [] else 46 :: p.fracDigits)
        ++ (if p.expDigits = [] then []
            else (if upper then 69 else 101)
              :: ((if p.expNeg then [45] else if plus then [43] else []) ++ p.expDigits))))

/-- The rational number that a finite `float64` stands for. -/
def Float64.toRat (x : Float64) : ℚ :=
  (if x.neg then -1 else 1) * ((x.mant : ℚ) * (2 : ℚ) ^ x.exp)

/-- The finite values of `float64`: a significand below `2 ^ 53`, the exponent of the
last place from `-1074` to `971`, and a significand of full width unless the exponent is
the least one. -/
def Float64.IsFinite (x : Float64) : Prop :=
  x.mant < 2 ^ 53 ∧ -1074 ≤ x.exp ∧ x.exp ≤ 971 ∧ (-1074 < x.exp → 2 ^ 52 ≤ x.mant)

/-- That `x` is the `float64` nearest to the number `v`, as IEEE 754 rounds to nearest:
`x` is finite, no finite `float64` is nearer to `v`, and when another finite `float64`
is just as near, the significand of `x` is even. -/
def IsNearestFloat64 (v : ℚ) (x : Float64) : Prop :=
  x.IsFinite
  ∧ (∀ y : Float64, y.IsFinite → |x.toRat - v| ≤ |y.toRat - v|)
  ∧ (∀ y : Float64, y.IsFinite → |y.toRat - v| = |x.toRat - v| → y.toRat ≠ x.toRat →
      x.mant % 2 = 0)

namespace strconv

/-- The exponent that `readFloat` and `decimal.set` accumulate from the digits of the
exponent part, `if e < 10000 { e = e*10 + int(s[i]) - '0' }`: once the value has
reached 10000, further digits are dropped. -/
def expValue (es : GoString) : Nat :=
  es.foldl (fun e c => if e < 10000 then e * 10 + (c.val - 48) else e) 0

/-- The call `strconv.ParseFloat(s, 64)` on a JSON number literal: the `float64` nearest
to the number that `strconv` reads, which is the significand times ten to the
exponent accumulated by `expValue`; `none` for the errors `ErrRange` (the value read is
out of range) and `ErrSyntax`.  A value too small for a `float64` rounds to zero
without an error.  `strconv` reads the significand in full as long as it has at most
800 digits, the size of the buffer of `decimal`; this is the conversion of such
literals, and the theorems about the value converted are stated for them. -/
def ParseFloat (lit : GoString) : Option Float64 :=
  match splitNumber lit with
  | none => none
  | some p =>
    let m := decVal (p.intDigits ++ p.fracDigits)
    let e : Int :=
      (if p.expNeg then -(expValue p.expDigits : Int) else (expValue p.expDigits : Int))
        - (p.fracDigits.length : Int)
    if m = 0 then some ⟨p.neg, 0, -1074⟩
    else if e ≥ 0 then roundToFloat64 p.neg (m * 10 ^ e.toNat) 1
    else roundToFloat64 p.neg m (10 ^ (-e).toNat)

end strconv

/-- The parts of the number `0.00...01e100000`, with 99999 zeros between the point and
the digit `1`: it is the number one, and its only significant digit is the `1`. -/
def longExponentNumber : NumberLit :=
  ⟨false, [48], List.replicate 99999 48 ++ [49], false, bytes "100000"⟩

/-! ## Errors and JSON values -/

/-- The `error` values that occur: `fmt.Errorf`/`errors.New` strings, `*strconv.NumError`,
`*json.UnmarshalTypeError` (the JSON value met and the Go type it was meant for), and
errors made outside this package (transport, reading and scanning the body). -/
inductive GoError where
  | errorString (msg : GoString)
  | numError (fn : GoString) (num : GoString) (err : strconv.NumErr)
  | unmarshalTypeError (value : GoString) (typ : GoString)
  | external (msg : GoString)
  deriving DecidableEq, Repr

/-- What a call that returns `error` does: return `nil`, return an error, or panic at
run time (an index out of range). -/
inductive Status where
  | ok
  | error (e : GoError)
  | panic
  deriving DecidableEq, Repr

/-- A syntactically valid JSON text, as the scanner of `encoding/json` sees it.  A
number keeps its literal, a string holds its decoded bytes, the members of an object
keep their order and their duplicates. -/
inductive JSON where
  | null
  | bool (b : Bool)
  | number (lit : GoString)
  | string (s : GoString)
  | array (elems : List JSON)
  | object (members : List (GoString × JSON))

namespace json

/-- One byte of a string inside a JSON string literal. -/
def quoteByte (c : Fin 256) : GoString :=
  if c.val = 34 then [92, 34]
  else if c.val = 92 then [92, 92]
  else if c.val < 32 then bytes "\\u00" ++ [url.upperhex (c.val / 16), url.upperhex (c.val % 16)]
  else [c]

/-- A string as a JSON string literal. -/
def quote (s : GoString) : GoString :=
  34 :: s.flatMap quoteByte ++ [34]

end json

mutual
/-- The bytes of a JSON value, as a `json.RawMessage` holds them: for a number its
literal; other values are written without white space. -/
def JSON.raw : JSON → GoString
  | .null => bytes "null"
  | .bool b => if b then bytes "true" else bytes "false"
  | .number lit => lit
  | .string s => json.quote s
  | .array elems => 91 :: JSON.rawElems elems ++ [93]
  | .object members => 123 :: JSON.rawMembers members ++ [125]
/-- The elements of an array, separated by commas. -/
def JSON.rawElems : List JSON → GoString
  | [] => []
  | j :: js => JSON.raw j ++ (if js.isEmpty then [] else 44 :: JSON.rawElems js)
/-- The members of an object, separated by commas. -/
def JSON.rawMembers : List (GoString × JSON) → GoString
  | [] => []
  | (k, j) :: ms =>
    json.quote k ++ 58 :: JSON.raw j ++ (if ms.isEmpty then [] else 44 :: JSON.rawMembers ms)
end

namespace json

/-- The field `Value` of an `UnmarshalTypeError`: the kind of JSON value that did not
fit the Go type. -/
def describe : JSON → GoString
  | .null => bytes "null"
  | .bool _ => bytes "bool"
  | .number _ => bytes "number"
  | .string _ => bytes "string"
  | .array _ => bytes "array"
  | .object _ => bytes "object"

/-- The method `decodeState.saveError`: only the first error is kept. -/
def saveError (saved : Option GoError) (e : GoError) : Option GoError :=
  match saved with
  | none => some e
  | some old => some old

/-- The call `json.Unmarshal(raw, &f)` for `f` a `float64`: a number is parsed with
`strconv.ParseFloat`, `null` leaves `f` as it is, anything else is an
`UnmarshalTypeError`. -/
def unmarshalFloat64 (f : Float64) (raw : JSON) : Float64 × Option GoError :=
  match raw with
  | .null => (f, none)
  | .number lit =>
    match strconv.ParseFloat lit with
    | some x => (x, none)
    | none => (f, some (.unmarshalTypeError (bytes "number " ++ lit) (bytes "float64")))
  | other => (f, some (.unmarshalTypeError (describe other) (bytes "float64")))

/-- The call `json.Unmarshal(buf, &tmp)` for `tmp` a `[]json.RawMessage`: an array gives
its elements, each as its own bytes, `null` gives the nil slice, anything else is an
`UnmarshalTypeError` and leaves `tmp` as it is. -/
def unmarshalRawMessages (tmp : List JSON) (buf : JSON) : List JSON × Option GoError :=
  match buf with
  | .array elems => (elems, none)
  | .null => ([], none)
  | other => (tmp, some (.unmarshalTypeError (describe other) (bytes "[]json.RawMessage")))

end json

/-! ## Data points -/

/-- The struct `JSONTime`, which embeds a `time.Time`. -/
structure JSONTime where
  Time : time.Time
  deriving DecidableEq, Repr

/-- The struct `DataPoint`. -/
structure DataPoint where
  Value : Float64
  TimeStamp : JSONTime
  deriving DecidableEq, Repr

/-- The struct `Metric`. -/
structure Metric where
  Target : GoString
  DataPoints : List DataPoint
  deriving DecidableEq, Repr

/-- The type `Metrics`, a slice of `Metric`. -/
abbrev Metrics := List Metric

/-- The zero value of `JSONTime`. -/
def JSONTime.zero : JSONTime := ⟨⟨0, 0, time.Location.UTC⟩⟩

/-- The zero value of `DataPoint`. -/
def DataPoint.zero : DataPoint := ⟨Float64.zero, JSONTime.zero⟩

/-- The method `JSONTime.UnmarshalJSON`: the receiver after the call and the error
returned. -/
def JSONTime.UnmarshalJSON (t : JSONTime) (buf : GoString) : JSONTime × Option GoError :=
  match strconv.ParseInt buf with
  | (_, some err) => (t, some (.numError (bytes "ParseInt") buf err))
  | (stamp, none) => (⟨time.Unix stamp 0⟩, none)

/-- The call `json.Unmarshal(raw, &t)` for `t` a `JSONTime`: the type implements
`json.Unmarshaler`, so its method is called with the bytes of the value, whatever the
value is. -/
def json.unmarshalJSONTime (t : JSONTime) (raw : JSON) : JSONTime × Option GoError :=
  JSONTime.UnmarshalJSON t raw.raw

/-- The method `DataPoint.UnmarshalJSON`: the receiver after the call and what the call
returned.  Reading `tmp[i]` with `i` out of range is the `panic` outcome.  The buffer
is given as the JSON value it spells; bytes that spell no JSON value make the first
`json.Unmarshal` return a syntax error, which the method returns at once. -/
def DataPoint.UnmarshalJSON (d : DataPoint) (buf : JSON) : DataPoint × Status :=
  match json.unmarshalRawMessages [] buf with
  | (_, some err) => (d, .error err)
  | (tmp, none) =>
    if tmp.length ≠ 2 then
      (d, .error (.errorString (bytes "Wrong argument count for datapoint")))
    else
      match tmp[0]? with
      | none => (d, .panic)
      | some raw0 =>
        match json.unmarshalFloat64 d.Value raw0 with
        | (_, some err) => (d, .error err)
        | (value, none) =>
          match tmp[1]? with
          | none => (⟨value, d.TimeStamp⟩, .panic)
          | some raw1 =>
            match json.unmarshalJSONTime d.TimeStamp raw1 with
            | (_, some err) => (⟨value, d.TimeStamp⟩, .error err)
            | (stamp, none) => (⟨value, stamp⟩, .ok)

/-- The integer that an optionally signed string of decimal digits stands for; `none`
when the bytes are not of that form. -/
def signedDecimal (buf : GoString) : Option Int :=
  let ds := if buf.head? = some 45 ∨ buf.head? = some 43 then buf.tail else buf
  if ds = [] ∨ ¬ ds.all isDigit then none
  else some (if buf.head? = some 45 then -(decVal ds : Int) else (decVal ds : Int))

/-- Whether an integer fits in a signed 64-bit integer. -/
def fitsInt64 (n : Int) : Prop :=
  -(2 ^ 63 : Int) ≤ n ∧ n ≤ 2 ^ 63 - 1

instance (n : Int) : Decidable (fitsInt64 n) := by
  unfold fitsInt64
  infer_instance

/-- Whether the bytes are an optionally signed string of decimal digits whose value fits
in a signed 64-bit integer. -/
def isInt64Text (buf : GoString) : Bool :=
  match signedDecimal buf with
  | some n => decide (fitsInt64 n)
  | none => false

/-! ## Decoding the response body

`encoding/json` decodes a value into a Go variable.  A value of the wrong kind for the
variable is recorded with `saveError` and decoding goes on; an error returned by an
`UnmarshalJSON` method stops decoding at once. -/

/-- What stops a decoding: an error that is returned at once, or a run-time panic. -/
inductive Abort where
  | error (e : GoError)
  | panic
  deriving DecidableEq, Repr

namespace json

/-- The function `foldName` of `encoding/json`: ASCII letters in upper case, and the two
runes outside ASCII whose case folding is an ASCII letter, U+017F (`S`) and U+212A
(`K`).  Every other rune outside ASCII folds to a rune outside ASCII; its bytes are
kept as they are. -/
def foldName : GoString → GoString
  | [] => []
  | c :: rest =>
    if 97 ≤ c.val ∧ c.val ≤ 122 then Fin.ofNat (c.val - 32) :: foldName rest
    else if c.val = 197 then
      match rest with
      | b :: rest2 => if b.val = 191 then 83 :: foldName rest2 else c :: foldName (b :: rest2)
      | [] => [c]
    else if c.val = 226 then
      match rest with
      | b1 :: b2 :: rest3 =>
        if b1.val = 132 ∧ b2.val = 170 then 75 :: foldName rest3
        else c :: foldName (b1 :: b2 :: rest3)
      | short => c :: foldName short
    else c :: foldName rest

/-- The fields of the struct `Metric` that have a JSON name. -/
inductive MetricField where
  | target
  | datapoints
  deriving DecidableEq, Repr

/-- The field of `Metric` that an object key is decoded into: the field whose JSON name
is the key, or else the one whose name equals the key under case folding. -/
def metricField (key : GoString) : Option MetricField :=
  if key = bytes "target" then some .target
  else if key = bytes "datapoints" then some .datapoints
  else if foldName key = foldName (bytes "target") then some .target
  else if foldName key = foldName (bytes "datapoints") then some .datapoints
  else none

/-- Decoding a JSON value into a `string` variable: a string is stored, `null` leaves
the variable as it is, anything else is recorded as an `UnmarshalTypeError`. -/
def decodeString (cur : GoString) (saved : Option GoError) (j : JSON) :
    GoString × Option GoError :=
  match j with
  | .string s => (s, saved)
  | .null => (cur, saved)
  | other => (cur, saveError saved (.unmarshalTypeError (describe other) (bytes "string")))

/-- Decoding a JSON value into an element of a `[]DataPoint`: `DataPoint` implements
`json.Unmarshaler`, so its method is called with the value, whatever the value is. -/
def decodeDataPoint (d : DataPoint) (j : JSON) : Except Abort DataPoint :=
  match DataPoint.UnmarshalJSON d j with
  | (d2, .ok) => .ok d2
  | (_, .error e) => .error (.error e)
  | (_, .panic) => .error .panic

/-- The loop of `decodeState.array` over the elements of a JSON array: element `i` is
decoded into cell `i` of the backing array, a new cell being zero. -/
def decodeDataPointElems : List DataPoint → List JSON → Except Abort (List DataPoint)
  | _, [] => .ok []
  | cells, j :: js =>
    match decodeDataPoint (cells.headD DataPoint.zero) j with
    | .error a => .error a
    | .ok d =>
      match decodeDataPointElems cells.tail js with
      | .error a => .error a
      | .ok ds => .ok (d :: ds)

/-- A `[]DataPoint` variable: its elements, and the cells of its backing array beyond
its length, which a later decoding into the same variable reuses. -/
structure DataPointSlice where
  elems : List DataPoint
  spare : List DataPoint
  deriving DecidableEq, Repr

/-- Decoding a JSON value into a `[]DataPoint` variable: an array is decoded element by
element into the cells of the variable, the empty array gives a new empty slice, `null`
the nil slice; anything else is recorded as an `UnmarshalTypeError`. -/
def decodeDataPoints (s : DataPointSlice) (saved : Option GoError) (j : JSON) :
    Except Abort (DataPointSlice × Option GoError) :=
  match j with
  | .array elems =>
    match decodeDataPointElems (s.elems ++ s.spare) elems with
    | .error a => .error a
    | .ok ds =>
      if elems.isEmpty then .ok (⟨[], []⟩, saved)
      else .ok (⟨ds, (s.elems ++ s.spare).drop ds.length⟩, saved)
  | .null => .ok (⟨[], []⟩, saved)
  | other =>
    .ok (s, saveError saved
      (.unmarshalTypeError (describe other) (bytes "[]render.DataPoint")))

/-- A `Metric` variable while it is decoded: its `Target` and its `DataPoints`. -/
structure MetricCell where
  Target : GoString
  DataPoints : DataPointSlice
  deriving DecidableEq, Repr

/-- The zero value of `Metric`. -/
def MetricCell.zero : MetricCell := ⟨[], ⟨[], []⟩⟩

/-- The `Metric` that a decoded variable holds. -/
def MetricCell.metric (c : MetricCell) : Metric := ⟨c.Target, c.DataPoints.elems⟩

/-- One member of a JSON object decoded into a `Metric`: into the field the key
names, or skipped when the key names no field. -/
def decodeMember (st : MetricCell) (saved : Option GoError) (key : GoString) (val : JSON) :
    Except Abort (MetricCell × Option GoError) :=
  match metricField key with
  | some .target =>
    .ok (⟨(decodeString st.Target saved val).1, st.DataPoints⟩,
      (decodeString st.Target saved val).2)
  | some .datapoints =>
    match decodeDataPoints st.DataPoints saved val with
    | .error a => .error a
    | .ok (dps, saved2) => .ok (⟨st.Target, dps⟩, saved2)
  | none => .ok (st, saved)

/-- The loop of `decodeState.object` over the members of a JSON object, in order. -/
def decodeMembers (st : MetricCell) (saved : Option GoError) :
    List (GoString × JSON) → Except Abort (MetricCell × Option GoError)
  | [] => .ok (st, saved)
  | (key, val) :: rest =>
    match decodeMember st saved key val with
    | .error a => .error a
    | .ok (st2, saved2) => decodeMembers st2 saved2 rest

/-- Decoding a JSON value into a `Metric` variable: an object is decoded member by
member, `null` leaves the variable as it is, anything else is recorded as an
`UnmarshalTypeError`. -/
def decodeMetric (st : MetricCell) (saved : Option GoError) (j : JSON) :
    Except Abort (MetricCell × Option GoError) :=
  match j with
  | .object members => decodeMembers st saved members
  | .null => .ok (st, saved)
  | other =>
    .ok (st, saveError saved (.unmarshalTypeError (describe other) (bytes "render.Metric")))

/-- The loop of `decodeState.array` over the elements of a JSON array decoded into a
`Metrics` that was empty: every element is decoded into a zero `Metric`. -/
def decodeMetricElems (saved : Option GoError) :
    List JSON → Except Abort (List Metric × Option GoError)
  | [] => .ok ([], saved)
  | j :: js =>
    match decodeMetric MetricCell.zero saved j with
    | .error a => .error a
    | .ok (cell, saved2) =>
      match decodeMetricElems saved2 js with
      | .error a => .error a
      | .ok (ms, saved3) => .ok (cell.metric :: ms, saved3)

/-- Decoding a JSON value through `&m`, for `m` a `*Metrics` that points at an empty
`Metrics`: `null` sets `m` to nil, an array is decoded into the `Metrics`, anything
else is recorded as an `UnmarshalTypeError`. -/
def decodeMetricsPtr (saved : Option GoError) (j : JSON) :
    Except Abort (Option Metrics × Option GoError) :=
  match j with
  | .null => .ok (none, saved)
  | .array elems =>
    match decodeMetricElems saved elems with
    | .error a => .error a
    | .ok (ms, saved2) => .ok (some ms, saved2)
  | other =>
    .ok (some [], saveError saved
      (.unmarshalTypeError (describe other) (bytes "render.Metrics")))

/-- The call `json.NewDecoder(body).Decode(&m)` for `m` a `*Metrics` that points at an
empty `Metrics`.  The body is given as what the decoder reads from it: an error
(reading failed, the body is empty, the text is not JSON) or the first JSON value.
The result is the new `m` and what the call returned. -/
def Decode (body : Except GoError JSON) : Option Metrics × Status :=
  match body with
  | .error e => (some [], .error e)
  | .ok j =>
    match decodeMetricsPtr none j with
    | .error (.error e) => (some [], .error e)
    | .error .panic => (some [], .panic)
    | .ok (m, some e) => (m, .error e)
    | .ok (m, none) => (m, .ok)

end json

/-! ## The client -/

namespace url

/-- The struct `url.URL`; `User` is the user name with the password, if one is set. -/
structure URL where
  Scheme : GoString
  Opaque : GoString
  User : Option (GoString × Option GoString)
  Host : GoString
  Path : GoString
  RawPath : GoString
  OmitHost : Bool
  ForceQuery : Bool
  RawQuery : GoString
  Fragment : GoString
  RawFragment : GoString
  deriving DecidableEq, Repr

end url

/-- A `context.Context`, as far as a transport can see it: the error of `ctx.Err()`,
if the context is done. -/
structure Context where
  Err : Option GoError
  deriving DecidableEq, Repr

namespace http

/-- The function `validHeaderFieldByte` of `net/textproto`: the bytes of a token. -/
def validHeaderFieldByte (c : Fin 256) : Bool :=
  (48 ≤ c.val ∧ c.val ≤ 57) ∨ (97 ≤ c.val ∧ c.val ≤ 122) ∨ (65 ≤ c.val ∧ c.val ≤ 90)
    ∨ c.val = 33 ∨ (35 ≤ c.val ∧ c.val ≤ 39) ∨ c.val = 42 ∨ c.val = 43 ∨ c.val = 45
    ∨ c.val = 46 ∨ c.val = 94 ∨ c.val = 95 ∨ c.val = 96 ∨ c.val = 124 ∨ c.val = 126

/-- The second loop of `canonicalMIMEHeaderKey`: upper case at the start and after each
dash, lower case elsewhere. -/
def canonicalLoop : Bool → GoString → GoString
  | _, [] => []
  | upper, c :: rest =>
    let c2 : Fin 256 :=
      if upper ∧ 97 ≤ c.val ∧ c.val ≤ 122 then Fin.ofNat (c.val - 32)
      else if ¬ upper ∧ 65 ≤ c.val ∧ c.val ≤ 90 then Fin.ofNat (c.val + 32)
      else c
    c2 :: canonicalLoop (c2.val = 45) rest

/-- The function `textproto.CanonicalMIMEHeaderKey`: a key that holds a byte which is
not a token byte is returned as it is. -/
def CanonicalMIMEHeaderKey (key : GoString) : GoString :=
  if key.all validHeaderFieldByte then canonicalLoop true key else key

/-- The type `http.Header`, a `map[string][]string`. -/
abbrev Header := url.Values

/-- The method `Header.Set`. -/
def Header.Set (h : Header) (key value : GoString) : Header :=
  url.Values.store h (CanonicalMIMEHeaderKey key) [value]

/-- The struct `http.Request`, as far as `Fetch` touches it. -/
structure Request where
  Method : GoString
  URL : url.URL
  Header : Header
  ctx : Context
  deriving DecidableEq, Repr

/-- The method `Request.WithContext`. -/
def Request.WithContext (r : Request) (ctx : Context) : Request :=
  ⟨r.Method, r.URL, r.Header, ctx⟩

/-- The struct `http.Response`, as far as `Fetch` reads it: the status code, and the
body as `json.Decode` reads it. -/
structure Response where
  StatusCode : Int
  Body : Except GoError JSON

/-- The struct `http.Client`: its `Timeout` in nanoseconds, and its method `Do`, which
stands for the transport and the server behind it. -/
structure Client where
  Timeout : Int
  Do : Request → Except GoError Response

/-- The constant `http.StatusNoContent`. -/
def StatusNoContent : Int := 204

end http

/-! ### The functions of `net/url` and `net/http` that `Fetch` calls

`(*URL).String`, `url.Parse` and `http.NewRequest`, after the Go standard library. -/

namespace url

/-- The type `encoding` of `net/url`: the part of a URL that a text is escaped for. -/
inductive encoding where
  | encodePath
  | encodePathSegment
  | encodeHost
  | encodeZone
  | encodeUserPassword
  | encodeQueryComponent
  | encodeFragment
  deriving DecidableEq, Repr

/-- The function `shouldEscape(c, mode)`.  Letters and digits are never escaped; a host
or zone also keeps `! $ & ' ( ) * + , ; = : [ ] < > "`; `-` `_` `.` `~` are never
escaped; of the reserved characters `$ & + , / : ; = ? @` each mode escapes its own
set; a fragment also keeps `! ( ) *`; everything else is escaped. -/
def shouldEscapeMode (c : Fin 256) (mode : encoding) : Bool :=
  if (97 ≤ c.val ∧ c.val ≤ 122) ∨ (65 ≤ c.val ∧ c.val ≤ 90) ∨ (48 ≤ c.val ∧ c.val ≤ 57) then false
  else if (mode = .encodeHost ∨ mode = .encodeZone)
      ∧ c.val ∈ [33, 36, 38, 39, 40, 41, 42, 43, 44, 59, 61, 58, 91, 93, 60, 62, 34] then false
  else if c.val ∈ [45, 95, 46, 126] then false
  else if c.val ∈ [36, 38, 43, 44, 47, 58, 59, 61, 63, 64] then
    match mode with
    | .encodePath => c.val = 63
    | .encodePathSegment => c.val = 47 ∨ c.val = 59 ∨ c.val = 44 ∨ c.val = 63
    | .encodeUserPassword => c.val = 64 ∨ c.val = 47 ∨ c.val = 63 ∨ c.val = 58
    | .encodeQueryComponent => true
    | .encodeFragment => false
    | _ => true
  else if mode = .encodeFragment ∧ c.val ∈ [33, 40, 41, 42] then false
  else true

/-- What `escape(s, mode)` writes for one byte of `s`. -/
def escapeByteMode (mode : encoding) (c : Fin 256) : GoString :=
  if c.val = 32 ∧ mode = .encodeQueryComponent then [43]
  else if shouldEscapeMode c mode then [37, upperhex (c.val / 16), upperhex (c.val % 16)]
  else [c]

/-- The function `escape(s, mode)`. -/
def escape (s : GoString) (mode : encoding) : GoString :=
  s.flatMap (escapeByteMode mode)

/-- First loop of `unescape(s, mode)`: every `%` is followed by two hexadecimal digits;
in a host only bytes from `0x80` on and `%25` are written with `%`; in a zone only
`%25`, the space, and bytes that a host takes as they are; and a host or zone holds
no ASCII byte that must be escaped. -/
def unescapeCheck (mode : encoding) : GoString → Bool
  | [] => true
  | c :: rest =>
    if c.val = 37 then
      match rest with
      | a :: b :: rest2 =>
        ishex a && ishex b
          && !(decide (mode = .encodeHost ∧ unhex a < 8 ∧ ¬ (a.val = 50 ∧ b.val = 53)))
          && !(decide (mode = .encodeZone ∧ ¬ (a.val = 50 ∧ b.val = 53)
                ∧ unhex a * 16 + unhex b ≠ 32
                ∧ shouldEscapeMode (Fin.ofNat (unhex a * 16 + unhex b)) .encodeHost = true))
          && unescapeCheck mode rest2
      | _ => false
    else if c.val = 43 then unescapeCheck mode rest
    else if (mode = .encodeHost ∨ mode = .encodeZone) ∧ c.val < 128
        ∧ shouldEscapeMode c .encodeHost = true then false
    else unescapeCheck mode rest

/-- Second loop of `unescape(s, mode)`: `%XX` becomes one byte, and in a query
component `+` becomes a space. -/
def unescapeDecode (mode : encoding) : GoString → GoString
  | [] => []
  | c :: rest =>
    if c.val = 37 then
      match rest with
      | a :: b :: rest2 => Fin.ofNat (unhex a * 16 + unhex b) :: unescapeDecode mode rest2
      | _ => []
    else if c.val = 43 then
      (if mode = .encodeQueryComponent then 32 else 43) :: unescapeDecode mode rest
    else c :: unescapeDecode mode rest

/-- The function `unescape(s, mode)`; `none` is an error. -/
def unescape (s : GoString) (mode : encoding) : Option GoString :=
  if unescapeCheck mode s then some (unescapeDecode mode s) else none

/-- The function `validEncoded(s, mode)`. -/
def validEncoded (s : GoString) (mode : encoding) : Bool :=
  s.all (fun c =>
    decide (c.val ∈ [33, 36, 38, 39, 40, 41, 42, 43, 44, 59, 61, 58, 64, 91, 93, 37])
      || !shouldEscapeMode c mode)

/-- The function `validOptionalPort`: empty, or a colon and digits. -/
def validOptionalPort (port : GoString) : Bool :=
  match port with
  | [] => true
  | c :: digits => c.val = 58 && digits.all (fun b => decide (48 ≤ b.val ∧ b.val ≤ 57))

/-- The function `validUserinfo`. -/
def validUserinfo (s : GoString) : Bool :=
  s.all (fun r =>
    decide ((65 ≤ r.val ∧ r.val ≤ 90) ∨ (97 ≤ r.val ∧ r.val ≤ 122) ∨ (48 ≤ r.val ∧ r.val ≤ 57)
      ∨ r.val ∈ [45, 46, 95, 58, 126, 33, 36, 38, 39, 40, 41, 42, 43, 44, 59, 61, 37, 64]))

/-- The function `stringContainsCTLByte`. -/
def stringContainsCTLByte (s : GoString) : Bool :=
  s.any (fun b => decide (b.val < 32 ∨ b.val = 127))

/-- The call `strings.LastIndex(s, sep)` for a one-byte separator; `none` is `-1`. -/
def lastIndexByte (sep : Fin 256) : GoString → Option Nat
  | [] => none
  | c :: rest =>
    match lastIndexByte sep rest with
    | some i => some (i + 1)
    | none => if c = sep then some 0 else none

/-- The call `strings.Index(s, pat)`; `none` is `-1`. -/
def indexOf (pat : GoString) : GoString → Option Nat
  | [] => if pat = [] then some 0 else none
  | c :: rest =>
    if pat.isPrefixOf (c :: rest) then some 0 else (indexOf pat rest).map (· + 1)

/-- The call `strings.ToLower` on ASCII text. -/
def toLower (s : GoString) : GoString :=
  s.map (fun c => if 65 ≤ c.val ∧ c.val ≤ 90 then Fin.ofNat (c.val + 32) else c)

/-- The loop of `getScheme`: `none` is the error `missing protocol scheme`, `some none`
the outcome that there is no scheme, and `some (some (scheme, rest))` the scheme with
the text after its colon; `first` says that the loop is at the first byte. -/
def getSchemeLoop (first : Bool) : GoString → Option (Option (GoString × GoString))
  | [] => some none
  | c :: rest =>
    if (97 ≤ c.val ∧ c.val ≤ 122) ∨ (65 ≤ c.val ∧ c.val ≤ 90) then
      match getSchemeLoop false rest with
      | some (some (scheme, path)) => some (some (c :: scheme, path))
      | other => other
    else if (48 ≤ c.val ∧ c.val ≤ 57) ∨ c.val = 43 ∨ c.val = 45 ∨ c.val = 46 then
      if first then some none
      else
        match getSchemeLoop false rest with
        | some (some (scheme, path)) => some (some (c :: scheme, path))
        | other => other
    else if c.val = 58 then
      if first then none else some (some ([], rest))
    else some none

/-- The function `getScheme`: the scheme and the rest of the text; `none` is an
error. -/
def getScheme (rawURL : GoString) : Option (GoString × GoString) :=
  match getSchemeLoop true rawURL with
  | none => none
  | some none => some ([], rawURL)
  | some (some r) => some r

/-- The function `parseHost`: the host with its optional port, unescaped; the zone of
an IPv6 literal in brackets, which starts at the first `%25`, is unescaped in its own
mode. -/
def parseHost (host : GoString) : Option GoString :=
  if host.head? = some 91 then
    match lastIndexByte 93 host with
    | none => none
    | some i =>
      if ¬ validOptionalPort (host.drop (i + 1)) then none
      else
        match indexOf (bytes "%25") (host.take i) with
        | some zone =>
          match unescape (host.take zone) .encodeHost,
              unescape ((host.take i).drop zone) .encodeZone,
              unescape (host.drop i) .encodeHost with
          | some host1, some host2, some host3 => some (host1 ++ host2 ++ host3)
          | _, _, _ => none
        | none => unescape host .encodeHost
  else
    match lastIndexByte 58 host with
    | some i =>
      if ¬ validOptionalPort (host.drop i) then none else unescape host .encodeHost
    | none => unescape host .encodeHost

/-- The function `parseAuthority`: the user and the host of `[userinfo@]host`. -/
def parseAuthority (authority : GoString) :
    Option (Option (GoString × Option GoString) × GoString) :=
  match lastIndexByte 64 authority with
  | none =>
    match parseHost authority with
    | none => none
    | some host => some (none, host)
  | some i =>
    match parseHost (authority.drop (i + 1)) with
    | none => none
    | some host =>
      let userinfo := authority.take i
      if ¬ validUserinfo userinfo then none
      else if 58 ∉ userinfo then
        match unescape userinfo .encodeUserPassword with
        | none => none
        | some username => some (some (username, none), host)
      else
        match unescape (cutAt 58 userinfo).1 .encodeUserPassword,
            unescape (cutAt 58 userinfo).2 .encodeUserPassword with
        | some username, some password => some (some (username, some password), host)
        | _, _ => none

/-- The method `(*URL).setPath`. -/
def URL.setPath (u : URL) (p : GoString) : Option URL :=
  match unescape p .encodePath with
  | none => none
  | some path =>
    some { u with Path := path, RawPath := if p = escape path .encodePath then [] else p }

/-- The method `(*URL).setFragment`. -/
def URL.setFragment (u : URL) (f : GoString) : Option URL :=
  match unescape f .encodeFragment with
  | none => none
  | some frag =>
    some { u with
      Fragment := frag, RawFragment := if f = escape frag .encodeFragment then [] else f }

/-- The second half of `parse(rawURL, false)`, after the scheme and the query have been
cut off: a text that does not start with a slash is the opaque part of a URL with a
scheme, and without a scheme must not have a colon in its first segment; after `//`
comes the authority, up to the next slash; what is left is the path. -/
def parseAfterQuery (scheme : GoString) (forceQuery : Bool) (rawQuery rest : GoString) :
    Option URL :=
  if rest.head? ≠ some 47 ∧ scheme ≠ [] then
    some ⟨scheme, rest, none, [], [], [], false, forceQuery, rawQuery, [], []⟩
  else if rest.head? ≠ some 47 ∧ 58 ∈ (cutAt 47 rest).1 then none
  else if (scheme ≠ [] ∨ ¬ (bytes "///").isPrefixOf rest) ∧ (bytes "//").isPrefixOf rest then
    match parseAuthority ((rest.drop 2).takeWhile (fun c => c ≠ 47)) with
    | none => none
    | some (user, host) =>
      URL.setPath ⟨scheme, [], user, host, [], [], false, forceQuery, rawQuery, [], []⟩
        ((rest.drop 2).dropWhile (fun c => c ≠ 47))
  else
    URL.setPath
      ⟨scheme, [], none, [], [], [],
        decide (scheme ≠ [] ∧ rest.head? = some 47), forceQuery, rawQuery, [], []⟩ rest

/-- The function `parse(rawURL, false)`: a URL without its fragment; `none` is an
error.  The scheme is put in lower case; a text that ends in its only `?` has an
empty query that is forced, any other text is cut at its first `?`. -/
def parse (rawURL : GoString) : Option URL :=
  if stringContainsCTLByte rawURL then none
  else if rawURL = bytes "*" then
    some ⟨[], [], none, [], bytes "*", [], false, false, [], [], []⟩
  else
    match getScheme rawURL with
    | none => none
    | some (scheme, rest) =>
      if rest.getLast? = some 63 ∧ rest.count 63 = 1 then
        parseAfterQuery (toLower scheme) true [] rest.dropLast
      else parseAfterQuery (toLower scheme) false (cutAt 63 rest).2 (cutAt 63 rest).1

/-- The function `url.Parse`.  Its error is a `*url.Error`, of which only the start of
the text is kept, `parse` and the URL. -/
def Parse (rawURL : GoString) : Except GoError URL :=
  match parse (cutAt 35 rawURL).1 with
  | none => .error (.external (bytes "parse " ++ json.quote rawURL))
  | some u =>
    if (cutAt 35 rawURL).2 = [] then .ok u
    else
      match u.setFragment (cutAt 35 rawURL).2 with
      | none => .error (.external (bytes "parse " ++ json.quote rawURL))
      | some u2 => .ok u2

/-- The method `(*Userinfo).String`, for a user that is not nil. -/
def userinfoString (user : GoString × Option GoString) : GoString :=
  escape user.1 .encodeUserPassword
    ++ (match user.2 with
        | some password => 58 :: escape password .encodeUserPassword
        | none => [])

/-- The method `(*URL).EscapedPath`. -/
def URL.EscapedPath (u : URL) : GoString :=
  if u.RawPath ≠ [] ∧ validEncoded u.RawPath .encodePath
      ∧ unescape u.RawPath .encodePath = some u.Path then u.RawPath
  else if u.Path = bytes "*" then bytes "*"
  else escape u.Path .encodePath

/-- The method `(*URL).EscapedFragment`. -/
def URL.EscapedFragment (u : URL) : GoString :=
  if u.RawFragment ≠ [] ∧ validEncoded u.RawFragment .encodeFragment
      ∧ unescape u.RawFragment .encodeFragment = some u.Fragment then u.RawFragment
  else escape u.Fragment .encodeFragment

/-- The method `(*URL).String`. -/
def URL.String (u : URL) : GoString :=
  let buf : GoString := if u.Scheme ≠ [] then u.Scheme ++ [58] else []
  let buf : GoString :=
    if u.Opaque ≠ [] then buf ++ u.Opaque
    else
      let buf : GoString :=
        if u.Scheme ≠ [] ∨ u.Host ≠ [] ∨ u.User ≠ none then
          if u.OmitHost ∧ u.Host = [] ∧ u.User = none then buf
          else
            let buf := if u.Host ≠ [] ∨ u.Path ≠ [] ∨ u.User ≠ none then buf ++ bytes "//" else buf
            let buf :=
              match u.User with
              | some ui => buf ++ userinfoString ui ++ [64]
              | none => buf
            if u.Host ≠ [] then buf ++ escape u.Host .encodeHost else buf
        else buf
      let path := u.EscapedPath
      let buf := if path ≠ [] ∧ path.head? ≠ some 47 ∧ u.Host ≠ [] then buf ++ [47] else buf
      let buf :=
        if buf = [] ∧ 58 ∈ (cutAt 47 path).1 then buf ++ bytes "./" else buf
      buf ++ path
  let buf := if u.ForceQuery ∨ u.RawQuery ≠ [] then buf ++ 63 :: u.RawQuery else buf
  if u.Fragment ≠ [] then buf ++ 35 :: u.EscapedFragment else buf

end url

namespace http

/-- The function `validMethod`: a non-empty token. -/
def validMethod (method : GoString) : Bool :=
  method.length > 0 && method.all validHeaderFieldByte

/-- The function `hasPort`: `strings.LastIndex(s, ":") > strings.LastIndex(s, "]")`. -/
def hasPort (s : GoString) : Bool :=
  match url.lastIndexByte 58 s, url.lastIndexByte 93 s with
  | some i, some j => i > j
  | some _, none => true
  | none, _ => false

/-- The function `removeEmptyPort`: a host that ends in a colon with no port after it
loses the colon. -/
def removeEmptyPort (host : GoString) : GoString :=
  if hasPort host then (if host.getLast? = some 58 then host.dropLast else host) else host

/-- The function `http.NewRequest` with a nil body: the method is checked, the URL text
is parsed, and the host of the URL loses an empty port.  The request has an empty
header and the background context. -/
def NewRequest (method urlText : GoString) : Except GoError Request :=
  let method := if method = [] then bytes "GET" else method
  if ¬ validMethod method then
    .error (.external (bytes "net/http: invalid method " ++ json.quote method))
  else
    match url.Parse urlText with
    | .error err => .error err
    | .ok u => .ok ⟨method, { u with Host := removeEmptyPort u.Host }, [], ⟨none⟩⟩

end http

/-- The decimal text of an integer, as `fmt` writes it for the verb `%v`. -/
def formatInt (n : Int) : GoString :=
  (if n < 0 then [45] else []) ++ (Nat.toDigits 10 n.natAbs).map (fun c => Fin.ofNat c.toNat)

/-- The functions of `net/url` and `net/http` that `Fetch` calls, the method
`(*URL).String` and the function `http.NewRequest` (with a nil body), as parameters of
`Fetch`: what holds for every `Lib` holds whatever these two functions do. -/
structure Lib where
  URLString : url.URL → GoString
  NewRequest : GoString → GoString → Except GoError http.Request

/-- The two functions as the Go standard library has them. -/
def goLib : Lib := ⟨url.URL.String, http.NewRequest⟩

/-- The struct `Client`. -/
structure Client where
  httpClient : http.Client
  renderURL : url.URL

/-- What a call of `Fetch` does: return a `*Metrics` (`none` is the nil pointer) and an
`error` (`none` is nil), or panic. -/
inductive FetchResult where
  | returned (m : Option Metrics) (err : Option GoError)
  | panicked
  deriving DecidableEq, Repr

/-- The request that `Fetch` hands to the transport: the context, then the two
headers. -/
def prepareRequest (req : http.Request) (ctx : Context) : http.Request :=
  let req := req.WithContext ctx
  let req : http.Request :=
    ⟨req.Method, req.URL, http.Header.Set req.Header (bytes "Accept") (bytes "application/json"),
      req.ctx⟩
  ⟨req.Method, req.URL, http.Header.Set req.Header (bytes "User-agent") (bytes "FooBAr/200.1"),
    req.ctx⟩

/-- One call of `Fetch`, with what it leaves behind: the client after the call, the
local variable `u`, the text handed to `http.NewRequest`, the request handed to the
transport (`none` when `Do` is not called), and what `Fetch` returns. -/
structure FetchRun where
  client : Client
  u : url.URL
  urlText : GoString
  sent : Option http.Request
  result : FetchResult

/-- The method `Client.Fetch`, statement by statement, with its effects.  The statement
`u := *c.renderURL` copies the URL into the local `u` (the `*Userinfo` inside is shared
and never written), and `u.RawQuery = mr.Encode()` writes to that copy; the request is
built from the text `u.String()`; no statement assigns to a field of `c` or through
`c.renderURL`.  The deferred function, which reads up to 512 bytes of the body and
closes it, changes nothing that `Fetch` returns. -/
def Client.fetchRun (lib : Lib) (c : Client) (ctx : Context) (mr : MetricRequest) : FetchRun :=
  let u : url.URL := c.renderURL
  let u : url.URL := { u with RawQuery := mr.Encode }
  let urlText := lib.URLString u
  match lib.NewRequest (bytes "GET") urlText with
  | .error _ => ⟨c, u, urlText, none, .returned none none⟩
  | .ok req =>
    let req := prepareRequest req ctx
    match c.httpClient.Do req with
    | .error err => ⟨c, u, urlText, some req, .returned none (some err)⟩
    | .ok resp =>
      ⟨c, u, urlText, some req,
        if resp.StatusCode < 200 ∨ resp.StatusCode ≥ 300 then
          .returned none (some (.errorString (bytes "Error: " ++ formatInt resp.StatusCode)))
        else if resp.StatusCode ≠ http.StatusNoContent then
          match json.Decode resp.Body with
          | (_, .error err) => .returned none (some err)
          | (_, .panic) => .panicked
          | (m, .ok) => .returned m none
        else .returned (some []) none⟩

/-- The method `Client.Fetch`: what the call returns. -/
def Client.Fetch (lib : Lib) (c : Client) (ctx : Context) (mr : MetricRequest) : FetchResult :=
  (c.fetchRun lib ctx mr).result

/-! ### A server for the examples -/

/-- A URL with nothing set. -/
def url.URL.empty : url.URL := ⟨[], [], none, [], [], [], false, false, [], [], []⟩

/-- A stand-in for the two library functions: the URL text is the scheme, host, path
and query written one after the other, and every request can be built. -/
def exampleLib : Lib :=
  ⟨fun u => u.Scheme ++ bytes "://" ++ u.Host ++ u.Path ++ bytes "?" ++ u.RawQuery,
   fun method _ => .ok ⟨method, url.URL.empty, [], ⟨none⟩⟩⟩

/-- A client whose server answers every request with the given status and body. -/
def exampleClient (status : Int) (body : Except GoError JSON) : Client :=
  ⟨⟨5000000000, fun _ => .ok ⟨status, body⟩⟩,
   ⟨bytes "http", [], none, bytes "graphite.example", bytes "/render", [], false, false,
     [], [], []⟩⟩

/-- The body `[{"target": "a", "datapoints": [[1.5, 1609459200]]}]`. -/
def exampleBody : JSON :=
  .array [.object [(bytes "target", .string (bytes "a")),
    (bytes "datapoints",
      .array [.array [.number (bytes "1.5"), .number (bytes "1609459200")]])]]

/-! ### The body a render server sends -/

/-- One pair `[value, stamp]` of a body: the value as a JSON value, the time stamp as
the text of a number. -/
structure WirePoint where
  value : JSON
  stamp : GoString

/-- One object of a body: `{"target": ..., "datapoints": [...]}`, or with the two
members in the other order when `datapointsFirst` is set. -/
structure WireSeries where
  target : GoString
  points : List WirePoint
  datapointsFirst : Bool

/-- The JSON array `[value, stamp]`. -/
def WirePoint.toJSON (p : WirePoint) : JSON :=
  .array [p.value, .number p.stamp]

/-- The JSON object with the members `"target": target` and
`"datapoints": [[value, stamp], ...]`, in the order the series has them. -/
def WireSeries.toJSON (s : WireSeries) : JSON :=
  if s.datapointsFirst then
    .object [(bytes "datapoints", .array (s.points.map WirePoint.toJSON)),
      (bytes "target", .string s.target)]
  else
    .object [(bytes "target", .string s.target),
      (bytes "datapoints", .array (s.points.map WirePoint.toJSON))]

/-- The values that can stand first in a pair: `null`, or a JSON number with at most 800
digits before its exponent part whose value is below `2 ^ 1024 - 2 ^ 970` in
magnitude. -/
def IsPointValue (v : JSON) : Prop :=
  v = .null
  ∨ ∃ (p : NumberLit) (upper plus : Bool), v = .number (p.text upper plus) ∧ p.IsJSON
      ∧ p.intDigits.length + p.fracDigits.length ≤ 800
      ∧ |p.value| < (2 : ℚ) ^ 1024 - (2 : ℚ) ^ 970

/-- A pair whose value can stand first in a pair and whose time stamp is the decimal
text of an integer in the signed 64-bit range. -/
def WirePoint.WellFormed (p : WirePoint) : Prop :=
  IsPointValue p.value ∧ isInt64Text p.stamp = true

/-- That a `DataPoint` holds what a pair says: its `TimeStamp` is `time.Unix(n, 0)` for
the integer `n` of the time stamp; its `Value` is zero when the value is `null`, and
the `float64` nearest to the number when it is a number. -/
def WirePoint.Decodes (p : WirePoint) (dp : DataPoint) : Prop :=
  (∃ n, signedDecimal p.stamp = some n ∧ dp.TimeStamp = ⟨time.Unix n 0⟩)
  ∧ (p.value = .null → dp.Value = Float64.zero)
  ∧ (∀ (q : NumberLit) (upper plus : Bool), q.IsJSON →
      p.value = .number (q.text upper plus) → IsNearestFloat64 q.value dp.Value)

/-- That a `Metric` holds what an object of the body says: its target, and one
`DataPoint` per pair, in order. -/
def WireSeries.Decodes (s : WireSeries) (m : Metric) : Prop :=
  m.Target = s.target ∧ List.Forall₂ WirePoint.Decodes s.points m.DataPoints

/-- The values of a JSON object that are decoded as data points: the elements of every
array under a key that names the field `DataPoints`. -/
def memberDataPoints : List (GoString × JSON) → List JSON
  | [] => []
  | (key, val) :: rest =>
    (if json.metricField key = some .datapoints then
      match val with
      | .array dps => dps
      | _ => []
    else []) ++ memberDataPoints rest

/-- The values of the elements of a JSON array that are decoded as data points. -/
def elemDataPoints : List JSON → List JSON
  | [] => []
  | .object members :: rest => memberDataPoints members ++ elemDataPoints rest
  | _ :: rest => elemDataPoints rest

/-- The values of a body that are decoded as data points. -/
def bodyDataPoints : JSON → List JSON
  | .array elems => elemDataPoints elems
  | _ => []

/-- Whether a member of an object has a value of a kind that its field does not take:
under a key that names `Target` anything but a string or `null`, under a key that
names `DataPoints` anything but an array or `null`. -/
def memberMismatch (m : GoString × JSON) : Bool :=
  match json.metricField m.1, m.2 with
  | some .target, .string _ => false
  | some .target, .null => false
  | some .target, _ => true
  | some .datapoints, .array _ => false
  | some .datapoints, .null => false
  | some .datapoints, _ => true
  | none, _ => false

/-- Whether an element of the body is of a kind that a `Metric` does not take, anything
but an object or `null`, or is an object with such a member. -/
def elemMismatch : JSON → Bool
  | .object members => members.any memberMismatch
  | .null => false
  | _ => true

/-- Whether a body is of a kind that a `Metrics` does not take, anything but an array
or `null`, or is an array with such an element. -/
def bodyMismatch : JSON → Bool
  | .array elems => elems.any elemMismatch
  | .null => false
  | _ => true

/-! ### Construction -/

/-- The constant `time.Second`, a `time.Duration` in nanoseconds. -/
def time.Second : Int := 1000 * (1000 * (1000 * 1))

/-- The constant `defaultTimeout`. -/
def defaultTimeout : Int := 5 * time.Second

/-- The function `NewClient`; the result is the `*Client` (`none` is nil) and the error.
`parse` is the function `url.Parse`, a parameter here, so that what holds for every
`parse` holds for `url.Parse` above, and `defaultDo` is how an `http.Client` without a
transport of its own sends a request. -/
def NewClient (parse : GoString → Except GoError url.URL)
    (defaultDo : http.Request → Except GoError http.Response)
    (httpClient : Option http.Client) (renderURI : GoString) :
    Option Client × Option GoError :=
  let httpClient : http.Client :=
    match httpClient with
    | none => ⟨defaultTimeout, defaultDo⟩
    | some given => given
  match parse renderURI with
  | .error err => (none, some err)
  | .ok u => (some ⟨httpClient, u⟩, none)

/-- The `error` that a call of `Fetch` returned. -/
def FetchResult.err : FetchResult → Option GoError
  | .returned _ e => e
  | .panicked => none

/-- A stand-in for `url.Parse`: a text with a control byte does not parse, any other text
is taken as a path. -/
def exampleParse (s : GoString) : Except GoError url.URL :=
  if s.any (fun c => decide (c.val < 32 ∨ c.val = 127)) then
    .error (.external (bytes "net/url: invalid control character in URL"))
  else .ok ⟨[], [], none, [], s, [], false, false, [], [], []⟩

/-- A stand-in for the default transport: every request is answered with 204. -/
def exampleDo (_ : http.Request) : Except GoError http.Response :=
  .ok ⟨204, .error (.external (bytes "EOF"))⟩

/-- Library functions with which no request can be built. -/
def failingLib : Lib :=
  ⟨exampleLib.URLString, fun _ _ => .error (.external (bytes "net/http: invalid method"))⟩

/-- A client whose base URL carries a query string of its own and a fragment. -/
def exampleQueryClient : Client :=
  ⟨⟨5000000000, exampleDo⟩,
   ⟨bytes "http", [], none, bytes "graphite.example", bytes "/render", [], false, false,
     bytes "format=csv&x=1", bytes "top", []⟩⟩

/-! ### Plain hosts -/

/-- Whether a host is a plain name with an optional port: letters, digits, `.` and `-`,
then possibly a colon and digits. -/
def isPlainHost (h : GoString) : Bool :=
  (cutAt 58 h).1.all (fun c => decide ((97 ≤ c.val ∧ c.val ≤ 122) ∨ (65 ≤ c.val ∧ c.val ≤ 90)
      ∨ (48 ≤ c.val ∧ c.val ≤ 57) ∨ c.val = 46 ∨ c.val = 45))
    && (cutAt 58 h).2.all (fun c => decide (48 ≤ c.val ∧ c.val ≤ 57))

/-! ## Request encoding -/

theorem store_append_absent (v : url.Values) (key : GoString) (vs : List GoString)
    (h : ∀ p ∈ v, p.1 ≠ key) : url.Values.store v key vs = v ++ [(key, vs)] := by
  induction v with
  | nil => rfl
  | cons p rest ih =>
    obtain ⟨k, old⟩ := p
    have hk : k ≠ key := h (k, old) (List.mem_cons_self _ _)
    have hrest : ∀ q ∈ rest, q.1 ≠ key := fun q hq => h q (List.mem_cons_of_mem _ hq)
    simp [url.Values.store, hk, ih hrest]

theorem lookup_absent (v : url.Values) (key : GoString)
    (h : ∀ p ∈ v, p.1 ≠ key) : url.Values.lookup v key = [] := by
  induction v with
  | nil => rfl
  | cons p rest ih =>
    obtain ⟨k, old⟩ := p
    have hk : k ≠ key := h (k, old) (List.mem_cons_self _ _)
    have hrest : ∀ q ∈ rest, q.1 ≠ key := fun q hq => h q (List.mem_cons_of_mem _ hq)
    simp [url.Values.lookup, hk, ih hrest]

theorem store_last (v : url.Values) (key : GoString) (old vs : List GoString)
    (h : ∀ p ∈ v, p.1 ≠ key) :
    url.Values.store (v ++ [(key, old)]) key vs = v ++ [(key, vs)] := by
  induction v with
  | nil => simp [url.Values.store]
  | cons p rest ih =>
    obtain ⟨k, o⟩ := p
    have hk : k ≠ key := h (k, o) (List.mem_cons_self _ _)
    have hrest : ∀ q ∈ rest, q.1 ≠ key := fun q hq => h q (List.mem_cons_of_mem _ hq)
    simp [url.Values.store, hk, ih hrest]

theorem lookup_last (v : url.Values) (key : GoString) (old : List GoString)
    (h : ∀ p ∈ v, p.1 ≠ key) :
    url.Values.lookup (v ++ [(key, old)]) key = old := by
  induction v with
  | nil => simp [url.Values.lookup]
  | cons p rest ih =>
    obtain ⟨k, o⟩ := p
    have hk : k ≠ key := h (k, o) (List.mem_cons_self _ _)
    have hrest : ∀ q ∈ rest, q.1 ≠ key := fun q hq => h q (List.mem_cons_of_mem _ hq)
    simp [url.Values.lookup, hk, ih hrest]

/-- Once the key `target` is in the map, the loop appends the non-empty targets to it. -/
theorem addTargets_present (v : url.Values) (old ts : List GoString)
    (h : ∀ p ∈ v, p.1 ≠ bytes "target") :
    addTargets (v ++ [(bytes "target", old)]) ts
      = v ++ [(bytes "target", old ++ ts.filter (fun t => decide (t.length > 0)))] := by
  induction ts generalizing old with
  | nil => simp [addTargets]
  | cons t ts ih =>
    by_cases ht : t.length > 0
    · simp only [addTargets, ht, if_true, url.Values.Add, lookup_last v _ old h,
        store_last v _ old _ h, ih, List.filter_cons, decide_True, List.append_assoc,
        List.singleton_append]
    · simp only [addTargets, ht, if_false, ih, List.filter_cons, decide_False]
      simp

/-- The loop over `Target` adds one entry `target` holding the non-empty targets, or
nothing when there is none. -/
theorem addTargets_absent (v : url.Values) (ts : List GoString)
    (h : ∀ p ∈ v, p.1 ≠ bytes "target") :
    addTargets v ts
      = if ts.filter (fun t => decide (t.length > 0)) = [] then v
        else v ++ [(bytes "target", ts.filter (fun t => decide (t.length > 0)))] := by
  induction ts with
  | nil => simp [addTargets]
  | cons t ts ih =>
    by_cases ht : t.length > 0
    · have h1 : url.Values.Add v (bytes "target") t = v ++ [(bytes "target", [t])] := by
        simp [url.Values.Add, lookup_absent v _ h, store_append_absent v _ _ h]
      simp only [addTargets, ht, if_true, h1, addTargets_present v [t] ts h,
        List.filter_cons, decide_True]
      simp
    · simp only [addTargets, ht, if_false, ih, List.filter_cons, decide_False]
      simp

/-- The inner loop of `Values.Encode` on a buffer that already holds something. -/
theorem foldl_encodePair (ke buf : GoString) (xs : List GoString) (h : buf ≠ []) :
    xs.foldl (url.encodePair ke) buf
      = buf ++ xs.flatMap (fun x => [38] ++ ke ++ [61] ++ url.QueryEscape x) := by
  induction xs generalizing buf with
  | nil => simp
  | cons x xs ih =>
    have hlen : buf.length > 0 := List.length_pos.mpr h
    have hne : url.encodePair ke buf x ≠ [] := by
      simp [url.encodePair, hlen, h]
    rw [List.foldl_cons, ih _ hne]
    simp [url.encodePair, hlen]

theorem sort_keys_1 : sortStrings [bytes "format"] = [bytes "format"] := by decide

theorem sort_keys_2a : sortStrings [bytes "format", bytes "from"]
    = [bytes "format", bytes "from"] := by decide

theorem sort_keys_2b : sortStrings [bytes "format", bytes "until"]
    = [bytes "format", bytes "until"] := by decide

theorem sort_keys_2c : sortStrings [bytes "format", bytes "target"]
    = [bytes "format", bytes "target"] := by decide

theorem sort_keys_3a : sortStrings [bytes "format", bytes "from", bytes "until"]
    = [bytes "format", bytes "from", bytes "until"] := by decide

theorem sort_keys_3b : sortStrings [bytes "format", bytes "from", bytes "target"]
    = [bytes "format", bytes "from", bytes "target"] := by decide

theorem sort_keys_3c : sortStrings [bytes "format", bytes "until", bytes "target"]
    = [bytes "format", bytes "target", bytes "until"] := by decide

theorem sort_keys_4 : sortStrings [bytes "format", bytes "from", bytes "until", bytes "target"]
    = [bytes "format", bytes "from", bytes "target", bytes "until"] := by decide

theorem key_ne_1 : bytes "format" ≠ bytes "from" := by decide
theorem key_ne_2 : bytes "format" ≠ bytes "until" := by decide
theorem key_ne_3 : bytes "format" ≠ bytes "target" := by decide
theorem key_ne_4 : bytes "from" ≠ bytes "until" := by decide
theorem key_ne_5 : bytes "from" ≠ bytes "target" := by decide
theorem key_ne_6 : bytes "until" ≠ bytes "target" := by decide

theorem escape_key_format : url.QueryEscape (bytes "format") = bytes "format" := by decide
theorem escape_key_from : url.QueryEscape (bytes "from") = bytes "from" := by decide
theorem escape_key_until : url.QueryEscape (bytes "until") = bytes "until" := by decide
theorem escape_key_target : url.QueryEscape (bytes "target") = bytes "target" := by decide
theorem bytes_amp_from : bytes "&from=" = [38] ++ bytes "from" ++ [61] := by decide
theorem bytes_amp_until : bytes "&until=" = [38] ++ bytes "until" ++ [61] := by decide
theorem bytes_amp_target : bytes "&target=" = [38] ++ bytes "target" ++ [61] := by decide
theorem bytes_format_json_ne : bytes "format=json" ≠ [] := by decide

/-- The map that `MetricRequest.Encode` has built when it calls `Values.Encode`. -/
theorem encode_values (m : MetricRequest) :
    addTargets
      (let v : url.Values := []
       let v := v.Set (bytes "format") (bytes "json")
       let v := if m.From.length > 0 then v.Set (bytes "from") m.From else v
       if m.Until.length > 0 then v.Set (bytes "until") m.Until else v) m.Target
    = [(bytes "format", [bytes "json"])]
        ++ (if m.From.length > 0 then [(bytes "from", [m.From])] else [])
        ++ (if m.Until.length > 0 then [(bytes "until", [m.Until])] else [])
        ++ (if nonEmptyTargets m = [] then [] else [(bytes "target", nonEmptyTargets m)]) := by
  have e1 := key_ne_3
  have e2 := key_ne_5
  have e3 := key_ne_6
  have e4 := key_ne_1
  have e5 := key_ne_2
  have e6 := key_ne_4
  rw [addTargets_absent]
  · unfold nonEmptyTargets
    by_cases hf : m.From.length > 0 <;> by_cases hu : m.Until.length > 0 <;>
      by_cases ht : m.Target.filter (fun t => decide (t.length > 0)) = [] <;>
      simp [url.Values.Set, url.Values.store, hf, hu, ht, e4, e5, e6]
  · intro p hp
    have hmem : p.1 = bytes "format" ∨ p.1 = bytes "from" ∨ p.1 = bytes "until" := by
      by_cases hf : m.From.length > 0 <;> by_cases hu : m.Until.length > 0 <;>
        simp [url.Values.Set, url.Values.store, hf, hu, e4, e5, e6] at hp <;>
        aesop
    rcases hmem with h | h | h <;> rw [h]
    · exact e1
    · exact e2
    · exact e3

/-- What the code computes: the parameters come out grouped by key, the keys in
sorted order. -/
theorem encode_eq (m : MetricRequest) :
    m.Encode = bytes "format=json" ++ fromParam m ++ targetParams m ++ untilParam m := by
  have hv := encode_values m
  simp only [] at hv
  unfold MetricRequest.Encode
  simp only []
  rw [hv]
  have hfj : url.encodePair (bytes "format") [] (bytes "json") = bytes "format=json" := by
    decide
  have hne := bytes_format_json_ne
  have hlen : 0 < (bytes "format=json").length := by decide
  have e1 := key_ne_3
  have e2 := key_ne_5
  have e3 := key_ne_6
  have e4 := key_ne_1
  have e5 := key_ne_2
  have e6 := key_ne_4
  unfold fromParam untilParam targetParams
  by_cases hf : m.From.length > 0 <;> by_cases hu : m.Until.length > 0 <;>
    by_cases ht : nonEmptyTargets m = [] <;>
    simp only [hf, hu, ht, if_true, if_false, url.Values.Encode, List.append_nil, List.map,
      List.cons_append, List.nil_append, List.length_cons, List.length_nil,
      sort_keys_1, sort_keys_2a, sort_keys_2b, sort_keys_2c, sort_keys_3a, sort_keys_3b,
      sort_keys_3c, sort_keys_4, List.foldl_cons, List.foldl_nil, url.Values.lookup,
      e1, e2, e3, e4, e5, e6, e1.symm, e2.symm, e3.symm, e4.symm, e5.symm, e6.symm,
      escape_key_format, escape_key_from, escape_key_until, escape_key_target, hfj,
      List.flatMap_nil, Nat.add_eq_zero, one_ne_zero, and_false, ite_false,
      bytes_amp_from, bytes_amp_until, bytes_amp_target] <;>
    simp [url.encodePair, hne, hlen, foldl_encodePair]

/-- C1: when `Until` is empty or `Target` has no non-empty entry, `Encode` returns
`format=json`, then `&from=` and the escaped `From` if `From` is non-empty, then
`&until=` and the escaped `Until` if `Until` is non-empty, then `&target=` and the
escaped target for each non-empty entry of `Target` in input order. -/
theorem encode_from_until_target (m : MetricRequest)
    (h : m.Until = [] ∨ ∀ t ∈ m.Target, t = []) :
    m.Encode = bytes "format=json" ++ fromParam m ++ untilParam m ++ targetParams m := by
  rw [encode_eq]
  rcases h with h | h
  · have hu : untilParam m = [] := by simp [untilParam, h]
    simp [hu]
  · have ht : targetParams m = [] := by
      have hn : nonEmptyTargets m = [] := by
        unfold nonEmptyTargets
        rw [List.filter_eq_nil_iff]
        intro t ht
        simp [h t ht]
      simp [targetParams, hn]
    simp [ht]

/-- C1 on the four requests of the test table: the blank request, `From` with
`Until`, two targets, and `From` with two targets. -/
theorem encode_from_until_target_witness :
    (MetricRequest.mk [] [] []).Encode = bytes "format=json"
    ∧ (MetricRequest.mk (bytes "-5min") (bytes "-19years") []).Encode
        = bytes "format=json&from=-5min&until=-19years"
    ∧ (MetricRequest.mk [] [] [bytes "Fooo", bytes "Bar"]).Encode
        = bytes "format=json&target=Fooo&target=Bar"
    ∧ (MetricRequest.mk (bytes "-1year") [] [bytes "One", bytes "Two"]).Encode
        = bytes "format=json&from=-1year&target=One&target=Two" :=
  ⟨(encode_from_until_target ⟨[], [], []⟩ (Or.inl rfl)).trans (by decide),
   (encode_from_until_target ⟨bytes "-5min", bytes "-19years", []⟩
      (Or.inr (by simp))).trans (by decide),
   (encode_from_until_target ⟨[], [], [bytes "Fooo", bytes "Bar"]⟩ (Or.inl rfl)).trans
      (by decide),
   (encode_from_until_target ⟨bytes "-1year", [], [bytes "One", bytes "Two"]⟩
      (Or.inl rfl)).trans (by decide)⟩

/-! ### The parameters of the encoded string -/

theorem splitOn_no_sep (sep : Fin 256) (s : GoString) (h : sep ∉ s) :
    splitOn sep s = [s] := by
  induction s with
  | nil => rfl
  | cons c rest ih =>
    have hc : c ≠ sep := fun hc => h (by simp [hc])
    have hr : sep ∉ rest := fun hr => h (List.mem_cons_of_mem _ hr)
    simp [splitOn, hc, ih hr]

theorem splitOn_append_sep (sep : Fin 256) (p rest : GoString) (h : sep ∉ p) :
    splitOn sep (p ++ sep :: rest) = p :: splitOn sep rest := by
  induction p with
  | nil => simp [splitOn]
  | cons c p ih =>
    have hc : c ≠ sep := fun hc => h (by simp [hc])
    have hr : sep ∉ p := fun hr => h (List.mem_cons_of_mem _ hr)
    simp [splitOn, hc, ih hr]

/-- Splitting a string built from pieces that hold no separator gives the pieces back. -/
theorem splitOn_pieces (sep : Fin 256) (p0 : GoString) (ps : List GoString)
    (h0 : sep ∉ p0) (h : ∀ p ∈ ps, sep ∉ p) :
    splitOn sep (p0 ++ ps.flatMap (fun p => sep :: p)) = p0 :: ps := by
  induction ps generalizing p0 with
  | nil => simpa using splitOn_no_sep sep p0 h0
  | cons p ps ih =>
    have hp : sep ∉ p := h p (List.mem_cons_self _ _)
    have hps : ∀ q ∈ ps, sep ∉ q := fun q hq => h q (List.mem_cons_of_mem _ hq)
    simp only [List.flatMap_cons, List.cons_append]
    rw [splitOn_append_sep sep p0 _ h0, ih p hp hps]

theorem cutAt_append_sep (sep : Fin 256) (k v : GoString) (h : sep ∉ k) :
    cutAt sep (k ++ sep :: v) = (k, v) := by
  induction k with
  | nil => simp [cutAt]
  | cons c k ih =>
    have hc : c ≠ sep := fun hc => h (by simp [hc])
    have hr : sep ∉ k := fun hr => h (List.mem_cons_of_mem _ hr)
    simp [cutAt, hc, ih hr]

theorem escapeByte_no_amp_eq : ∀ c : Fin 256, (38 : Fin 256) ∉ url.escapeByte c
    ∧ (61 : Fin 256) ∉ url.escapeByte c := by
  decide

/-- An escaped string holds neither `&` nor `=`. -/
theorem queryEscape_no_sep (s : GoString) :
    (38 : Fin 256) ∉ url.QueryEscape s ∧ (61 : Fin 256) ∉ url.QueryEscape s := by
  unfold url.QueryEscape
  constructor
  · intro h
    rw [List.mem_flatMap] at h
    obtain ⟨c, _, hc⟩ := h
    exact (escapeByte_no_amp_eq c).1 hc
  · intro h
    rw [List.mem_flatMap] at h
    obtain ⟨c, _, hc⟩ := h
    exact (escapeByte_no_amp_eq c).2 hc

theorem escapeByte_cases : ∀ c : Fin 256,
    (c.val = 32 ∧ url.escapeByte c = [43])
    ∨ (url.escapeByte c = [37, url.upperhex (c.val / 16), url.upperhex (c.val % 16)]
        ∧ url.ishex (url.upperhex (c.val / 16)) = true
        ∧ url.ishex (url.upperhex (c.val % 16)) = true
        ∧ Fin.ofNat (url.unhex (url.upperhex (c.val / 16)) * 16
            + url.unhex (url.upperhex (c.val % 16))) = c)
    ∨ (url.escapeByte c = [c] ∧ c.val ≠ 37 ∧ c.val ≠ 43) := by
  decide

theorem unescapeValid_percent (a b : Fin 256) (r : GoString) :
    url.unescapeValid (37 :: a :: b :: r)
      = (url.ishex a && url.ishex b && url.unescapeValid r) := rfl

theorem unescapeBytes_percent (a b : Fin 256) (r : GoString) :
    url.unescapeBytes (37 :: a :: b :: r)
      = Fin.ofNat (url.unhex a * 16 + url.unhex b) :: url.unescapeBytes r := rfl

theorem unescapeValid_plain (c : Fin 256) (r : GoString) (h : c.val ≠ 37) :
    url.unescapeValid (c :: r) = url.unescapeValid r := by
  rcases r with _ | ⟨a, _ | ⟨b, r⟩⟩ <;> simp [url.unescapeValid, h]

theorem unescapeBytes_plus (r : GoString) :
    url.unescapeBytes (43 :: r) = 32 :: url.unescapeBytes r := by
  have h37 : ((43 : Fin 256) : Nat) ≠ 37 := by decide
  have h43 : ((43 : Fin 256) : Nat) = 43 := by decide
  rcases r with _ | ⟨a, _ | ⟨b, r⟩⟩ <;> simp [url.unescapeBytes, h37, h43]

theorem unescapeBytes_plain (c : Fin 256) (r : GoString) (h : c.val ≠ 37) (h2 : c.val ≠ 43) :
    url.unescapeBytes (c :: r) = c :: url.unescapeBytes r := by
  rcases r with _ | ⟨a, _ | ⟨b, r⟩⟩ <;> simp [url.unescapeBytes, h, h2]

theorem unescape_escapeByte (c : Fin 256) (rest : GoString) :
    url.unescapeValid (url.escapeByte c ++ rest) = url.unescapeValid rest
    ∧ url.unescapeBytes (url.escapeByte c ++ rest) = c :: url.unescapeBytes rest := by
  rcases escapeByte_cases c with ⟨h32, he⟩ | ⟨he, h1, h2, h3⟩ | ⟨he, h37, h43⟩
  · have hc : c = 32 := Fin.ext h32
    rw [he, hc]
    exact ⟨unescapeValid_plain 43 rest (by decide), unescapeBytes_plus rest⟩
  · rw [he]
    constructor
    · show url.unescapeValid (37 :: _ :: _ :: rest) = _
      rw [unescapeValid_percent, h1, h2]
      simp
    · show url.unescapeBytes (37 :: _ :: _ :: rest) = _
      rw [unescapeBytes_percent, h3]
  · rw [he]
    exact ⟨unescapeValid_plain c rest h37, unescapeBytes_plain c rest h37 h43⟩

/-- Unescaping undoes escaping, for every byte string. -/
theorem queryUnescape_queryEscape (s : GoString) :
    url.QueryUnescape (url.QueryEscape s) = some s := by
  have h : url.unescapeValid (url.QueryEscape s) = true
      ∧ url.unescapeBytes (url.QueryEscape s) = s := by
    induction s with
    | nil => exact ⟨rfl, rfl⟩
    | cons c s ih =>
      have hc := unescape_escapeByte c (url.QueryEscape s)
      have hq : url.QueryEscape (c :: s) = url.escapeByte c ++ url.QueryEscape s := by
        simp [url.QueryEscape]
      rw [hq, hc.1, hc.2, ih.1, ih.2]
      exact ⟨rfl, rfl⟩
  simp [url.QueryUnescape, h.1, h.2]

theorem param_no_amp (key value : GoString) (hk : (38 : Fin 256) ∉ key) :
    (38 : Fin 256) ∉ param key value := by
  have hv := (queryEscape_no_sep value).1
  simp [param, hk, hv]

theorem parsePair_param (key value : GoString) (hk : (61 : Fin 256) ∉ key)
    (he : url.QueryEscape key = key) :
    parsePair (param key value) = some (key, value) := by
  have hcut : cutAt 61 (param key value) = (key, url.QueryEscape value) := by
    have := cutAt_append_sep 61 key (url.QueryEscape value) hk
    simpa [param] using this
  have hkey : url.QueryUnescape key = some key := by
    have := queryUnescape_queryEscape key
    rwa [he] at this
  simp [parsePair, hcut, hkey, queryUnescape_queryEscape]

theorem paramKey_param (key value : GoString) (hk : (61 : Fin 256) ∉ key) :
    paramKey (param key value) = key := by
  have := cutAt_append_sep 61 key (url.QueryEscape value) hk
  simp [paramKey, param, this]

/-- The parameters of the encoded string, in the order the code writes them. -/
theorem queryParams_encode (m : MetricRequest) :
    queryParams m.Encode = sortedOrderParams m := by
  unfold sortedOrderParams
  have h1 : (38 : Fin 256) ∉ bytes "from" := by decide
  have h2 : (38 : Fin 256) ∉ bytes "until" := by decide
  have h3 : (38 : Fin 256) ∉ bytes "target" := by decide
  have h0 : (38 : Fin 256) ∉ bytes "format=json" := by decide
  have hstr : m.Encode = bytes "format=json"
      ++ (fromParams m ++ targetParamList m ++ untilParams m).flatMap (fun p => 38 :: p) := by
    rw [encode_eq]
    have hf : fromParam m = (fromParams m).flatMap (fun p => 38 :: p) := by
      unfold fromParam fromParams
      split <;> simp [param, bytes_amp_from]
    have hu : untilParam m = (untilParams m).flatMap (fun p => 38 :: p) := by
      unfold untilParam untilParams
      split <;> simp [param, bytes_amp_until]
    have ht : targetParams m = (targetParamList m).flatMap (fun p => 38 :: p) := by
      unfold targetParams targetParamList
      simp [List.flatMap_map, param, bytes_amp_target]
    rw [hf, hu, ht]
    simp [List.flatMap_append]
  unfold queryParams
  rw [hstr]
  apply splitOn_pieces
  · exact h0
  · intro p hp
    simp only [List.mem_append] at hp
    rcases hp with (hp | hp) | hp
    · unfold fromParams at hp
      split at hp
      · simp only [List.mem_singleton] at hp
        rw [hp]
        exact param_no_amp _ _ h1
      · simp at hp
    · unfold targetParamList at hp
      rw [List.mem_map] at hp
      obtain ⟨t, _, ht⟩ := hp
      rw [← ht]
      exact param_no_amp _ _ h3
    · unfold untilParams at hp
      split at hp
      · simp only [List.mem_singleton] at hp
        rw [hp]
        exact param_no_amp _ _ h2
      · simp at hp

/-- C2, as the specification states it, fails: with `From`, `Until` and two targets
the `until` parameter comes last, after the targets. -/
theorem encode_spec_order_counterexample :
    (MetricRequest.mk (bytes "a") (bytes "b") [bytes "x", bytes "y"]).Encode
        = bytes "format=json&from=a&target=x&target=y&until=b"
    ∧ queryParams (MetricRequest.mk (bytes "a") (bytes "b") [bytes "x", bytes "y"]).Encode
        ≠ specOrderParams (MetricRequest.mk (bytes "a") (bytes "b") [bytes "x", bytes "y"]) := by
  decide

/-- C2, amended: for every request the parameters of the encoded string are, in this
order, `format=json`, the `from` parameter if `From` is non-empty, one `target`
parameter per non-empty target in input order, and the `until` parameter if `Until` is
non-empty. -/
theorem encode_sorted_order (m : MetricRequest) :
    queryParams m.Encode = sortedOrderParams m :=
  queryParams_encode m

theorem parsePairs_append (a b : List GoString) (x y : List (GoString × GoString))
    (ha : parsePairs a = some x) (hb : parsePairs b = some y) :
    parsePairs (a ++ b) = some (x ++ y) := by
  induction a generalizing x with
  | nil =>
    simp [parsePairs] at ha
    simp [← ha, hb]
  | cons p ps ih =>
    simp only [parsePairs] at ha
    cases hp : parsePair p with
    | none => simp [hp] at ha
    | some kv =>
      cases hps : parsePairs ps with
      | none => simp [hp, hps] at ha
      | some rest =>
        simp [hp, hps] at ha
        simp [parsePairs, hp, ih rest hps, ← ha]

theorem parsePairs_map_param (key : GoString) (vs : List GoString)
    (hk : (61 : Fin 256) ∉ key) (he : url.QueryEscape key = key) :
    parsePairs (vs.map (param key)) = some (vs.map (fun v => (key, v))) := by
  induction vs with
  | nil => rfl
  | cons v vs ih => simp [parsePairs, parsePair_param key v hk he, ih]

/-- The pairs read back from the encoded string, in the order the code writes them. -/
theorem parseQuery_encode (m : MetricRequest) :
    parseQuery m.Encode = some
      ([(bytes "format", bytes "json")]
        ++ (if m.From.length > 0 then [(bytes "from", m.From)] else [])
        ++ (nonEmptyTargets m).map (fun t => (bytes "target", t))
        ++ (if m.Until.length > 0 then [(bytes "until", m.Until)] else [])) := by
  have k1 : (61 : Fin 256) ∉ bytes "from" := by decide
  have k2 : (61 : Fin 256) ∉ bytes "until" := by decide
  have k3 : (61 : Fin 256) ∉ bytes "target" := by decide
  have h0 : parsePairs [bytes "format=json"] = some [(bytes "format", bytes "json")] := by
    decide
  have hf : parsePairs (fromParams m)
      = some (if m.From.length > 0 then [(bytes "from", m.From)] else []) := by
    unfold fromParams
    split
    · simp [parsePairs, parsePair_param _ m.From k1 escape_key_from]
    · rfl
  have hu : parsePairs (untilParams m)
      = some (if m.Until.length > 0 then [(bytes "until", m.Until)] else []) := by
    unfold untilParams
    split
    · simp [parsePairs, parsePair_param _ m.Until k2 escape_key_until]
    · rfl
  have ht : parsePairs (targetParamList m)
      = some ((nonEmptyTargets m).map (fun t => (bytes "target", t))) :=
    parsePairs_map_param _ _ k3 escape_key_target
  unfold parseQuery
  rw [queryParams_encode]
  unfold sortedOrderParams
  have h := parsePairs_append _ _ _ _ h0
    (parsePairs_append _ _ _ _ (parsePairs_append _ _ _ _ hf ht) hu)
  simpa using h

/-- C3: reading the encoded string back (cut at `&`, each piece cut at its first `=`,
key and value unescaped) succeeds and gives exactly the pairs of the request,
`(format, json)`, `(from, From)` and `(until, Until)` when non-empty and `(target, t)`
for every non-empty target, no other pair, the target values in input order. -/
theorem encode_roundtrip (m : MetricRequest) :
    ∃ ps, parseQuery m.Encode = some ps
      ∧ ps.Perm (requestPairs m)
      ∧ targetValues ps = nonEmptyTargets m := by
  refine ⟨_, parseQuery_encode m, ?_, ?_⟩
  · unfold requestPairs
    simp only [List.append_assoc]
    refine List.Perm.append_left _ (List.Perm.append_left _ ?_)
    exact List.perm_append_comm
  · have e1 := key_ne_3
    have e2 := key_ne_5
    have e3 := key_ne_6
    unfold targetValues
    by_cases hf : m.From.length > 0 <;> by_cases hu : m.Until.length > 0 <;>
      simp [hf, hu, e1, e2, e3, List.filter_append, List.filter_map, Function.comp_def]

theorem countP_key_map_param (key k : GoString) (vs : List GoString)
    (hk : (61 : Fin 256) ∉ key) :
    (vs.map (param key)).countP (fun p => decide (paramKey p = k))
      = if key = k then vs.length else 0 := by
  induction vs with
  | nil => simp
  | cons v vs ih =>
    rw [List.map_cons, List.countP_cons, ih, paramKey_param key v hk]
    by_cases h : key = k <;> simp [h]

theorem count_format_map_param (key : GoString) (vs : List GoString)
    (hk : (61 : Fin 256) ∉ key) (hne : key ≠ bytes "format") :
    (vs.map (param key)).count (bytes "format=json") = 0 := by
  rw [List.count_eq_zero]
  intro hmem
  rw [List.mem_map] at hmem
  obtain ⟨v, _, hv⟩ := hmem
  have h1 := paramKey_param key v hk
  rw [hv] at h1
  have h2 : paramKey (bytes "format=json") = bytes "format" := by decide
  exact hne (h1.symm.trans h2)

/-- C4: the encoded string holds the parameter `format=json` exactly once (and no other
parameter with key `format`), one `from` parameter when `From` is non-empty and none
otherwise, one `until` parameter when `Until` is non-empty and none otherwise, and as
many `target` parameters as `Target` has non-empty entries. -/
theorem encode_param_presence (m : MetricRequest) :
    (queryParams m.Encode).count (bytes "format=json") = 1
    ∧ (queryParams m.Encode).countP (fun p => decide (paramKey p = bytes "format")) = 1
    ∧ (queryParams m.Encode).countP (fun p => decide (paramKey p = bytes "from"))
        = (if m.From.length > 0 then 1 else 0)
    ∧ (queryParams m.Encode).countP (fun p => decide (paramKey p = bytes "until"))
        = (if m.Until.length > 0 then 1 else 0)
    ∧ (queryParams m.Encode).countP (fun p => decide (paramKey p = bytes "target"))
        = (m.Target.filter (fun t => decide (t.length > 0))).length := by
  have k1 : (61 : Fin 256) ∉ bytes "from" := by decide
  have k2 : (61 : Fin 256) ∉ bytes "until" := by decide
  have k3 : (61 : Fin 256) ∉ bytes "target" := by decide
  have hkf : paramKey (bytes "format=json") = bytes "format" := by decide
  have e1 := key_ne_3
  have e2 := key_ne_5
  have e3 := key_ne_6
  have e4 := key_ne_1
  have e5 := key_ne_2
  have e6 := key_ne_4
  have hF : fromParams m = (if m.From.length > 0 then [m.From] else []).map
      (param (bytes "from")) := by
    unfold fromParams
    split <;> rfl
  have hU : untilParams m = (if m.Until.length > 0 then [m.Until] else []).map
      (param (bytes "until")) := by
    unfold untilParams
    split <;> rfl
  rw [queryParams_encode]
  unfold sortedOrderParams
  rw [hF, hU]
  unfold targetParamList nonEmptyTargets
  refine ⟨?_, ?_, ?_, ?_, ?_⟩
  · rw [List.count_cons, List.count_append, List.count_append,
      count_format_map_param _ _ k1 e4.symm, count_format_map_param _ _ k3 e1.symm,
      count_format_map_param _ _ k2 e5.symm]
    simp
  · rw [List.countP_cons, List.countP_append, List.countP_append,
      countP_key_map_param _ _ _ k1, countP_key_map_param _ _ _ k3,
      countP_key_map_param _ _ _ k2]
    simp [hkf, e4.symm, e1.symm, e5.symm]
  · rw [List.countP_cons, List.countP_append, List.countP_append,
      countP_key_map_param _ _ _ k1, countP_key_map_param _ _ _ k3,
      countP_key_map_param _ _ _ k2]
    by_cases hf : m.From.length > 0 <;> simp [hkf, e4, e2.symm, e6.symm, hf]
  · rw [List.countP_cons, List.countP_append, List.countP_append,
      countP_key_map_param _ _ _ k1, countP_key_map_param _ _ _ k3,
      countP_key_map_param _ _ _ k2]
    by_cases hu : m.Until.length > 0 <;> simp [hkf, e5, e6, e3.symm, hu]
  · rw [List.countP_cons, List.countP_append, List.countP_append,
      countP_key_map_param _ _ _ k1, countP_key_map_param _ _ _ k3,
      countP_key_map_param _ _ _ k2]
    simp [hkf, e1, e2, e3]

/-! ## Timestamps and data points -/

theorem digitValue_digit (c : Fin 256) (h : isDigit c = true) :
    strconv.digitValue c = some (c.val - 48) ∧ c.val - 48 < 10 := by
  simp only [isDigit, decide_eq_true_eq] at h
  simp only [strconv.digitValue, h, and_self, if_true, true_and]
  omega

theorem digitValue_not_digit : ∀ c : Fin 256, isDigit c = false →
    strconv.digitValue c = none ∨ ∃ d, strconv.digitValue c = some d ∧ d ≥ 10 := by
  decide

theorem foldl_dec_ge (s : GoString) (n : Nat) :
    n ≤ s.foldl (fun n c => n * 10 + (c.val - 48)) n := by
  induction s generalizing n with
  | nil => simp
  | cons c s ih =>
    simp only [List.foldl_cons]
    exact Nat.le_trans (by omega) (ih _)

/-- On digits whose value fits in 64 bits the loop of `ParseUint` returns that value. -/
theorem parseUintLoop_ok (s : GoString) (n : Nat) (hd : s.all isDigit = true)
    (hv : s.foldl (fun n c => n * 10 + (c.val - 48)) n < 2 ^ 64) :
    strconv.parseUintLoop s n = (s.foldl (fun n c => n * 10 + (c.val - 48)) n, none) := by
  induction s generalizing n with
  | nil => rfl
  | cons c s ih =>
    simp only [List.all_cons, Bool.and_eq_true] at hd
    obtain ⟨hc, hs⟩ := hd
    obtain ⟨hdv, hlt⟩ := digitValue_digit c hc
    simp only [List.foldl_cons] at hv ⊢
    have hge := foldl_dec_ge s (n * 10 + (c.val - 48))
    have hn : n * 10 + (c.val - 48) < 2 ^ 64 := Nat.lt_of_le_of_lt hge hv
    have h64 : (2 : Nat) ^ 64 = 18446744073709551616 := by norm_num
    rw [h64] at hn
    have h1 : wrapUint64 (n * 10) = n * 10 := by
      unfold wrapUint64
      rw [h64]
      omega
    have h2 : wrapUint64 (n * 10 + (c.val - 48)) = n * 10 + (c.val - 48) := by
      unfold wrapUint64
      rw [h64]
      omega
    rw [strconv.parseUintLoop, hdv]
    simp only [h1, h2]
    rw [if_neg (by omega), if_neg (by rw [h64]; omega), if_neg (by rw [h64]; omega)]
    exact ih _ hs hv

/-- The loop of `ParseUint` returns without error only on digits whose value fits in
64 bits; its range error comes with the value `1<<64 - 1`. -/
theorem parseUintLoop_cases (s : GoString) (n : Nat) (hn : n < 2 ^ 64) :
    ((strconv.parseUintLoop s n).2 = none ∧ s.all isDigit = true
        ∧ s.foldl (fun n c => n * 10 + (c.val - 48)) n < 2 ^ 64)
    ∨ ((strconv.parseUintLoop s n).2 = some strconv.NumErr.ErrSyntax ∧ s.all isDigit = false)
    ∨ strconv.parseUintLoop s n = (2 ^ 64 - 1, some strconv.NumErr.ErrRange) := by
  induction s generalizing n with
  | nil => exact Or.inl ⟨rfl, rfl, hn⟩
  | cons c s ih =>
    have h64 : (2 : Nat) ^ 64 = 18446744073709551616 := by norm_num
    cases hc : isDigit c with
    | false =>
      rcases digitValue_not_digit c hc with h | ⟨d, h, hd⟩
      · right; left
        rw [strconv.parseUintLoop, h]
        exact ⟨rfl, by simp [hc]⟩
      · right; left
        rw [strconv.parseUintLoop, h]
        simp only []
        rw [if_pos hd]
        exact ⟨rfl, by simp [hc]⟩
    | true =>
      obtain ⟨hdv, hlt⟩ := digitValue_digit c hc
      rw [strconv.parseUintLoop, hdv]
      simp only []
      rw [if_neg (by omega)]
      by_cases hcut : n ≥ (2 ^ 64 - 1) / 10 + 1
      · rw [if_pos hcut]
        exact Or.inr (Or.inr rfl)
      · rw [if_neg hcut]
        rw [h64] at hcut hn
        have h1 : wrapUint64 (n * 10) = n * 10 := by
          unfold wrapUint64
          rw [h64]
          omega
        rw [h1]
        by_cases hov : wrapUint64 (n * 10 + (c.val - 48)) < n * 10
            ∨ wrapUint64 (n * 10 + (c.val - 48)) > 2 ^ 64 - 1
        · rw [if_pos hov]
          exact Or.inr (Or.inr rfl)
        · rw [if_neg hov]
          have h2 : wrapUint64 (n * 10 + (c.val - 48)) = n * 10 + (c.val - 48) := by
            unfold wrapUint64 at hov ⊢
            rw [h64] at hov ⊢
            omega
          have hlt2 : n * 10 + (c.val - 48) < 2 ^ 64 := by
            rw [← h2]
            unfold wrapUint64
            exact Nat.mod_lt _ (by norm_num)
          rw [h2]
          rcases ih _ hlt2 with ⟨ha, hb, hv⟩ | hb | hb
          · exact Or.inl ⟨ha, by simp [hc, hb], by simpa using hv⟩
          · exact Or.inr (Or.inl ⟨hb.1, by simp [hb.2]⟩)
          · exact Or.inr (Or.inr hb)

/-- The three outcomes of `ParseUint(s, 10, 64)`. -/
theorem parseUint_cases (ds : GoString) :
    (strconv.ParseUint ds = (decVal ds, none) ∧ ds ≠ [] ∧ ds.all isDigit = true
        ∧ decVal ds < 2 ^ 64)
    ∨ ((strconv.ParseUint ds).2 = some strconv.NumErr.ErrSyntax
        ∧ (ds = [] ∨ ds.all isDigit = false))
    ∨ (strconv.ParseUint ds = (2 ^ 64 - 1, some strconv.NumErr.ErrRange)
        ∧ ¬ (ds.all isDigit = true ∧ decVal ds < 2 ^ 64)) := by
  by_cases he : ds = []
  · right; left
    simp [strconv.ParseUint, he]
  · have hP : strconv.ParseUint ds = strconv.parseUintLoop ds 0 := by
      simp [strconv.ParseUint, he]
    rw [hP]
    rcases parseUintLoop_cases ds 0 (by norm_num) with ⟨_, hb, hv⟩ | ⟨ha, hb⟩ | ha
    · exact Or.inl ⟨parseUintLoop_ok ds 0 hb hv, he, hb, hv⟩
    · exact Or.inr (Or.inl ⟨ha, Or.inr hb⟩)
    · refine Or.inr (Or.inr ⟨ha, ?_⟩)
      rintro ⟨hb, hv⟩
      have := parseUintLoop_ok ds 0 hb hv
      rw [ha] at this
      simp at this

/-- `ParseInt` after the sign has been taken off, as a function of what `ParseUint`
returned. -/
theorem parseInt_unfold (c : Fin 256) (rest : GoString) :
    strconv.ParseInt (c :: rest)
      = (match strconv.ParseUint
            (if c.val = 43 then rest else if c.val = 45 then rest else c :: rest) with
        | (_, some strconv.NumErr.ErrSyntax) => (0, some strconv.NumErr.ErrSyntax)
        | (un, _) =>
          if ¬ (c.val = 45) ∧ un ≥ 2 ^ 63 then
            (((2 ^ 63 : Nat) : Int) - 1, some strconv.NumErr.ErrRange)
          else if c.val = 45 ∧ un > 2 ^ 63 then
            (-((2 ^ 63 : Nat) : Int), some strconv.NumErr.ErrRange)
          else
            (if c.val = 45 then wrapInt64 (-(wrapInt64 (un : Int))) else wrapInt64 (un : Int),
              none)) := rfl

theorem signedDecimal_cons (c : Fin 256) (rest : GoString) :
    signedDecimal (c :: rest)
      = (if (if c.val = 43 then rest else if c.val = 45 then rest else c :: rest) = []
            ∨ ¬ (if c.val = 43 then rest else if c.val = 45 then rest else c :: rest).all
                isDigit = true then none
         else some (if c.val = 45 then
            -(decVal (if c.val = 43 then rest else if c.val = 45 then rest else c :: rest) : Int)
          else
            (decVal (if c.val = 43 then rest else if c.val = 45 then rest else c :: rest)
              : Int))) := by
  have h45 : (c = 45) ↔ c.val = 45 := by
    constructor
    · intro h; rw [h]; rfl
    · intro h; exact Fin.ext h
  have h43 : (c = 43) ↔ c.val = 43 := by
    constructor
    · intro h; rw [h]; rfl
    · intro h; exact Fin.ext h
  unfold signedDecimal
  simp only [List.head?_cons, Option.some.injEq, List.tail_cons, h45, h43]
  by_cases a : c.val = 43 <;> by_cases b : c.val = 45 <;> simp [a, b]

/-- What `strconv.ParseInt(s, 10, 64)` does: on an optionally signed string of decimal
digits whose value fits in 64 bits it returns that value, on anything else an error. -/
theorem parseInt_spec (buf : GoString) :
    (∃ n, signedDecimal buf = some n ∧ fitsInt64 n ∧ strconv.ParseInt buf = (n, none))
    ∨ ((∀ n, signedDecimal buf = some n → ¬ fitsInt64 n)
        ∧ ∃ e, (strconv.ParseInt buf).2 = some e) := by
  cases buf with
  | nil =>
    right
    exact ⟨by simp [signedDecimal], ⟨_, rfl⟩⟩
  | cons c rest =>
    rw [signedDecimal_cons, parseInt_unfold]
    generalize (if c.val = 43 then rest else if c.val = 45 then rest else c :: rest) = ds
    have h63 : (2 : Nat) ^ 63 = 9223372036854775808 := by norm_num
    have h64 : (2 : Nat) ^ 64 = 18446744073709551616 := by norm_num
    have i63 : (2 : Int) ^ 63 = 9223372036854775808 := by norm_num
    have i64 : (2 : Int) ^ 64 = 18446744073709551616 := by norm_num
    rcases parseUint_cases ds with ⟨hP, hne, hd, hv⟩ | ⟨hP, hbad⟩ | ⟨hP, hbad⟩
    · rw [hP]
      simp only [hne, hd, not_true_eq_false, or_self, if_false]
      rw [h64] at hv
      by_cases hneg : c.val = 45
      · simp only [hneg, not_true_eq_false, false_and, if_false, true_and, if_true]
        by_cases hbig : decVal ds > 2 ^ 63
        · right
          rw [if_pos hbig]
          refine ⟨?_, ⟨_, rfl⟩⟩
          intro n hn
          simp only [Option.some.injEq] at hn
          unfold fitsInt64
          rw [i63]
          rw [h63] at hbig
          clear h63 h64 i63 i64
          omega
        · left
          rw [if_neg hbig]
          rw [h63] at hbig
          refine ⟨_, rfl, ?_, ?_⟩
          · unfold fitsInt64
            rw [i63]
            clear h63 h64 i63 i64
            omega
          · unfold wrapInt64
            rw [i63, i64]
            clear h63 h64 i63 i64
            rw [Prod.mk.injEq]
            exact ⟨by omega, rfl⟩
      · simp only [hneg, not_false_eq_true, true_and, false_and, if_false]
        by_cases hbig : decVal ds ≥ 2 ^ 63
        · right
          rw [if_pos hbig]
          refine ⟨?_, ⟨_, rfl⟩⟩
          intro n hn
          simp only [Option.some.injEq] at hn
          unfold fitsInt64
          rw [i63]
          rw [h63] at hbig
          clear h63 h64 i63 i64
          omega
        · left
          rw [if_neg hbig]
          rw [h63] at hbig
          refine ⟨_, rfl, ?_, ?_⟩
          · unfold fitsInt64
            rw [i63]
            clear h63 h64 i63 i64
            omega
          · unfold wrapInt64
            rw [i63, i64]
            clear h63 h64 i63 i64
            rw [Prod.mk.injEq]
            exact ⟨by omega, rfl⟩
    · right
      have hnone : (ds = [] ∨ ¬ ds.all isDigit = true) := by
        rcases hbad with h | h
        · exact Or.inl h
        · exact Or.inr (by simp [h])
      rw [if_pos hnone]
      refine ⟨by simp, ?_⟩
      generalize strconv.ParseUint ds = r at hP
      obtain ⟨un, e⟩ := r
      simp only at hP
      subst hP
      exact ⟨_, rfl⟩
    · right
      rw [hP]
      constructor
      · intro n hn
        split at hn
        · simp at hn
        · rename_i hgood
          simp only [not_or, not_not] at hgood
          have hv : ¬ decVal ds < 2 ^ 64 := fun hv => hbad ⟨hgood.2, hv⟩
          rw [h64] at hv
          simp only [Option.some.injEq] at hn
          unfold fitsInt64
          rw [i63]
          clear h63 h64 i63 i64
          split at hn <;> omega
      · simp only []
        rw [h63, h64]
        by_cases hneg : c.val = 45
        · simp [hneg]
        · simp [hneg]


theorem isInt64Text_iff (buf : GoString) :
    isInt64Text buf = true ↔ ∃ n, signedDecimal buf = some n ∧ fitsInt64 n := by
  unfold isInt64Text
  cases h : signedDecimal buf with
  | none => simp
  | some n => simp

theorem jsonTime_unmarshal_ok (t : JSONTime) (buf : GoString) (n : Int)
    (hn : signedDecimal buf = some n) (hfit : fitsInt64 n) :
    JSONTime.UnmarshalJSON t buf = (⟨time.Unix n 0⟩, none) := by
  rcases parseInt_spec buf with ⟨m, hm, _, hP⟩ | ⟨hno, _⟩
  · rw [hn] at hm
    simp only [Option.some.injEq] at hm
    subst hm
    simp [JSONTime.UnmarshalJSON, hP]
  · exact absurd hfit (hno n hn)

theorem jsonTime_unmarshal_error (t : JSONTime) (buf : GoString)
    (h : isInt64Text buf = false) :
    ∃ err, JSONTime.UnmarshalJSON t buf = (t, some err) := by
  rcases parseInt_spec buf with ⟨m, hm, hfit, _⟩ | ⟨_, e, he⟩
  · have : isInt64Text buf = true := (isInt64Text_iff buf).mpr ⟨m, hm, hfit⟩
    rw [h] at this
    cases this
  · generalize hr : strconv.ParseInt buf = r at he
    obtain ⟨v, o⟩ := r
    simp only at he
    subst he
    exact ⟨.numError (bytes "ParseInt") buf e, by simp [JSONTime.UnmarshalJSON, hr]⟩

theorem dataPoint_unmarshal_pair (d : DataPoint) (v e : JSON) :
    DataPoint.UnmarshalJSON d (.array [v, e])
      = (match json.unmarshalFloat64 d.Value v with
        | (_, some err) => (d, .error err)
        | (value, none) =>
          match json.unmarshalJSONTime d.TimeStamp e with
          | (_, some err) => (⟨value, d.TimeStamp⟩, .error err)
          | (stamp, none) => (⟨value, stamp⟩, .ok)) := rfl

/-- No input makes `DataPoint.UnmarshalJSON` read an element that does not exist. -/
theorem dataPoint_no_panic (d2 : DataPoint) (buf : JSON) :
    (DataPoint.UnmarshalJSON d2 buf).2 ≠ .panic := by
  unfold DataPoint.UnmarshalJSON
  generalize json.unmarshalRawMessages [] buf = r
  obtain ⟨tmp, o⟩ := r
  cases o with
  | some err => simp
  | none =>
    simp only []
    by_cases hl : tmp.length ≠ 2
    · simp [hl]
    · simp only [hl, if_false]
      rcases tmp with _ | ⟨a, _ | ⟨b, _ | ⟨c, rest⟩⟩⟩
      · simp at hl
      · simp at hl
      · simp only [List.getElem?_cons_zero, List.getElem?_cons_succ]
        generalize json.unmarshalFloat64 d2.Value a = r0
        obtain ⟨x, o0⟩ := r0
        cases o0 with
        | some err => simp
        | none =>
          simp only []
          generalize json.unmarshalJSONTime d2.TimeStamp b = r1
          obtain ⟨y, o1⟩ := r1
          cases o1 with
          | some err => simp
          | none => simp
      · simp at hl

/-- C5: on a JSON array whose number of elements is not 2 `DataPoint.UnmarshalJSON`
returns the error `Wrong argument count for datapoint` and leaves the receiver as it
was; and on no input at all does it read an element that does not exist (the outcome
is never the index panic). -/
theorem dataPoint_wrong_count (d : DataPoint) (elems : List JSON) (h : elems.length ≠ 2) :
    DataPoint.UnmarshalJSON d (.array elems)
        = (d, .error (.errorString (bytes "Wrong argument count for datapoint")))
    ∧ ∀ (d2 : DataPoint) (buf : JSON), (DataPoint.UnmarshalJSON d2 buf).2 ≠ .panic := by
  constructor
  · simp [DataPoint.UnmarshalJSON, json.unmarshalRawMessages, h]
  · exact dataPoint_no_panic

/-- C5 on arrays of 0, 1 and 3 elements. -/
theorem dataPoint_wrong_count_witness :
    (DataPoint.UnmarshalJSON DataPoint.zero (.array [])).2
        = .error (.errorString (bytes "Wrong argument count for datapoint"))
    ∧ (DataPoint.UnmarshalJSON DataPoint.zero (.array [.number (bytes "1.5")])).2
        = .error (.errorString (bytes "Wrong argument count for datapoint"))
    ∧ (DataPoint.UnmarshalJSON DataPoint.zero
          (.array [.number (bytes "1.5"), .number (bytes "1609459200"), .null])).2
        = .error (.errorString (bytes "Wrong argument count for datapoint")) :=
  ⟨congrArg Prod.snd (dataPoint_wrong_count DataPoint.zero [] (by decide)).1,
   congrArg Prod.snd (dataPoint_wrong_count DataPoint.zero [.number (bytes "1.5")]
      (by decide)).1,
   congrArg Prod.snd (dataPoint_wrong_count DataPoint.zero
      [.number (bytes "1.5"), .number (bytes "1609459200"), .null] (by decide)).1⟩

/-- C7: `JSONTime.UnmarshalJSON` returns no error exactly when its input is an
optionally signed string of decimal digits whose value fits in a signed 64-bit integer;
so decoding a two-element data point whose second element is anything else returns an
error. -/
theorem jsonTime_unmarshal_iff (t : JSONTime) (buf : GoString) :
    ((JSONTime.UnmarshalJSON t buf).2 = none ↔ isInt64Text buf = true)
    ∧ ∀ (d : DataPoint) (v e : JSON), isInt64Text e.raw = false →
        ∃ err, (DataPoint.UnmarshalJSON d (.array [v, e])).2 = .error err := by
  constructor
  · constructor
    · intro h
      cases hb : isInt64Text buf with
      | true => rfl
      | false =>
        obtain ⟨err, he⟩ := jsonTime_unmarshal_error t buf hb
        rw [he] at h
        cases h
    · intro h
      obtain ⟨n, hn, hfit⟩ := (isInt64Text_iff buf).mp h
      rw [jsonTime_unmarshal_ok t buf n hn hfit]
  · intro d v e he
    rw [dataPoint_unmarshal_pair]
    generalize json.unmarshalFloat64 d.Value v = r0
    obtain ⟨x, o0⟩ := r0
    cases o0 with
    | some err => exact ⟨err, rfl⟩
    | none =>
      obtain ⟨err, h1⟩ := jsonTime_unmarshal_error d.TimeStamp e.raw he
      refine ⟨err, ?_⟩
      simp only [json.unmarshalJSONTime, h1]

/-- C7 on the second elements `1.5`, `1e9`, `1609459200.0`, `"1609459200"`, `null`,
`true` and `9223372036854775808`: each data point fails to decode. -/
theorem jsonTime_unmarshal_iff_witness :
    (∃ err, (DataPoint.UnmarshalJSON DataPoint.zero
        (.array [.number (bytes "1"), .number (bytes "1.5")])).2 = .error err)
    ∧ (∃ err, (DataPoint.UnmarshalJSON DataPoint.zero
        (.array [.number (bytes "1"), .number (bytes "1e9")])).2 = .error err)
    ∧ (∃ err, (DataPoint.UnmarshalJSON DataPoint.zero
        (.array [.number (bytes "1"), .number (bytes "1609459200.0")])).2 = .error err)
    ∧ (∃ err, (DataPoint.UnmarshalJSON DataPoint.zero
        (.array [.number (bytes "1"), .string (bytes "1609459200")])).2 = .error err)
    ∧ (∃ err, (DataPoint.UnmarshalJSON DataPoint.zero
        (.array [.number (bytes "1"), .null])).2 = .error err)
    ∧ (∃ err, (DataPoint.UnmarshalJSON DataPoint.zero
        (.array [.number (bytes "1"), .bool true])).2 = .error err)
    ∧ (∃ err, (DataPoint.UnmarshalJSON DataPoint.zero
        (.array [.number (bytes "1"), .number (bytes "9223372036854775808")])).2
          = .error err)
    ∧ (JSONTime.UnmarshalJSON JSONTime.zero (bytes "-9223372036854775808")).2 = none :=
  ⟨(jsonTime_unmarshal_iff JSONTime.zero []).2 _ _ (.number (bytes "1.5")) (by decide),
   (jsonTime_unmarshal_iff JSONTime.zero []).2 _ _ (.number (bytes "1e9")) (by decide),
   (jsonTime_unmarshal_iff JSONTime.zero []).2 _ _ (.number (bytes "1609459200.0"))
      (by decide),
   (jsonTime_unmarshal_iff JSONTime.zero []).2 _ _ (.string (bytes "1609459200"))
      (by decide),
   (jsonTime_unmarshal_iff JSONTime.zero []).2 _ _ .null (by decide),
   (jsonTime_unmarshal_iff JSONTime.zero []).2 _ _ (.bool true) (by decide),
   (jsonTime_unmarshal_iff JSONTime.zero []).2 _ _ (.number (bytes "9223372036854775808"))
      (by decide),
   ((jsonTime_unmarshal_iff JSONTime.zero (bytes "-9223372036854775808")).1).mpr
      (by decide)⟩

/-! ### Floating point -/

theorem bitLen_spec (fuel n : Nat) (h : n < 2 ^ fuel) :
    n < 2 ^ bitLen fuel n ∧ (0 < n → 2 ^ (bitLen fuel n - 1) ≤ n) := by
  induction fuel generalizing n with
  | zero =>
    simp at h
    subst h
    simp [bitLen]
  | succ fuel ih =>
    by_cases hn : n = 0
    · subst hn
      simp [bitLen]
    · have hlt : n / 2 < 2 ^ fuel := by
        rw [Nat.div_lt_iff_lt_mul (by norm_num)]
        rw [pow_succ] at h
        exact h
      obtain ⟨h1, h2⟩ := ih (n / 2) hlt
      simp only [bitLen, hn, if_false]
      constructor
      · rw [pow_succ]
        omega
      · intro _
        simp only [Nat.add_sub_cancel]
        by_cases hz : n / 2 = 0
        · have : bitLen fuel (n / 2) = 0 := by
            rw [hz]
            cases fuel <;> simp [bitLen]
          rw [this]
          simp
          omega
        · have h3 := h2 (Nat.pos_of_ne_zero hz)
          have hb : bitLen fuel (n / 2) ≠ 0 := by
            intro hb
            rw [hb] at h1
            simp at h1
            exact hz h1
          obtain ⟨k, hk⟩ := Nat.exists_eq_succ_of_ne_zero hb
          rw [hk] at h3 ⊢
          simp only [Nat.succ_sub_one] at h3
          rw [pow_succ]
          omega

theorem bitLen_self (n : Nat) (hn : 0 < n) :
    2 ^ (bitLen n n - 1) ≤ n ∧ n < 2 ^ bitLen n n ∧ 0 < bitLen n n := by
  obtain ⟨h1, h2⟩ := bitLen_spec n n (Nat.lt_two_pow n)
  refine ⟨h2 hn, h1, ?_⟩
  by_contra h0
  have : bitLen n n = 0 := by omega
  rw [this] at h1
  simp at h1
  omega

theorem ratioAtLeastPow2_iff (num den : Nat) (hden : 0 < den) (k : Int) :
    ratioAtLeastPow2 num den k = true ↔ (2 : ℚ) ^ k ≤ (num : ℚ) / den := by
  have hd : (0 : ℚ) < den := by exact_mod_cast hden
  unfold ratioAtLeastPow2
  by_cases hk : k ≥ 0
  · obtain ⟨n, rfl⟩ := Int.eq_ofNat_of_zero_le hk
    simp only [hk, if_true, Int.toNat_ofNat, decide_eq_true_eq, zpow_natCast]
    rw [le_div_iff₀ hd]
    constructor
    · intro h
      have : ((den * 2 ^ n : Nat) : ℚ) ≤ (num : ℚ) := by exact_mod_cast h
      push_cast at this
      linarith
    · intro h
      have : ((den * 2 ^ n : Nat) : ℚ) ≤ (num : ℚ) := by
        push_cast
        linarith
      exact_mod_cast this
  · have hk2 : 0 ≤ -k := by omega
    obtain ⟨n, hn⟩ := Int.eq_ofNat_of_zero_le hk2
    have hkn : k = -(n : Int) := by omega
    simp only [hk, if_false, hn, Int.toNat_ofNat, decide_eq_true_eq]
    rw [hkn, zpow_neg, zpow_natCast, le_div_iff₀ hd]
    have hp : (0 : ℚ) < 2 ^ n := by positivity
    rw [inv_mul_le_iff₀ hp]
    constructor
    · intro h
      have : ((den : Nat) : ℚ) ≤ ((num * 2 ^ n : Nat) : ℚ) := by exact_mod_cast h
      push_cast at this
      linarith
    · intro h
      have : ((den : Nat) : ℚ) ≤ ((num * 2 ^ n : Nat) : ℚ) := by
        push_cast
        linarith
      exact_mod_cast this

theorem roundHalfEven_core (N D q r : Nat) (hD : 0 < D) (hNn : N = D * q + r) (hr : r < D) :
    (∀ k : Int, |((if 2 * r > D ∨ (2 * r = D ∧ q % 2 = 1) then q + 1 else q : Nat) : ℚ)
        - (N : ℚ) / D| ≤ |(k : ℚ) - (N : ℚ) / D|)
    ∧ (∀ k : Int, |(k : ℚ) - (N : ℚ) / D|
          = |((if 2 * r > D ∨ (2 * r = D ∧ q % 2 = 1) then q + 1 else q : Nat) : ℚ)
              - (N : ℚ) / D| →
        k ≠ ((if 2 * r > D ∨ (2 * r = D ∧ q % 2 = 1) then q + 1 else q : Nat) : Int) →
        (if 2 * r > D ∨ (2 * r = D ∧ q % 2 = 1) then q + 1 else q) % 2 = 0) := by
  have hd : (0 : ℚ) < D := by exact_mod_cast hD
  have hN : (N : ℚ) = (D : ℚ) * (q : ℚ) + (r : ℚ) := by
    rw [hNn]
    push_cast
    ring
  have hrq : (r : ℚ) < D := by exact_mod_cast hr
  have hr0 : (0 : ℚ) ≤ (r : ℚ) := by positivity
  have key : ∀ x : ℚ, |x - (N : ℚ) / D| * D = |(x - (q : ℚ)) * D - (r : ℚ)| := by
    intro x
    rw [← abs_of_pos hd, ← abs_mul, abs_of_pos hd]
    congr 1
    field_simp
    rw [hN]
    ring
  have low : ∀ k : Int, k ≤ (q : Int) → (r : ℚ) ≤ |(k : ℚ) - (N : ℚ) / D| * D := by
    intro k hk
    rw [key]
    have h1 : (k : ℚ) ≤ (q : ℚ) := by exact_mod_cast hk
    have h2 : ((k : ℚ) - (q : ℚ)) * D ≤ 0 :=
      mul_nonpos_of_nonpos_of_nonneg (by linarith) hd.le
    rw [abs_of_nonpos (by linarith)]
    linarith
  have high : ∀ k : Int, (q : Int) + 1 ≤ k →
      (D : ℚ) - (r : ℚ) ≤ |(k : ℚ) - (N : ℚ) / D| * D := by
    intro k hk
    rw [key]
    have h1 : (q : ℚ) + 1 ≤ (k : ℚ) := by exact_mod_cast hk
    have h2 : (D : ℚ) ≤ ((k : ℚ) - (q : ℚ)) * D := by nlinarith
    rw [abs_of_nonneg (by linarith)]
    linarith
  have atq : |(q : ℚ) - (N : ℚ) / D| * D = (r : ℚ) := by
    rw [key]
    simp only [sub_self, zero_mul, zero_sub, abs_neg]
    exact abs_of_nonneg hr0
  have atq1 : |((q + 1 : Nat) : ℚ) - (N : ℚ) / D| * D = (D : ℚ) - (r : ℚ) := by
    rw [key]
    push_cast
    have : ((q : ℚ) + 1 - (q : ℚ)) * D - (r : ℚ) = (D : ℚ) - (r : ℚ) := by ring
    rw [this, abs_of_nonneg (by linarith)]
  have cmp : ∀ a b : ℚ, a * D ≤ b * D → a ≤ b := fun a b h => le_of_mul_le_mul_right h hd
  by_cases hup : 2 * r > D ∨ (2 * r = D ∧ q % 2 = 1)
  · simp only [if_pos hup]
    have h2r : (D : ℚ) ≤ 2 * (r : ℚ) := by
      rcases hup with h | ⟨h, _⟩
      · have : ((D : Nat) : ℚ) ≤ ((2 * r : Nat) : ℚ) := by exact_mod_cast h.le
        push_cast at this
        linarith
      · have : ((2 * r : Nat) : ℚ) = ((D : Nat) : ℚ) := by exact_mod_cast h
        push_cast at this
        linarith
    constructor
    · intro k
      apply cmp
      rw [atq1]
      by_cases hk : k ≤ (q : Int)
      · have := low k hk
        linarith
      · exact high k (by omega)
    · intro k hk hne
      have hk' : |(k : ℚ) - (N : ℚ) / D| * D = (D : ℚ) - (r : ℚ) := by
        rw [hk, atq1]
      have hkq : k ≤ (q : Int) := by
        by_contra hcon
        have hne2 : k ≠ (q : Int) + 1 := by
          intro h
          apply hne
          rw [h]
          push_cast
          rfl
        have hge2 : (q : Int) + 2 ≤ k := by omega
        have h1 : (q : ℚ) + 2 ≤ (k : ℚ) := by exact_mod_cast hge2
        rw [key] at hk'
        have h2 : 2 * (D : ℚ) ≤ ((k : ℚ) - (q : ℚ)) * D := by nlinarith
        rw [abs_of_nonneg (by linarith)] at hk'
        linarith
      have hlow := low k hkq
      have heq : 2 * (r : ℚ) = D := by linarith
      have heqn : 2 * r = D := by exact_mod_cast heq
      rcases hup with h | ⟨_, hodd⟩
      · omega
      · omega
  · simp only [if_neg hup]
    have h2r : 2 * (r : ℚ) ≤ D := by
      have h : 2 * r ≤ D := by
        by_contra hc
        exact hup (Or.inl (by omega))
      have : ((2 * r : Nat) : ℚ) ≤ ((D : Nat) : ℚ) := by exact_mod_cast h
      push_cast at this
      linarith
    constructor
    · intro k
      apply cmp
      rw [atq]
      by_cases hk : k ≤ (q : Int)
      · exact low k hk
      · have := high k (by omega)
        linarith
    · intro k hk hne
      have hk' : |(k : ℚ) - (N : ℚ) / D| * D = (r : ℚ) := by
        rw [hk, atq]
      have hkq : (q : Int) + 1 ≤ k := by
        by_contra hcon
        have hle2 : k ≤ (q : Int) - 1 := by omega
        have h1 : (k : ℚ) ≤ (q : ℚ) - 1 := by exact_mod_cast hle2
        rw [key] at hk'
        have h2 : ((k : ℚ) - (q : ℚ)) * D ≤ -(D : ℚ) := by nlinarith
        rw [abs_of_nonpos (by linarith)] at hk'
        linarith
      have hhigh := high k hkq
      have heq : 2 * (r : ℚ) = D := by linarith
      have heqn : 2 * r = D := by exact_mod_cast heq
      by_contra hodd
      exact hup (Or.inr ⟨heqn, by omega⟩)

/-- Rounding to the nearest integer, a tie to the even one: no integer is nearer. -/
theorem roundHalfEven_spec (N D : Nat) (hD : 0 < D) :
    (∀ k : Int, |((roundHalfEven N D : Nat) : ℚ) - (N : ℚ) / D| ≤ |(k : ℚ) - (N : ℚ) / D|)
    ∧ (∀ k : Int, |(k : ℚ) - (N : ℚ) / D| = |((roundHalfEven N D : Nat) : ℚ) - (N : ℚ) / D| →
        k ≠ ((roundHalfEven N D : Nat) : Int) → roundHalfEven N D % 2 = 0) :=
  roundHalfEven_core N D (N / D) (N % D) hD (Nat.div_add_mod N D).symm (Nat.mod_lt N hD)

theorem two_zpow_of_nonneg (d : Int) (h : 0 ≤ d) : (2 : ℚ) ^ d = ((2 ^ d.toNat : Nat) : ℚ) := by
  obtain ⟨n, rfl⟩ := Int.eq_ofNat_of_zero_le h
  simp

/-- The exponent found from the two bit lengths is the binary logarithm of `num / den`,
rounded down. -/
theorem floorLog2_spec (num den : Nat) (hnum : 0 < num) (hden : 0 < den) (e0 e2 : Int)
    (he0 : e0 = (bitLen num num : Int) - (bitLen den den : Int))
    (he2 : e2 = if ratioAtLeastPow2 num den e0 then e0 else e0 - 1) :
    (2 : ℚ) ^ e2 ≤ (num : ℚ) / den ∧ (num : ℚ) / den < (2 : ℚ) ^ (e2 + 1) := by
  obtain ⟨ha1, ha2, ha0⟩ := bitLen_self num hnum
  obtain ⟨hb1, hb2, hb0⟩ := bitLen_self den hden
  have hd : (0 : ℚ) < den := by exact_mod_cast hden
  have hn : (0 : ℚ) < num := by exact_mod_cast hnum
  generalize bitLen num num = a at *
  generalize bitLen den den = b at *
  have qa1 : (2 : ℚ) ^ ((a : Int) - 1) ≤ num := by
    have : ((2 ^ (a - 1) : Nat) : ℚ) ≤ (num : ℚ) := by exact_mod_cast ha1
    have e : ((a : Int) - 1) = ((a - 1 : Nat) : Int) := by omega
    rw [e, zpow_natCast]
    exact_mod_cast this
  have qa2 : (num : ℚ) < (2 : ℚ) ^ (a : Int) := by
    rw [zpow_natCast]
    exact_mod_cast ha2
  have qb1 : (2 : ℚ) ^ ((b : Int) - 1) ≤ den := by
    have : ((2 ^ (b - 1) : Nat) : ℚ) ≤ (den : ℚ) := by exact_mod_cast hb1
    have e : ((b : Int) - 1) = ((b - 1 : Nat) : Int) := by omega
    rw [e, zpow_natCast]
    exact_mod_cast this
  have qb2 : (den : ℚ) < (2 : ℚ) ^ (b : Int) := by
    rw [zpow_natCast]
    exact_mod_cast hb2
  have h2 : (2 : ℚ) ≠ 0 := by norm_num
  have upper : (num : ℚ) / den < (2 : ℚ) ^ (e0 + 1) := by
    rw [div_lt_iff₀ hd]
    have e : e0 + 1 = (a : Int) - ((b : Int) - 1) := by omega
    rw [e, zpow_sub₀ h2]
    have hpb : (0 : ℚ) < (2 : ℚ) ^ ((b : Int) - 1) := by positivity
    calc (num : ℚ) < (2 : ℚ) ^ (a : Int) := qa2
      _ = (2 : ℚ) ^ (a : Int) / (2 : ℚ) ^ ((b : Int) - 1) * (2 : ℚ) ^ ((b : Int) - 1) := by
          field_simp
      _ ≤ (2 : ℚ) ^ (a : Int) / (2 : ℚ) ^ ((b : Int) - 1) * den := by
          apply mul_le_mul_of_nonneg_left qb1
          positivity
  have lower : (2 : ℚ) ^ (e0 - 1) ≤ (num : ℚ) / den := by
    rw [le_div_iff₀ hd]
    have e : e0 - 1 = ((a : Int) - 1) - (b : Int) := by omega
    rw [e, zpow_sub₀ h2]
    have hpb : (0 : ℚ) < (2 : ℚ) ^ (b : Int) := by positivity
    calc (2 : ℚ) ^ ((a : Int) - 1) / (2 : ℚ) ^ (b : Int) * den
        ≤ (2 : ℚ) ^ ((a : Int) - 1) / (2 : ℚ) ^ (b : Int) * (2 : ℚ) ^ (b : Int) := by
          apply mul_le_mul_of_nonneg_left qb2.le
          positivity
      _ = (2 : ℚ) ^ ((a : Int) - 1) := by field_simp
      _ ≤ num := qa1
  by_cases hr : ratioAtLeastPow2 num den e0 = true
  · rw [hr] at he2
    simp only [if_true] at he2
    rw [he2]
    exact ⟨(ratioAtLeastPow2_iff num den hden e0).mp hr, upper⟩
  · have hlt : ¬ (2 : ℚ) ^ e0 ≤ (num : ℚ) / den :=
      fun h => hr ((ratioAtLeastPow2_iff num den hden e0).mpr h)
    rw [if_neg hr] at he2
    rw [he2]
    refine ⟨lower, ?_⟩
    have : e0 - 1 + 1 = e0 := by omega
    rw [this]
    exact lt_of_not_le hlt

/-- The significand is the quotient by the unit in the last place, rounded. -/
theorem scaled_round_spec (num den : Nat) (hden : 0 < den) (q : Int) (m : Nat)
    (hm : m = if q ≥ 0 then roundHalfEven num (den * 2 ^ q.toNat)
              else roundHalfEven (num * 2 ^ (-q).toNat) den) :
    (∀ k : Int, |(m : ℚ) - (num : ℚ) / den / (2 : ℚ) ^ q|
        ≤ |(k : ℚ) - (num : ℚ) / den / (2 : ℚ) ^ q|)
    ∧ (∀ k : Int, |(k : ℚ) - (num : ℚ) / den / (2 : ℚ) ^ q|
          = |(m : ℚ) - (num : ℚ) / den / (2 : ℚ) ^ q| → k ≠ (m : Int) → m % 2 = 0) := by
  have hd : (0 : ℚ) < den := by exact_mod_cast hden
  by_cases hq : q ≥ 0
  · rw [if_pos hq] at hm
    have hD : 0 < den * 2 ^ q.toNat := by positivity
    have hs : (num : ℚ) / den / (2 : ℚ) ^ q = (num : ℚ) / ((den * 2 ^ q.toNat : Nat) : ℚ) := by
      rw [two_zpow_of_nonneg q hq]
      push_cast
      rw [div_div]
    rw [hs, hm]
    exact roundHalfEven_spec num (den * 2 ^ q.toNat) hD
  · rw [if_neg hq] at hm
    have hq2 : 0 ≤ -q := by omega
    have hs : (num : ℚ) / den / (2 : ℚ) ^ q = ((num * 2 ^ (-q).toNat : Nat) : ℚ) / (den : ℚ) := by
      have e : (2 : ℚ) ^ q = ((2 : ℚ) ^ (-q))⁻¹ := by
        rw [zpow_neg, inv_inv]
      rw [e, two_zpow_of_nonneg (-q) hq2]
      push_cast
      field_simp
    rw [hs, hm]
    exact roundHalfEven_spec (num * 2 ^ (-q).toNat) den hden

/-- The core of the rounding: `m` is the nearest integer to `v / 2 ^ q`, where `q` is the
exponent of the last place of a `float64` of the size of `v`; then `m * 2 ^ q` is at
least as near to `v` as any `± my * 2 ^ ey` with `my < 2 ^ 53` and `ey ≥ -1074`. -/
theorem round_core (v : ℚ) (e2 q : Int) (m : Nat) (hv : 0 < v)
    (hlo : (2 : ℚ) ^ e2 ≤ v) (hhi : v < (2 : ℚ) ^ (e2 + 1))
    (hq : q = max (e2 - 52) (-1074))
    (hmin : ∀ k : Int, |(m : ℚ) - v / (2 : ℚ) ^ q| ≤ |(k : ℚ) - v / (2 : ℚ) ^ q|)
    (htie : ∀ k : Int, |(k : ℚ) - v / (2 : ℚ) ^ q| = |(m : ℚ) - v / (2 : ℚ) ^ q| →
      k ≠ (m : Int) → m % 2 = 0) :
    m ≤ 2 ^ 53 ∧ (-1074 < q → 2 ^ 52 ≤ m)
    ∧ (∀ (τ : Int) (my : Nat) (ey : Int), (τ = 1 ∨ τ = -1) → my < 2 ^ 53 → -1074 ≤ ey →
        |(m : ℚ) * (2 : ℚ) ^ q - v| ≤ |(τ : ℚ) * ((my : ℚ) * (2 : ℚ) ^ ey) - v|
        ∧ (|(τ : ℚ) * ((my : ℚ) * (2 : ℚ) ^ ey) - v| = |(m : ℚ) * (2 : ℚ) ^ q - v| →
            (τ : ℚ) * ((my : ℚ) * (2 : ℚ) ^ ey) ≠ (m : ℚ) * (2 : ℚ) ^ q → m % 2 = 0)) := by
  have h2 : (2 : ℚ) ≠ 0 := by norm_num
  have hP : (0 : ℚ) < (2 : ℚ) ^ q := by positivity
  obtain ⟨P, hPdef⟩ : ∃ P : ℚ, P = (2 : ℚ) ^ q := ⟨_, rfl⟩
  obtain ⟨s, hsdef⟩ : ∃ s : ℚ, s = v / (2 : ℚ) ^ q := ⟨_, rfl⟩
  rw [← hsdef] at hmin htie
  rw [← hPdef] at hP
  have hvs : v = s * P := by
    rw [hsdef, hPdef]
    field_simp
  have hs0 : 0 < s := by
    rw [hsdef]
    positivity
  -- the size of `s`
  have hs_lt : s < 2 ^ 53 := by
    rw [hsdef, div_lt_iff₀ (by positivity)]
    have hle : e2 + 1 ≤ 53 + q := by rw [hq]; omega
    calc v < (2 : ℚ) ^ (e2 + 1) := hhi
      _ ≤ (2 : ℚ) ^ (53 + q) := zpow_le_zpow_right₀ (by norm_num) hle
      _ = 2 ^ 53 * (2 : ℚ) ^ q := by
          rw [zpow_add₀ h2]
          norm_num
  have hs_ge : -1074 < q → (2 : ℚ) ^ 52 ≤ s := by
    intro hq1
    have hq2 : q = e2 - 52 := by rw [hq] at hq1 ⊢; omega
    rw [hsdef, le_div_iff₀ (by positivity)]
    have he : e2 = 52 + q := by omega
    calc (2 : ℚ) ^ 52 * (2 : ℚ) ^ q = (2 : ℚ) ^ (52 + q) := by
          rw [zpow_add₀ h2]
          norm_num
      _ = (2 : ℚ) ^ e2 := by rw [← he]
      _ ≤ v := hlo
  have hm_le : m ≤ 2 ^ 53 := by
    have h1 := hmin (2 ^ 53)
    have h3 : |((2 ^ 53 : Int) : ℚ) - s| = 2 ^ 53 - s := by
      push_cast
      exact abs_of_pos (by linarith)
    rw [h3] at h1
    have h4 : (m : ℚ) - s ≤ |(m : ℚ) - s| := le_abs_self _
    have h5 : (m : ℚ) ≤ 2 ^ 53 := by linarith
    exact_mod_cast h5
  have hm_ge : -1074 < q → 2 ^ 52 ≤ m := by
    intro hq1
    have hs1 := hs_ge hq1
    have h1 := hmin (2 ^ 52)
    have h3 : |((2 ^ 52 : Int) : ℚ) - s| = s - 2 ^ 52 := by
      push_cast
      rw [abs_sub_comm]
      exact abs_of_nonneg (by linarith)
    rw [h3] at h1
    have h4 : s - (m : ℚ) ≤ |(m : ℚ) - s| := by
      rw [abs_sub_comm]
      exact le_abs_self _
    have h5 : (2 : ℚ) ^ 52 ≤ (m : ℚ) := by linarith
    exact_mod_cast h5
  refine ⟨hm_le, hm_ge, ?_⟩
  intro τ my ey hτ hmy hey
  have hxv : |(m : ℚ) * (2 : ℚ) ^ q - v| = |(m : ℚ) - s| * P := by
    rw [← hPdef, hvs, ← sub_mul, abs_mul, abs_of_pos hP]
  rw [hxv]
  by_cases hcase : q ≤ ey
  · -- the other number is a multiple of the last place
    have hd : 0 ≤ ey - q := by omega
    obtain ⟨k, hk⟩ : ∃ k : Int, (τ : ℚ) * ((my : ℚ) * (2 : ℚ) ^ ey) = (k : ℚ) * P := by
      refine ⟨τ * (my : Int) * ((2 ^ (ey - q).toNat : Nat) : Int), ?_⟩
      have e : (2 : ℚ) ^ ey = (2 : ℚ) ^ (ey - q) * (2 : ℚ) ^ q := by
        rw [← zpow_add₀ h2]
        congr 1
        omega
      rw [e, two_zpow_of_nonneg (ey - q) hd, hPdef]
      push_cast
      ring
    have hyv : |(τ : ℚ) * ((my : ℚ) * (2 : ℚ) ^ ey) - v| = |(k : ℚ) - s| * P := by
      rw [hk, hvs, ← sub_mul, abs_mul, abs_of_pos hP]
    rw [hyv]
    constructor
    · exact mul_le_mul_of_nonneg_right (hmin k) hP.le
    · intro heq hne
      have heq2 : |(k : ℚ) - s| = |(m : ℚ) - s| := by
        exact mul_right_cancel₀ hP.ne' heq
      apply htie k heq2
      intro hkm
      apply hne
      rw [hk, hkm, hPdef]
      push_cast
      rfl
  · -- the other number is below the smallest number with this last place
    have hcase2 : ey < q := by omega
    have hq1 : -1074 < q := by omega
    have hs1 := hs_ge hq1
    have hw : (my : ℚ) * (2 : ℚ) ^ ey < 2 ^ 52 * P := by
      have h1 : (my : ℚ) < 2 ^ 53 := by exact_mod_cast hmy
      have h3 : (2 : ℚ) ^ ey ≤ (2 : ℚ) ^ (q - 1) :=
        zpow_le_zpow_right₀ (by norm_num) (by omega)
      have h4 : (2 : ℚ) ^ (q - 1) = P / 2 := by
        rw [hPdef, zpow_sub_one₀ h2]
        rfl
      have h5 : (0 : ℚ) < (2 : ℚ) ^ ey := by positivity
      calc (my : ℚ) * (2 : ℚ) ^ ey < 2 ^ 53 * (2 : ℚ) ^ ey := by
            exact mul_lt_mul_of_pos_right h1 h5
        _ ≤ 2 ^ 53 * (P / 2) := by
            rw [← h4]
            exact mul_le_mul_of_nonneg_left h3 (by positivity)
        _ = 2 ^ 52 * P := by ring
    have hw0 : (0 : ℚ) ≤ (my : ℚ) * (2 : ℚ) ^ ey := by positivity
    have h1 := hmin (2 ^ 52)
    have h3 : |((2 ^ 52 : Int) : ℚ) - s| = s - 2 ^ 52 := by
      push_cast
      rw [abs_sub_comm]
      exact abs_of_nonneg (by linarith)
    rw [h3] at h1
    have h6 : |(m : ℚ) - s| * P ≤ v - 2 ^ 52 * P := by
      rw [hvs, ← sub_mul]
      exact mul_le_mul_of_nonneg_right h1 hP.le
    have h7 : v - (my : ℚ) * (2 : ℚ) ^ ey ≤ |(τ : ℚ) * ((my : ℚ) * (2 : ℚ) ^ ey) - v| := by
      rcases hτ with hτ | hτ
      · rw [hτ, abs_sub_comm]
        push_cast
        rw [one_mul]
        exact le_abs_self _
      · rw [hτ, abs_sub_comm]
        push_cast
        have : v - (my : ℚ) * (2 : ℚ) ^ ey ≤ v - -1 * ((my : ℚ) * (2 : ℚ) ^ ey) := by linarith
        exact le_trans this (le_abs_self _)
    have hstrict : |(m : ℚ) - s| * P < |(τ : ℚ) * ((my : ℚ) * (2 : ℚ) ^ ey) - v| := by
      linarith
    exact ⟨hstrict.le, fun heq _ => absurd heq (ne_of_gt hstrict)⟩

theorem abs_signQ_mul (b : Bool) (a : ℚ) : |(if b then (-1 : ℚ) else 1) * a| = |a| := by
  cases b <;> simp

theorem threshold_cast :
    ((2 ^ 1024 - 2 ^ 970 : Nat) : ℚ) = (2 : ℚ) ^ 1024 - (2 : ℚ) ^ 970 := by
  have h : (2 : Nat) ^ 970 ≤ 2 ^ 1024 := Nat.pow_le_pow_right (by norm_num) (by norm_num)
  rw [Nat.cast_sub h]
  simp only [Nat.cast_pow, Nat.cast_ofNat]

theorem roundToFloat64_unfold (neg : Bool) (num den : Nat)
    (h : ¬ num ≥ (2 ^ 1024 - 2 ^ 970) * den) :
    ∃ (e0 e2 q : Int) (m : Nat),
      e0 = (bitLen num num : Int) - (bitLen den den : Int)
      ∧ e2 = (if ratioAtLeastPow2 num den e0 then e0 else e0 - 1)
      ∧ q = max (e2 - 52) (-1074)
      ∧ m = (if q ≥ 0 then roundHalfEven num (den * 2 ^ q.toNat)
              else roundHalfEven (num * 2 ^ (-q).toNat) den)
      ∧ roundToFloat64 neg num den
          = (if m = 2 ^ 53 then some ⟨neg, 2 ^ 52, q + 1⟩ else some ⟨neg, m, q⟩) := by
  refine ⟨_, _, _, _, rfl, rfl, rfl, rfl, ?_⟩
  unfold roundToFloat64
  rw [if_neg h]

/-- The conversion `roundToFloat64` is correct rounding: it fails exactly when
`num / den` is at least `2 ^ 1024 - 2 ^ 970`, and otherwise it gives the `float64`
nearest to `± num / den`, a tie going to the even significand. -/
theorem roundToFloat64_spec (neg : Bool) (num den : Nat) (hnum : 0 < num) (hden : 0 < den) :
    (roundToFloat64 neg num den = none ↔ (2 : ℚ) ^ 1024 - (2 : ℚ) ^ 970 ≤ (num : ℚ) / den)
    ∧ ∀ x, roundToFloat64 neg num den = some x →
        x.neg = neg
        ∧ IsNearestFloat64 ((if neg then -1 else 1) * ((num : ℚ) / den)) x := by
  have hd : (0 : ℚ) < den := by exact_mod_cast hden
  have hn : (0 : ℚ) < num := by exact_mod_cast hnum
  have h2 : (2 : ℚ) ≠ 0 := by norm_num
  have hthr : num ≥ (2 ^ 1024 - 2 ^ 970) * den
      ↔ (2 : ℚ) ^ 1024 - (2 : ℚ) ^ 970 ≤ (num : ℚ) / den := by
    rw [le_div_iff₀ hd, ← threshold_cast]
    constructor
    · intro h
      exact_mod_cast h
    · intro h
      exact_mod_cast h
  by_cases hov : num ≥ (2 ^ 1024 - 2 ^ 970) * den
  · have hnone : roundToFloat64 neg num den = none := by
      unfold roundToFloat64
      rw [if_pos hov]
    refine ⟨⟨fun _ => hthr.mp hov, fun _ => hnone⟩, ?_⟩
    intro x hx
    rw [hnone] at hx
    exact absurd hx (by simp)
  · obtain ⟨e0, e2, q, m, he0, he2, hq, hm, hres⟩ := roundToFloat64_unfold neg num den hov
    have hvlt : (num : ℚ) / den < (2 : ℚ) ^ 1024 - (2 : ℚ) ^ 970 := by
      rw [← not_le]
      exact fun h => hov (hthr.mpr h)
    refine ⟨⟨fun h => ?_, fun h => absurd (hthr.mpr h) hov⟩, ?_⟩
    · rw [hres] at h
      split at h <;> exact absurd h (by simp)
    intro x hx
    rw [hres] at hx
    obtain ⟨v, hvdef⟩ : ∃ v : ℚ, v = (num : ℚ) / den := ⟨_, rfl⟩
    have hv0 : 0 < v := by rw [hvdef]; positivity
    obtain ⟨hlo, hhi⟩ := floorLog2_spec num den hnum hden e0 e2 he0 he2
    obtain ⟨hmin, htie⟩ := scaled_round_spec num den hden q m hm
    rw [← hvdef] at hlo hhi hmin htie hvlt ⊢
    obtain ⟨hm_le, hm_ge, hnear⟩ := round_core v e2 q m hv0 hlo hhi hq hmin htie
    -- the exponent stays within range
    have he2_le : e2 ≤ 1023 := by
      by_contra hcon
      have h1 : (1024 : Int) ≤ e2 := by omega
      have h3 : (2 : ℚ) ^ (1024 : Int) ≤ (2 : ℚ) ^ e2 :=
        zpow_le_zpow_right₀ (by norm_num) h1
      have h4 : (2 : ℚ) ^ (1024 : Int) = (2 : ℚ) ^ (1024 : Nat) := by
        rw [← zpow_natCast]
        rfl
      have h5 : (0 : ℚ) < (2 : ℚ) ^ 970 := by positivity
      rw [h4] at h3
      linarith
    have hq_le : q ≤ 971 := by rw [hq]; omega
    have hq_ge : -1074 ≤ q := by rw [hq]; omega
    have hcarry : m = 2 ^ 53 → q ≤ 970 := by
      intro hm53
      by_contra hcon
      have hq971 : q = 971 := by omega
      have hP : (2 : ℚ) ^ q = (2 : ℚ) ^ (971 : Nat) := by
        rw [hq971, ← zpow_natCast]
        rfl
      have hs : v / (2 : ℚ) ^ q < 2 ^ 53 - 1 / 2 := by
        rw [div_lt_iff₀ (by positivity), hP]
        have : ((2 : ℚ) ^ 53 - 1 / 2) * (2 : ℚ) ^ 971 = (2 : ℚ) ^ 1024 - (2 : ℚ) ^ 970 := by
          norm_num
        rw [this]
        exact hvlt
      have h1 := hmin (2 ^ 53 - 1)
      rw [hm53] at h1
      push_cast at h1
      generalize v / (2 : ℚ) ^ q = s at hs h1
      have h3 : (9007199254740992 : ℚ) - s ≤ |(9007199254740992 : ℚ) - s| := le_abs_self _
      rcases abs_cases ((9007199254740991 : ℚ) - s) with ⟨h4, _⟩ | ⟨h4, _⟩
      · rw [h4] at h1
        linarith
      · rw [h4] at h1
        linarith
    -- the value of the result
    have hval : x.toRat = (if neg then (-1 : ℚ) else 1) * ((m : ℚ) * (2 : ℚ) ^ q)
        ∧ x.neg = neg ∧ x.IsFinite ∧ (m % 2 = 0 → x.mant % 2 = 0) := by
      by_cases hm53 : m = 2 ^ 53
      · rw [if_pos hm53, Option.some.injEq] at hx
        rw [← hx]
        refine ⟨?_, rfl, ⟨by norm_num, by show (-1074 : Int) ≤ q + 1; omega, ?_, ?_⟩, ?_⟩
        · simp only [Float64.toRat]
          rw [hm53, zpow_add_one₀ h2]
          push_cast
          ring
        · show q + 1 ≤ 971
          have := hcarry hm53
          omega
        · intro _
          exact le_refl _
        · intro _
          norm_num
      · rw [if_neg hm53, Option.some.injEq] at hx
        rw [← hx]
        refine ⟨rfl, rfl, ⟨?_, hq_ge, hq_le, hm_ge⟩, fun h => h⟩
        show m < 2 ^ 53
        omega
    obtain ⟨hxval, hxneg, hxfin, hxeven⟩ := hval
    refine ⟨hxneg, hxfin, ?_, ?_⟩
    · intro y hy
      have hτ : ∃ τ : Int, (τ = 1 ∨ τ = -1)
          ∧ y.toRat = (if neg then (-1 : ℚ) else 1)
              * ((τ : ℚ) * ((y.mant : ℚ) * (2 : ℚ) ^ y.exp)) := by
        unfold Float64.toRat
        cases neg <;> cases y.neg
        · exact ⟨1, Or.inl rfl, by simp⟩
        · exact ⟨-1, Or.inr rfl, by simp⟩
        · exact ⟨-1, Or.inr rfl, by simp⟩
        · exact ⟨1, Or.inl rfl, by simp⟩
      obtain ⟨τ, hτ1, hτ2⟩ := hτ
      rw [hxval, hτ2, ← mul_sub, ← mul_sub, abs_signQ_mul, abs_signQ_mul]
      exact (hnear τ y.mant y.exp hτ1 hy.1 hy.2.1).1
    · intro y hy heq hne
      have hτ : ∃ τ : Int, (τ = 1 ∨ τ = -1)
          ∧ y.toRat = (if neg then (-1 : ℚ) else 1)
              * ((τ : ℚ) * ((y.mant : ℚ) * (2 : ℚ) ^ y.exp)) := by
        unfold Float64.toRat
        cases neg <;> cases y.neg
        · exact ⟨1, Or.inl rfl, by simp⟩
        · exact ⟨-1, Or.inr rfl, by simp⟩
        · exact ⟨-1, Or.inr rfl, by simp⟩
        · exact ⟨1, Or.inl rfl, by simp⟩
      obtain ⟨τ, hτ1, hτ2⟩ := hτ
      apply hxeven
      rw [hxval, hτ2, ← mul_sub, ← mul_sub, abs_signQ_mul, abs_signQ_mul] at heq
      apply (hnear τ y.mant y.exp hτ1 hy.1 hy.2.1).2 heq
      intro hc
      apply hne
      rw [hxval, hτ2, hc]

theorem expValue_foldl (es : GoString) (acc : Nat)
    (h : es.foldl (fun n c => n * 10 + (c.val - 48)) acc < 100000) :
    es.foldl (fun e c => if e < 10000 then e * 10 + (c.val - 48) else e) acc
      = es.foldl (fun n c => n * 10 + (c.val - 48)) acc := by
  induction es generalizing acc with
  | nil => rfl
  | cons c es ih =>
    simp only [List.foldl_cons] at h ⊢
    have hge := foldl_dec_ge es (acc * 10 + (c.val - 48))
    have hacc : acc < 10000 := by omega
    rw [if_pos hacc]
    exact ih _ h

/-- An exponent below 100000 is accumulated in full. -/
theorem expValue_eq (es : GoString) (h : decVal es < 100000) :
    strconv.expValue es = decVal es :=
  expValue_foldl es 0 h

theorem isNearestFloat64_zero (neg : Bool) : IsNearestFloat64 0 ⟨neg, 0, -1074⟩ := by
  refine ⟨⟨by norm_num, le_refl _, by norm_num, fun h => absurd h (lt_irrefl _)⟩, ?_, ?_⟩
  · intro y _
    simp [Float64.toRat]
  · intro y _ _ _
    rfl

/-- The conversion `strconv.ParseFloat` on a JSON number literal whose exponent is below
100000 in magnitude: it fails exactly when the magnitude of the number is at least
`2 ^ 1024 - 2 ^ 970`, and otherwise gives the `float64` nearest to the number. -/
theorem parseFloat_spec (lit : GoString) (p : NumberLit) (hs : splitNumber lit = some p)
    (hexp : decVal p.expDigits < 100000) :
    (strconv.ParseFloat lit = none ↔ (2 : ℚ) ^ 1024 - (2 : ℚ) ^ 970 ≤ |p.value|)
    ∧ ∀ x, strconv.ParseFloat lit = some x → x.neg = p.neg ∧ IsNearestFloat64 p.value x := by
  have hpf : strconv.ParseFloat lit
      = if p.significand = 0 then some ⟨p.neg, 0, -1074⟩
        else if p.exponent ≥ 0 then
          roundToFloat64 p.neg (p.significand * 10 ^ p.exponent.toNat) 1
        else roundToFloat64 p.neg p.significand (10 ^ (-p.exponent).toNat) := by
    unfold strconv.ParseFloat
    rw [hs]
    simp only [expValue_eq p.expDigits hexp]
    rfl
  have h10 : (10 : ℚ) ≠ 0 := by norm_num
  have hthr0 : (0 : ℚ) < (2 : ℚ) ^ 1024 - (2 : ℚ) ^ 970 := by
    have : (2 : ℚ) ^ 970 < (2 : ℚ) ^ 1024 := pow_lt_pow_right₀ (by norm_num) (by norm_num)
    linarith
  by_cases hm : p.significand = 0
  · rw [hpf, if_pos hm]
    have hv : p.value = 0 := by
      simp [NumberLit.value, decimalValue, hm]
    rw [hv]
    refine ⟨⟨fun h => absurd h (by simp), fun h => ?_⟩, ?_⟩
    · rw [abs_zero] at h
      linarith
    · intro x hx
      rw [Option.some.injEq] at hx
      rw [← hx]
      exact ⟨rfl, isNearestFloat64_zero p.neg⟩
  · have hmpos : 0 < p.significand := Nat.pos_of_ne_zero hm
    have hmq : (0 : ℚ) < (p.significand : ℚ) := by exact_mod_cast hmpos
    rw [hpf, if_neg hm]
    by_cases he : p.exponent ≥ 0
    · rw [if_pos he]
      have hnum : 0 < p.significand * 10 ^ p.exponent.toNat := by positivity
      have hq : ((p.significand * 10 ^ p.exponent.toNat : Nat) : ℚ) / ((1 : Nat) : ℚ)
          = (p.significand : ℚ) * (10 : ℚ) ^ p.exponent := by
        obtain ⟨n, hn⟩ := Int.eq_ofNat_of_zero_le he
        rw [hn]
        simp
      have hval : p.value = (if p.neg then -1 else 1)
          * (((p.significand * 10 ^ p.exponent.toNat : Nat) : ℚ) / ((1 : Nat) : ℚ)) := by
        rw [hq]
        rfl
      have habs : |p.value|
          = ((p.significand * 10 ^ p.exponent.toNat : Nat) : ℚ) / ((1 : Nat) : ℚ) := by
        rw [hval, abs_signQ_mul, hq]
        exact abs_of_pos (by positivity)
      rw [habs, hval]
      exact roundToFloat64_spec p.neg _ 1 hnum Nat.one_pos
    · rw [if_neg he]
      have hden : 0 < 10 ^ (-p.exponent).toNat := by positivity
      have hq : ((p.significand : Nat) : ℚ) / ((10 ^ (-p.exponent).toNat : Nat) : ℚ)
          = (p.significand : ℚ) * (10 : ℚ) ^ p.exponent := by
        have he2 : 0 ≤ -p.exponent := by omega
        obtain ⟨n, hn⟩ := Int.eq_ofNat_of_zero_le he2
        have hn2 : p.exponent = -(n : Int) := by omega
        rw [hn, hn2]
        simp [zpow_neg, div_eq_mul_inv]
      have hval : p.value = (if p.neg then -1 else 1)
          * (((p.significand : Nat) : ℚ) / ((10 ^ (-p.exponent).toNat : Nat) : ℚ)) := by
        rw [hq]
        rfl
      have habs : |p.value|
          = ((p.significand : Nat) : ℚ) / ((10 ^ (-p.exponent).toNat : Nat) : ℚ) := by
        rw [hval, abs_signQ_mul, hq]
        exact abs_of_pos (by positivity)
      rw [habs, hval]
      exact roundToFloat64_spec p.neg _ _ hmpos hden

/-- The `float64` that `strconv` gives for the decimal `± m * 10 ^ e`: none exactly when
the magnitude is at least `2 ^ 1024 - 2 ^ 970`, and otherwise the nearest one. -/
theorem parseFloat_core (neg : Bool) (m : Nat) (e : Int) (r : Option Float64)
    (hr : r = if m = 0 then some ⟨neg, 0, -1074⟩
      else if e ≥ 0 then roundToFloat64 neg (m * 10 ^ e.toNat) 1
      else roundToFloat64 neg m (10 ^ (-e).toNat)) :
    (r = none ↔ (2 : ℚ) ^ 1024 - (2 : ℚ) ^ 970 ≤ |decimalValue neg m e|)
    ∧ ∀ x, r = some x → x.neg = neg ∧ IsNearestFloat64 (decimalValue neg m e) x := by
  subst hr
  have h10 : (10 : ℚ) ≠ 0 := by norm_num
  have hthr0 : (0 : ℚ) < (2 : ℚ) ^ 1024 - (2 : ℚ) ^ 970 := by
    have : (2 : ℚ) ^ 970 < (2 : ℚ) ^ 1024 := pow_lt_pow_right₀ (by norm_num) (by norm_num)
    linarith
  by_cases hm : m = 0
  · rw [if_pos hm]
    have hv : decimalValue neg m e = 0 := by
      simp [decimalValue, hm]
    rw [hv]
    refine ⟨⟨fun h => absurd h (by simp), fun h => ?_⟩, ?_⟩
    · rw [abs_zero] at h
      linarith
    · intro x hx
      rw [Option.some.injEq] at hx
      rw [← hx]
      exact ⟨rfl, isNearestFloat64_zero neg⟩
  · have hmpos : 0 < m := Nat.pos_of_ne_zero hm
    have hmq : (0 : ℚ) < (m : ℚ) := by exact_mod_cast hmpos
    rw [if_neg hm]
    by_cases he : e ≥ 0
    · rw [if_pos he]
      have hnum : 0 < m * 10 ^ e.toNat := by positivity
      have hq : ((m * 10 ^ e.toNat : Nat) : ℚ) / ((1 : Nat) : ℚ)
          = (m : ℚ) * (10 : ℚ) ^ e := by
        obtain ⟨n, hn⟩ := Int.eq_ofNat_of_zero_le he
        rw [hn]
        simp
      have hval : decimalValue neg m e = (if neg then -1 else 1)
          * (((m * 10 ^ e.toNat : Nat) : ℚ) / ((1 : Nat) : ℚ)) := by
        rw [hq]
        rfl
      have habs : |decimalValue neg m e|
          = ((m * 10 ^ e.toNat : Nat) : ℚ) / ((1 : Nat) : ℚ) := by
        rw [hval, abs_signQ_mul, hq]
        exact abs_of_pos (by positivity)
      rw [habs, hval]
      exact roundToFloat64_spec neg _ 1 hnum Nat.one_pos
    · rw [if_neg he]
      have hden : 0 < 10 ^ (-e).toNat := by positivity
      have hq : ((m : Nat) : ℚ) / ((10 ^ (-e).toNat : Nat) : ℚ)
          = (m : ℚ) * (10 : ℚ) ^ e := by
        have he2 : 0 ≤ -e := by omega
        obtain ⟨n, hn⟩ := Int.eq_ofNat_of_zero_le he2
        have hn2 : e = -(n : Int) := by omega
        rw [hn, hn2]
        simp [zpow_neg, div_eq_mul_inv]
      have hval : decimalValue neg m e = (if neg then -1 else 1)
          * (((m : Nat) : ℚ) / ((10 ^ (-e).toNat : Nat) : ℚ)) := by
        rw [hq]
        rfl
      have habs : |decimalValue neg m e|
          = ((m : Nat) : ℚ) / ((10 ^ (-e).toNat : Nat) : ℚ) := by
        rw [hval, abs_signQ_mul, hq]
        exact abs_of_pos (by positivity)
      rw [habs, hval]
      exact roundToFloat64_spec neg _ _ hmpos hden

/-- The conversion `strconv.ParseFloat` on a JSON number literal, in terms of the
exponent that `strconv` accumulates. -/
theorem parseFloat_read (lit : GoString) (p : NumberLit) (hs : splitNumber lit = some p) :
    strconv.ParseFloat lit
      = if p.significand = 0 then some ⟨p.neg, 0, -1074⟩
        else if (if p.expNeg then -(strconv.expValue p.expDigits : Int)
              else (strconv.expValue p.expDigits : Int)) - (p.fracDigits.length : Int) ≥ 0 then
          roundToFloat64 p.neg (p.significand * 10 ^ ((if p.expNeg then
            -(strconv.expValue p.expDigits : Int)
              else (strconv.expValue p.expDigits : Int)) - (p.fracDigits.length : Int)).toNat) 1
        else roundToFloat64 p.neg p.significand (10 ^ (-((if p.expNeg then
            -(strconv.expValue p.expDigits : Int)
              else (strconv.expValue p.expDigits : Int)) - (p.fracDigits.length : Int))).toNat) := by
  unfold strconv.ParseFloat
  rw [hs]
  rfl

theorem foldl_dec_bound (ds : GoString) (acc : Nat) :
    ds.foldl (fun n c => n * 10 + (c.val - 48)) acc + 23 ≤ (acc + 23) * 10 ^ ds.length := by
  induction ds generalizing acc with
  | nil => simp
  | cons c ds ih =>
    rw [List.foldl_cons, List.length_cons, pow_succ]
    have h1 := ih (acc * 10 + (c.val - 48))
    have hc : c.val - 48 ≤ 207 := by have := c.isLt; omega
    have h2 : acc * 10 + (c.val - 48) + 23 ≤ (acc + 23) * 10 := by omega
    calc List.foldl (fun n c => n * 10 + (c.val - 48)) (acc * 10 + (c.val - 48)) ds + 23
        ≤ (acc * 10 + (c.val - 48) + 23) * 10 ^ ds.length := h1
      _ ≤ ((acc + 23) * 10) * 10 ^ ds.length := Nat.mul_le_mul_right _ h2
      _ = (acc + 23) * (10 ^ ds.length * 10) := by ring

/-- The significand of a literal with `n` digits is below `10 ^ (n + 2)`. -/
theorem significand_lt (p : NumberLit) :
    p.significand < 10 ^ (p.intDigits.length + p.fracDigits.length + 2) := by
  unfold NumberLit.significand decVal
  have h := foldl_dec_bound (p.intDigits ++ p.fracDigits) 0
  rw [List.length_append] at h
  have hpos : 0 < 10 ^ (p.intDigits.length + p.fracDigits.length) := by positivity
  rw [pow_add]
  omega

theorem expValue_rel (es : GoString) (a b : Nat)
    (h : a = b ∨ (10000 ≤ a ∧ 10000 ≤ b)) :
    es.foldl (fun e c => if e < 10000 then e * 10 + (c.val - 48) else e) a
        = es.foldl (fun n c => n * 10 + (c.val - 48)) b
      ∨ (10000 ≤ es.foldl (fun e c => if e < 10000 then e * 10 + (c.val - 48) else e) a
        ∧ 10000 ≤ es.foldl (fun n c => n * 10 + (c.val - 48)) b) := by
  induction es generalizing a b with
  | nil => exact h
  | cons c es ih =>
    rw [List.foldl_cons, List.foldl_cons]
    apply ih
    rcases h with h | ⟨h1, h2⟩
    · subst h
      by_cases ha : a < 10000
      · left
        rw [if_pos ha]
      · right
        rw [if_neg ha]
        constructor <;> omega
    · right
      rw [if_neg (by omega)]
      constructor <;> omega

/-- An exponent from 100000 on is accumulated as a number from 10000 on. -/
theorem expValue_ge (es : GoString) (h : 100000 ≤ decVal es) : 10000 ≤ strconv.expValue es := by
  unfold strconv.expValue
  unfold decVal at h
  rcases expValue_rel es 0 0 (Or.inl rfl) with h1 | ⟨h1, _⟩
  · omega
  · exact h1

theorem float_abs_ge (y : Float64) (hy : y.IsFinite) (hm : y.mant ≠ 0) :
    (2 : ℚ) ^ (-1074 : Int) ≤ |y.toRat| := by
  unfold Float64.toRat
  rw [abs_signQ_mul]
  have h2 : (0 : ℚ) < (2 : ℚ) ^ y.exp := by positivity
  rw [abs_of_nonneg (by positivity)]
  have h1 : (1 : ℚ) ≤ (y.mant : ℚ) := by
    exact_mod_cast Nat.one_le_iff_ne_zero.mpr hm
  have h3 : (2 : ℚ) ^ (-1074 : Int) ≤ (2 : ℚ) ^ y.exp :=
    zpow_le_zpow_right₀ (by norm_num) hy.2.1
  calc (2 : ℚ) ^ (-1074 : Int) ≤ (2 : ℚ) ^ y.exp := h3
    _ = 1 * (2 : ℚ) ^ y.exp := (one_mul _).symm
    _ ≤ (y.mant : ℚ) * (2 : ℚ) ^ y.exp := mul_le_mul_of_nonneg_right h1 h2.le

theorem two_zpow_1074 : (2 : ℚ) ^ (-1074 : Int) = 2 * (2 : ℚ) ^ (-1075 : Int) := by
  have : (-1074 : Int) = 1 + (-1075) := by norm_num
  rw [this, zpow_add₀ (by norm_num : (2 : ℚ) ≠ 0), zpow_one]

/-- A `float64` nearest to a number below `2 ^ -1075` in magnitude is a zero. -/
theorem isNearest_tiny (v : ℚ) (x : Float64) (hv : |v| < (2 : ℚ) ^ (-1075 : Int))
    (h : IsNearestFloat64 v x) : x.mant = 0 ∧ x.exp = -1074 := by
  obtain ⟨hfin, hnear, _⟩ := h
  have hz : (⟨false, 0, -1074⟩ : Float64).IsFinite :=
    ⟨by norm_num, le_refl _, by norm_num, fun h => absurd h (lt_irrefl _)⟩
  have h0 := hnear ⟨false, 0, -1074⟩ hz
  have hz0 : (⟨false, 0, -1074⟩ : Float64).toRat = 0 := by simp [Float64.toRat]
  rw [hz0, zero_sub, abs_neg] at h0
  have hm : x.mant = 0 := by
    by_contra hm
    have h1 := float_abs_ge x hfin hm
    rw [two_zpow_1074] at h1
    have h2 : |x.toRat| ≤ |x.toRat - v| + |v| := by
      have := abs_add (x.toRat - v) v
      simpa using this
    linarith
  refine ⟨hm, ?_⟩
  have h4 := hfin.2.2.2
  have h5 := hfin.2.1
  by_contra hne
  have : -1074 < x.exp := lt_of_le_of_ne h5 (fun h => hne h.symm)
  have := h4 this
  rw [hm] at this
  norm_num at this

/-- A zero is a `float64` nearest to every number of magnitude up to `2 ^ -1075`. -/
theorem isNearest_zero_of_tiny (w : ℚ) (neg : Bool) (hw : |w| ≤ (2 : ℚ) ^ (-1075 : Int)) :
    IsNearestFloat64 w ⟨neg, 0, -1074⟩ := by
  have hx0 : (⟨neg, 0, -1074⟩ : Float64).toRat = 0 := by simp [Float64.toRat]
  refine ⟨⟨by norm_num, le_refl _, by norm_num, fun h => absurd h (lt_irrefl _)⟩, ?_, ?_⟩
  · intro y hy
    rw [hx0, zero_sub, abs_neg]
    by_cases hm : y.mant = 0
    · have : y.toRat = 0 := by simp [Float64.toRat, hm]
      rw [this, zero_sub, abs_neg]
    · have h1 := float_abs_ge y hy hm
      rw [two_zpow_1074] at h1
      have h2 : |y.toRat| ≤ |y.toRat - w| + |w| := by
        have := abs_add (y.toRat - w) w
        simpa using this
      linarith
  · intro y _ _ _
    rfl

theorem decimalValue_abs (neg : Bool) (m : Nat) (e : Int) :
    |decimalValue neg m e| = (m : ℚ) * (10 : ℚ) ^ e := by
  unfold decimalValue
  rw [abs_signQ_mul]
  exact abs_of_nonneg (by positivity)

/-- A decimal with a significand below `10 ^ 802` and an exponent of at most `-10000` is
below `2 ^ -1075` in magnitude. -/
theorem decimalValue_tiny (neg : Bool) (m : Nat) (e : Int) (hm : m < 10 ^ 802)
    (he : e ≤ -10000) : |decimalValue neg m e| < (2 : ℚ) ^ (-1075 : Int) := by
  rw [decimalValue_abs]
  have h1 : (10 : ℚ) ^ e ≤ (10 : ℚ) ^ (-10000 : Int) :=
    zpow_le_zpow_right₀ (by norm_num) he
  have hmq : (m : ℚ) < (10 : ℚ) ^ (802 : Nat) := by exact_mod_cast hm
  have h2 : (m : ℚ) * (10 : ℚ) ^ e < (10 : ℚ) ^ (802 : Nat) * (10 : ℚ) ^ (-10000 : Int) := by
    have hpos : (0 : ℚ) < (10 : ℚ) ^ e := by positivity
    calc (m : ℚ) * (10 : ℚ) ^ e < (10 : ℚ) ^ (802 : Nat) * (10 : ℚ) ^ e :=
          mul_lt_mul_of_pos_right hmq hpos
      _ ≤ (10 : ℚ) ^ (802 : Nat) * (10 : ℚ) ^ (-10000 : Int) :=
          mul_le_mul_of_nonneg_left h1 (by positivity)
  have h3 : (10 : ℚ) ^ (802 : Nat) * (10 : ℚ) ^ (-10000 : Int) = (10 : ℚ) ^ (-9198 : Int) := by
    rw [← zpow_natCast, ← zpow_add₀ (by norm_num : (10 : ℚ) ≠ 0)]
    norm_num
  have h4 : (10 : ℚ) ^ (-9198 : Int) ≤ (2 : ℚ) ^ (-1075 : Int) := by
    have e1 : (10 : ℚ) ^ (-9198 : Int) = ((10 : ℚ) ^ (9198 : Nat))⁻¹ := by
      rw [← zpow_natCast, ← zpow_neg]
      norm_num
    have e2 : (2 : ℚ) ^ (-1075 : Int) = ((2 : ℚ) ^ (1075 : Nat))⁻¹ := by
      rw [← zpow_natCast, ← zpow_neg]
      norm_num
    rw [e1, e2]
    apply inv_anti₀ (by positivity)
    calc (2 : ℚ) ^ (1075 : Nat) ≤ (10 : ℚ) ^ (1075 : Nat) :=
          pow_le_pow_left₀ (by norm_num) (by norm_num) _
      _ ≤ (10 : ℚ) ^ (9198 : Nat) := pow_le_pow_right₀ (by norm_num) (by norm_num)
  linarith

/-- A decimal with a significand that is not zero and an exponent from 9000 on is at
least `2 ^ 1024` in magnitude. -/
theorem decimalValue_huge (neg : Bool) (m : Nat) (e : Int) (hm : m ≠ 0) (he : 9000 ≤ e) :
    (2 : ℚ) ^ 1024 - (2 : ℚ) ^ 970 ≤ |decimalValue neg m e| := by
  rw [decimalValue_abs]
  have h1 : (1 : ℚ) ≤ (m : ℚ) := by exact_mod_cast Nat.one_le_iff_ne_zero.mpr hm
  have h2 : (10 : ℚ) ^ (9000 : Int) ≤ (10 : ℚ) ^ e := zpow_le_zpow_right₀ (by norm_num) he
  have h3 : (2 : ℚ) ^ (1024 : Nat) ≤ (10 : ℚ) ^ (9000 : Int) := by
    have e1 : (10 : ℚ) ^ (9000 : Int) = (10 : ℚ) ^ (9000 : Nat) := by
      rw [← zpow_natCast]
      norm_num
    rw [e1]
    calc (2 : ℚ) ^ (1024 : Nat) ≤ (10 : ℚ) ^ (1024 : Nat) :=
          pow_le_pow_left₀ (by norm_num) (by norm_num) _
      _ ≤ (10 : ℚ) ^ (9000 : Nat) := pow_le_pow_right₀ (by norm_num) (by norm_num)
  have h4 : (0 : ℚ) < (2 : ℚ) ^ 970 := by positivity
  have h5 : (10 : ℚ) ^ e ≤ (m : ℚ) * (10 : ℚ) ^ e := by
    have hpos : (0 : ℚ) < (10 : ℚ) ^ e := by positivity
    calc (10 : ℚ) ^ e = 1 * (10 : ℚ) ^ e := (one_mul _).symm
      _ ≤ (m : ℚ) * (10 : ℚ) ^ e := mul_le_mul_of_nonneg_right h1 hpos.le
  linarith

/-- The conversion `strconv.ParseFloat` on a JSON number literal with at most 800 digits:
it fails exactly when the magnitude of the number is at least `2 ^ 1024 - 2 ^ 970`, and
otherwise gives the `float64` nearest to the number. -/
theorem parseFloat_short (lit : GoString) (p : NumberLit) (hs : splitNumber lit = some p)
    (hlen : p.intDigits.length + p.fracDigits.length ≤ 800) :
    (strconv.ParseFloat lit = none ↔ (2 : ℚ) ^ 1024 - (2 : ℚ) ^ 970 ≤ |p.value|)
    ∧ ∀ x, strconv.ParseFloat lit = some x → x.neg = p.neg ∧ IsNearestFloat64 p.value x := by
  by_cases hexp : decVal p.expDigits < 100000
  · exact parseFloat_spec lit p hs hexp
  · have hE : 100000 ≤ decVal p.expDigits := by omega
    have hc := expValue_ge p.expDigits hE
    have hm802 : p.significand < 10 ^ 802 :=
      lt_of_lt_of_le (significand_lt p) (Nat.pow_le_pow_right (by norm_num) (by omega))
    obtain ⟨cnone, csome⟩ := parseFloat_core p.neg p.significand _ _ (parseFloat_read lit p hs)
    have hthr0 : (0 : ℚ) < (2 : ℚ) ^ 1024 - (2 : ℚ) ^ 970 := by
      have : (2 : ℚ) ^ 970 < (2 : ℚ) ^ 1024 := pow_lt_pow_right₀ (by norm_num) (by norm_num)
      linarith
    have hthr1 : (2 : ℚ) ^ (-1075 : Int) < (2 : ℚ) ^ 1024 - (2 : ℚ) ^ 970 := by
      have h1 : (2 : ℚ) ^ (-1075 : Int) ≤ (2 : ℚ) ^ (0 : Int) :=
        zpow_le_zpow_right₀ (by norm_num) (by norm_num)
      have h2 : (2 : ℚ) ^ 970 * 2 ≤ (2 : ℚ) ^ 1024 := by
        rw [← pow_succ]
        exact pow_le_pow_right₀ (by norm_num) (by norm_num)
      have h3 : (1 : ℚ) ≤ (2 : ℚ) ^ 970 := one_le_pow₀ (by norm_num)
      rw [zpow_zero] at h1
      linarith
    by_cases hm : p.significand = 0
    · have hv : p.value = 0 := by simp [NumberLit.value, decimalValue, hm]
      rw [parseFloat_read lit p hs, if_pos hm, hv]
      refine ⟨⟨fun h => absurd h (by simp), fun h => ?_⟩, ?_⟩
      · rw [abs_zero] at h
        linarith
      · intro x hx
        rw [Option.some.injEq] at hx
        rw [← hx]
        exact ⟨rfl, isNearestFloat64_zero p.neg⟩
    · cases hneg : p.expNeg with
      | true =>
        rw [hneg] at cnone csome
        simp only [if_true] at cnone csome
        have htrue : |p.value| < (2 : ℚ) ^ (-1075 : Int) := by
          unfold NumberLit.value
          apply decimalValue_tiny p.neg p.significand p.exponent hm802
          unfold NumberLit.exponent
          rw [hneg]
          simp only [if_true]
          omega
        have hread := decimalValue_tiny p.neg p.significand
          (-(strconv.expValue p.expDigits : Int) - (p.fracDigits.length : Int)) hm802 (by omega)
        refine ⟨⟨fun h => ?_, fun h => ?_⟩, ?_⟩
        · have := cnone.mp h
          linarith
        · linarith
        · intro x hx
          obtain ⟨hxneg, hxnear⟩ := csome x hx
          obtain ⟨hx1, hx2⟩ := isNearest_tiny _ x hread hxnear
          have hxe : x = ⟨x.neg, 0, -1074⟩ := by
            cases x
            simp only [Float64.mk.injEq, true_and]
            exact ⟨hx1, hx2⟩
          refine ⟨hxneg, ?_⟩
          rw [hxe]
          exact isNearest_zero_of_tiny _ _ htrue.le
      | false =>
        rw [hneg] at cnone csome
        simp only [Bool.false_eq_true, if_false] at cnone csome
        have htrue : (2 : ℚ) ^ 1024 - (2 : ℚ) ^ 970 ≤ |p.value| := by
          unfold NumberLit.value
          apply decimalValue_huge p.neg p.significand p.exponent hm
          unfold NumberLit.exponent
          rw [hneg]
          simp only [Bool.false_eq_true, if_false]
          omega
        have hread := decimalValue_huge p.neg p.significand
          ((strconv.expValue p.expDigits : Int) - (p.fracDigits.length : Int)) hm (by omega)
        have hnone := cnone.mpr hread
        refine ⟨⟨fun _ => htrue, fun _ => hnone⟩, ?_⟩
        intro x hx
        rw [hnone] at hx
        exact absurd hx (by simp)

/-! ### Decoding a pair -/

theorem unix_roundtrip (n : Int) (h : fitsInt64 n) :
    (time.Unix n 0).Unix = n ∧ (time.Unix n 0).Nanosecond = 0 := by
  unfold fitsInt64 at h
  have i63 : (2 : Int) ^ 63 = 9223372036854775808 := by norm_num
  have i64 : (2 : Int) ^ 64 = 18446744073709551616 := by norm_num
  have hu : time.unixToInternal = 62135596800 := by decide
  have hU : time.Unix n 0 = ⟨0, wrapInt64 (n + time.unixToInternal), time.Location.Local⟩ := by
    simp [time.Unix, time.unixTime, wrapUint64]
  rw [hU]
  constructor
  · simp only [time.Time.Unix, time.internalToUnix, hu]
    unfold wrapInt64
    rw [i63, i64]
    rw [i63] at h
    clear i63 i64 hu hU
    omega
  · rfl

/-- The time `time.Unix(n, 0)` lies `n` seconds after `time.Unix(0, 0)` as long as the
count of seconds since year 1 does not leave the range of `int64`. -/
theorem unix_sec (n : Int) (hlo : -(2 ^ 63 : Int) ≤ n)
    (hhi : n ≤ 2 ^ 63 - 1 - time.unixToInternal) :
    (time.Unix n 0).sec = (time.Unix 0 0).sec + n ∧ (time.Unix n 0).nsec = 0 := by
  have i63 : (2 : Int) ^ 63 = 9223372036854775808 := by norm_num
  have i64 : (2 : Int) ^ 64 = 18446744073709551616 := by norm_num
  have hu : time.unixToInternal = 62135596800 := by decide
  have hU : time.Unix n 0 = ⟨0, wrapInt64 (n + time.unixToInternal), time.Location.Local⟩ := by
    simp [time.Unix, time.unixTime, wrapUint64]
  have h0 : (time.Unix 0 0).sec = 62135596800 := by decide
  rw [hU, h0]
  constructor
  · have hm : (⟨0, wrapInt64 (n + time.unixToInternal), time.Location.Local⟩ : time.Time).sec
        = wrapInt64 (n + time.unixToInternal) := by
      simp [time.Time.sec, time.Time.hasMonotonic]
    rw [hm, hu]
    rw [hu, i63] at hhi
    rw [i63] at hlo
    unfold wrapInt64
    rw [i63, i64]
    clear i63 i64 hu hU h0 hm
    omega
  · rfl

theorem span_isDigit_append (l r : GoString) (c : Fin 256) (hl : l.all isDigit = true)
    (hc : isDigit c = false) : (l ++ c :: r).span isDigit = (l, c :: r) := by
  rw [List.span_eq_take_drop]
  induction l with
  | nil => simp [List.takeWhile_cons, List.dropWhile_cons, hc]
  | cons a l ih =>
    simp only [List.all_cons, Bool.and_eq_true] at hl
    have ih2 := ih hl.2
    rw [Prod.mk.injEq] at ih2 ⊢
    simp [List.takeWhile_cons, List.dropWhile_cons, hl.1, ih2.1, ih2.2]

theorem foldl_dec_zeros (n acc : Nat) :
    (List.replicate n (48 : Fin 256)).foldl (fun n c => n * 10 + (c.val - 48)) acc
      = acc * 10 ^ n := by
  induction n generalizing acc with
  | zero => simp
  | succ n ih =>
    rw [List.replicate_succ, List.foldl_cons, ih]
    have : ((48 : Fin 256).val - 48) = 0 := by decide
    rw [this, pow_succ]
    ring

theorem all_isDigit_zeros (n : Nat) : (List.replicate n (48 : Fin 256)).all isDigit = true := by
  induction n with
  | zero => rfl
  | succ n ih =>
    rw [List.replicate_succ, List.all_cons, ih]
    decide

theorem span_isDigit_all (l : GoString) (hl : l.all isDigit = true) :
    l.span isDigit = (l, []) := by
  rw [List.span_eq_take_drop]
  induction l with
  | nil => rfl
  | cons a l ih =>
    simp only [List.all_cons, Bool.and_eq_true] at hl
    have ih2 := ih hl.2
    rw [Prod.mk.injEq] at ih2 ⊢
    simp [List.takeWhile_cons, List.dropWhile_cons, hl.1, ih2.1, ih2.2]

theorem span_isDigit_stop (l r : GoString) (hl : l.all isDigit = true)
    (hr : r = [] ∨ ∃ c t, r = c :: t ∧ isDigit c = false) :
    (l ++ r).span isDigit = (l, r) := by
  rcases hr with hr | ⟨c, t, hr, hc⟩
  · subst hr
    rw [List.append_nil]
    exact span_isDigit_all l hl
  · subst hr
    exact span_isDigit_append l t c hl hc

theorem isDigit_head (l : GoString) (hl : l.all isDigit = true) (hne : l ≠ []) :
    ∃ c t, l = c :: t ∧ isDigit c = true := by
  rcases l with _ | ⟨c, t⟩
  · exact absurd rfl hne
  · simp only [List.all_cons, Bool.and_eq_true] at hl
    exact ⟨c, t, rfl, hl.1⟩

theorem isDigit_ne : ∀ c : Fin 256, isDigit c = true →
    c ≠ 45 ∧ c ≠ 43 ∧ c ≠ 46 ∧ c.val ≠ 101 ∧ c.val ≠ 69 := by decide

/-- The scanner on a sign, digits, a fraction part and a rest `T` that is empty or
starts with a byte other than a digit and the point: the digits are split off, and the
rest is read as the exponent part. -/
theorem splitNumber_scan (neg : Bool) (int frac T : GoString)
    (h1 : int ≠ []) (h2 : int.all isDigit = true)
    (h3 : int.length > 1 → int.head? ≠ some 48) (h4 : frac.all isDigit = true)
    (hT : T = [] ∨ ∃ c t, T = c :: t ∧ isDigit c = false ∧ c ≠ 46) :
    (T = [] →
      splitNumber ((if neg then [45] else [])
          ++ (int ++ ((if frac = [] then [] else 46 :: frac) ++ T)))
        = some ⟨neg, int, frac, false, []⟩)
    ∧ (∀ c rest, T = c :: rest → (c.val = 101 ∨ c.val = 69) →
      splitNumber ((if neg then [45] else [])
          ++ (int ++ ((if frac = [] then [] else 46 :: frac) ++ T)))
        = if (if rest.head? = some 45 ∨ rest.head? = some 43 then rest.tail else rest) = []
              ∨ ¬ (if rest.head? = some 45 ∨ rest.head? = some 43 then rest.tail
                    else rest).all isDigit then none
          else some ⟨neg, int, frac, rest.head? = some 45,
            if rest.head? = some 45 ∨ rest.head? = some 43 then rest.tail else rest⟩) := by
  obtain ⟨c0, t0, hint, hc0⟩ := isDigit_head int h2 h1
  have hFT : ((if frac = [] then [] else 46 :: frac) ++ T) = []
      ∨ ∃ c t, ((if frac = [] then [] else 46 :: frac) ++ T) = c :: t ∧ isDigit c = false := by
    by_cases hf : frac = []
    · rw [if_pos hf, List.nil_append]
      rcases hT with hT | ⟨c, t, hT, hc, _⟩
      · exact Or.inl hT
      · exact Or.inr ⟨c, t, hT, hc⟩
    · rw [if_neg hf]
      exact Or.inr ⟨46, frac ++ T, rfl, by decide⟩
  have hT2 : T = [] ∨ ∃ c t, T = c :: t ∧ isDigit c = false := by
    rcases hT with hT | ⟨c, t, hT, hc, _⟩
    · exact Or.inl hT
    · exact Or.inr ⟨c, t, hT, hc⟩
  have hspan1 := span_isDigit_stop int _ h2 hFT
  have hspan2 := span_isDigit_stop frac T h4 hT2
  have hneg : (((if neg then [45] else [])
      ++ (int ++ ((if frac = [] then [] else 46 :: frac) ++ T))).head? = some 45)
      ↔ neg = true := by
    cases neg
    · rw [hint]
      simp only [Bool.false_eq_true, if_false, List.nil_append, List.cons_append,
        List.head?_cons, Option.some.injEq, iff_false]
      exact (isDigit_ne c0 hc0).1
    · simp
  have hs : (if neg = true then ((if neg then [45] else [])
      ++ (int ++ ((if frac = [] then [] else 46 :: frac) ++ T))).tail
      else ((if neg then [45] else [])
      ++ (int ++ ((if frac = [] then [] else 46 :: frac) ++ T))))
      = int ++ ((if frac = [] then [] else 46 :: frac) ++ T) := by
    cases neg <;> simp
  generalize ((if neg then [45] else [])
      ++ (int ++ ((if frac = [] then [] else 46 :: frac) ++ T))) = lit at hneg hs ⊢
  have hlen : ¬ (int = [] ∨ (int.length > 1 ∧ int.head? = some 48)) := by
    intro h
    rcases h with h | ⟨ha, hb⟩
    · exact h1 h
    · exact h3 ha hb
  have hfp : (if ((if frac = [] then [] else 46 :: frac) ++ T).head? = some 46 then
        (((if frac = [] then [] else 46 :: frac) ++ T).tail).span isDigit
      else ([], (if frac = [] then [] else 46 :: frac) ++ T)) = (frac, T) := by
    by_cases hf : frac = []
    · have hh : ¬ (T.head? = some 46) := by
        rcases hT with hT | ⟨c, t, hT, _, hc⟩
        · rw [hT]; simp
        · rw [hT]
          simp only [List.head?_cons, Option.some.injEq]
          exact hc
      rw [if_pos hf, List.nil_append, if_neg hh, hf]
    · rw [if_neg hf]
      simp only [List.cons_append, List.head?_cons, if_true, List.tail_cons]
      exact hspan2
  have hdot : ¬ (((if frac = [] then [] else 46 :: frac) ++ T).head? = some 46 ∧ frac = []) := by
    intro h
    obtain ⟨ha, hb⟩ := h
    rw [if_pos hb, List.nil_append] at ha
    rcases hT with hT | ⟨c, t, hT, _, hc⟩
    · rw [hT] at ha; simp at ha
    · rw [hT] at ha
      simp only [List.head?_cons, Option.some.injEq] at ha
      exact hc ha
  generalize ((if frac = [] then [] else 46 :: frac) ++ T) = R at hspan1 hs hFT hfp hdot
  unfold splitNumber
  simp only [hneg, hs, hspan1, hlen, if_false, hfp, hdot, Bool.decide_eq_true]
  refine ⟨?_, ?_⟩
  · intro hT0
    subst hT0
    rfl
  · intro c rest hTc hc
    subst hTc
    simp only [hc, if_true]

/-- The scanner reads the text of a JSON number back as its parts. -/
theorem splitNumber_text (p : NumberLit) (upper plus : Bool) (hp : p.IsJSON) :
    splitNumber (p.text upper plus) = some p := by
  obtain ⟨h1, h2, h3, h4, h5, h6⟩ := hp
  obtain ⟨neg, int, frac, expNeg, expDigits⟩ := p
  simp only at h1 h2 h3 h4 h5 h6
  unfold NumberLit.text
  simp only []
  by_cases he : expDigits = []
  · rw [if_pos he]
    have := (splitNumber_scan neg int frac [] h1 h2 h3 h4 (Or.inl rfl)).1 rfl
    rw [this, he, h6 he]
  · rw [if_neg he]
    obtain ⟨d0, t0, hexp, hd0⟩ := isDigit_head expDigits h5 he
    have hmark : isDigit (if upper then 69 else 101) = false
        ∧ (if upper then (69 : Fin 256) else 101) ≠ 46
        ∧ ((if upper then (69 : Fin 256) else 101).val = 101
            ∨ (if upper then (69 : Fin 256) else 101).val = 69) := by
      cases upper <;> decide
    have := (splitNumber_scan neg int frac
      ((if upper then 69 else 101)
        :: ((if expNeg then [45] else if plus then [43] else []) ++ expDigits))
      h1 h2 h3 h4 (Or.inr ⟨_, _, rfl, hmark.1, hmark.2.1⟩)).2 _ _ rfl hmark.2.2
    rw [this]
    have hd := isDigit_ne d0 hd0
    subst hexp
    cases expNeg
    · cases plus
      · simp [hd.1, hd.2.1, h5]
      · simp [h5]
    · simp [h5]

/-- On a literal whose significand is below `10 ^ 802` and for which `strconv`
accumulates an exponent of at most `-10000`, `strconv.ParseFloat` gives zero. -/
theorem parseFloat_underflow (lit : GoString) (p : NumberLit) (hs : splitNumber lit = some p)
    (hm : p.significand < 10 ^ 802)
    (he : (if p.expNeg then -(strconv.expValue p.expDigits : Int)
        else (strconv.expValue p.expDigits : Int)) - (p.fracDigits.length : Int) ≤ -10000) :
    strconv.ParseFloat lit = some ⟨p.neg, 0, -1074⟩ := by
  obtain ⟨cnone, csome⟩ := parseFloat_core p.neg p.significand _ _ (parseFloat_read lit p hs)
  have htiny := decimalValue_tiny p.neg p.significand _ hm he
  have hthr : (2 : ℚ) ^ (-1075 : Int) < (2 : ℚ) ^ 1024 - (2 : ℚ) ^ 970 := by
    have h1 : (2 : ℚ) ^ (-1075 : Int) ≤ (2 : ℚ) ^ (0 : Int) :=
      zpow_le_zpow_right₀ (by norm_num) (by norm_num)
    have h2 : (2 : ℚ) ^ 970 * 2 ≤ (2 : ℚ) ^ 1024 := by
      rw [← pow_succ]
      exact pow_le_pow_right₀ (by norm_num) (by norm_num)
    have h3 : (1 : ℚ) ≤ (2 : ℚ) ^ 970 := one_le_pow₀ (by norm_num)
    rw [zpow_zero] at h1
    linarith
  cases hpf : strconv.ParseFloat lit with
  | none =>
    have := cnone.mp hpf
    linarith
  | some x =>
    obtain ⟨hxneg, hxnear⟩ := csome x hpf
    obtain ⟨hx1, hx2⟩ := isNearest_tiny _ x htiny hxnear
    cases x
    simp only [Option.some.injEq, Float64.mk.injEq]
    exact ⟨hxneg, hx1, hx2⟩

theorem leadingZeros_isJSON (n : Nat) :
    NumberLit.IsJSON ⟨false, [48], List.replicate n 48 ++ [49], false, bytes "100000"⟩ := by
  have h48 : ([48] : GoString).all isDigit = true := by decide
  have hexp : (bytes "100000").all isDigit = true := by decide
  refine ⟨by simp, h48, by simp, ?_, hexp, fun _ => rfl⟩
  show (List.replicate n (48 : Fin 256) ++ [49]).all isDigit = true
  rw [List.all_append, all_isDigit_zeros]
  decide

theorem decVal_lead (n : Nat) :
    decVal (([48] : GoString) ++ (List.replicate n 48 ++ [49])) = 1 := by
  unfold decVal
  rw [List.foldl_append, List.foldl_append, foldl_dec_zeros]
  have h0 : List.foldl (fun n (c : Fin 256) => n * 10 + (c.val - 48)) 0 [48] = 0 := by decide
  rw [h0, zero_mul]
  decide

/-- The number `0.`, `n` zeros, `1e100000` is `10 ^ (100000 - (n + 1))`. -/
theorem value_lead (n : Nat) :
    NumberLit.value ⟨false, [48], List.replicate n 48 ++ [49], false, bytes "100000"⟩
      = (10 : ℚ) ^ ((100000 : Int) - ((n : Int) + 1)) := by
  unfold NumberLit.value decimalValue NumberLit.significand NumberLit.exponent
  have he : decVal (bytes "100000") = 100000 := by decide
  simp only [decVal_lead, he, Bool.false_eq_true, if_false, List.length_append,
    List.length_replicate, List.length_singleton]
  push_cast
  rw [one_mul, one_mul]

/-- On the text of the number `0.`, `n` zeros, `1e100000` with `n` from 20000 on,
`strconv.ParseFloat` gives zero: the exponent it accumulates is 10000. -/
theorem parseFloat_lead (n : Nat) (hn : 20000 ≤ n) :
    strconv.ParseFloat (NumberLit.text
        ⟨false, [48], List.replicate n 48 ++ [49], false, bytes "100000"⟩ false false)
      = some Float64.zero := by
  have he : strconv.expValue (bytes "100000") = 10000 := by decide
  have h := parseFloat_underflow _ _
    (splitNumber_text _ false false (leadingZeros_isJSON n))
    (by
      show decVal (([48] : GoString) ++ (List.replicate n 48 ++ [49])) < 10 ^ 802
      rw [decVal_lead]
      exact Nat.one_lt_pow (by norm_num) (by norm_num))
    (by
      simp only [Bool.false_eq_true, if_false, he, List.length_append, List.length_replicate,
        List.length_singleton]
      push_cast
      omega)
  exact h

theorem longExponentNumber_value : longExponentNumber.value = 1 :=
  (value_lead 99999).trans (by norm_num)

theorem longExponentNumber_parseFloat :
    strconv.ParseFloat (longExponentNumber.text false false) = some Float64.zero :=
  parseFloat_lead 99999 (by norm_num)

theorem dataPoint_value_ok (d : DataPoint) (lit ts : GoString) (x : Float64) (n : Int)
    (h : strconv.ParseFloat lit = some x) (hn : signedDecimal ts = some n)
    (hfit : fitsInt64 n) :
    DataPoint.UnmarshalJSON d (.array [.number lit, .number ts])
      = (⟨x, ⟨time.Unix n 0⟩⟩, .ok) := by
  rw [dataPoint_unmarshal_pair]
  have h1 : json.unmarshalJSONTime d.TimeStamp (.number ts) = (⟨time.Unix n 0⟩, none) := by
    simp only [json.unmarshalJSONTime, JSON.raw]
    exact jsonTime_unmarshal_ok _ ts n hn hfit
  simp only [json.unmarshalFloat64, h, h1]

/-- C6, as the specification states it, fails.  `[1e999, 0]` does not decode: the number
is beyond the range of a `float64`.  `[0.1, 0]` decodes to a `Value` that is not the
number `0.1` but the `float64` nearest to it.  `[1, 9223372036854775807]` decodes to a
`TimeStamp` that does not lie that many seconds after 1970-01-01T00:00:00 UTC but
before it, the count of seconds having left the range of `int64`.  And the number one
written as `0.00...01e100000`, with 100000 digits after the point, decodes to the
`Value` zero, since `strconv` drops the digits of an exponent once it has reached
10000. -/
theorem dataPoint_number_counterexample :
    (NumberLit.IsJSON ⟨false, bytes "1", [], false, bytes "999"⟩
      ∧ NumberLit.text ⟨false, bytes "1", [], false, bytes "999"⟩ false false = bytes "1e999"
      ∧ isInt64Text (bytes "0") = true
      ∧ DataPoint.UnmarshalJSON DataPoint.zero
          (.array [.number (bytes "1e999"), .number (bytes "0")])
        = (DataPoint.zero,
            .error (.unmarshalTypeError (bytes "number 1e999") (bytes "float64"))))
    ∧ (NumberLit.IsJSON ⟨false, bytes "0", bytes "1", false, []⟩
      ∧ NumberLit.text ⟨false, bytes "0", bytes "1", false, []⟩ false false = bytes "0.1"
      ∧ NumberLit.value ⟨false, bytes "0", bytes "1", false, []⟩ = 1 / 10
      ∧ DataPoint.UnmarshalJSON DataPoint.zero
          (.array [.number (bytes "0.1"), .number (bytes "0")])
        = (⟨⟨false, 7205759403792794, -56⟩, ⟨time.Unix 0 0⟩⟩, .ok)
      ∧ Float64.toRat ⟨false, 7205759403792794, -56⟩ ≠ 1 / 10)
    ∧ (isInt64Text (bytes "9223372036854775807") = true
      ∧ DataPoint.UnmarshalJSON DataPoint.zero
          (.array [.number (bytes "1"), .number (bytes "9223372036854775807")])
        = (⟨⟨false, 2 ^ 52, -52⟩, ⟨time.Unix 9223372036854775807 0⟩⟩, .ok)
      ∧ (time.Unix 9223372036854775807 0).Before (time.Unix 0 0) = true
      ∧ (time.Unix 9223372036854775807 0).sec ≠ (time.Unix 0 0).sec + 9223372036854775807)
    ∧ (longExponentNumber.IsJSON
      ∧ longExponentNumber.value = 1
      ∧ DataPoint.UnmarshalJSON DataPoint.zero
          (.array [.number (longExponentNumber.text false false), .number (bytes "0")])
        = (⟨Float64.zero, ⟨time.Unix 0 0⟩⟩, .ok)
      ∧ Float64.toRat Float64.zero = 0) := by
  refine ⟨by decide, ⟨by decide, by decide, ?_, by decide, ?_⟩, by decide,
    ⟨leadingZeros_isJSON 99999, longExponentNumber_value,
      dataPoint_value_ok _ _ _ _ 0 longExponentNumber_parseFloat (by decide) (by decide),
      by simp [Float64.toRat, Float64.zero]⟩⟩
  · have h1 : decVal (bytes "0" ++ bytes "1") = 1 := by decide
    have h2 : decVal ([] : GoString) = 0 := by decide
    have h3 : (bytes "1").length = 1 := by decide
    simp only [NumberLit.value, decimalValue, NumberLit.significand, NumberLit.exponent, h1, h2,
      h3]
    norm_num
  · norm_num [Float64.toRat]

/-- C6, amended: for every JSON number with at most 800 digits before its exponent part
whose value is below `2 ^ 1024 - 2 ^ 970` in magnitude, however its exponent part is
written, and every decimal text of an integer `n` in the signed 64-bit range, decoding
the two-element array succeeds; `Value` is the `float64` nearest to the number (a tie
going to the even significand) and `TimeStamp` is `time.Unix(n, 0)`, whose Unix time
is `n` with a zero sub-second part; and for `n` up to `2 ^ 63 - 1 - 62135596800` that
time lies exactly `n` seconds after `time.Unix(0, 0)`, which is
1970-01-01T00:00:00 UTC. -/
theorem dataPoint_decode (d : DataPoint) (p : NumberLit) (upper plus : Bool) (ts : GoString)
    (n : Int) (hp : p.IsJSON) (hlen : p.intDigits.length + p.fracDigits.length ≤ 800)
    (hrange : |p.value| < (2 : ℚ) ^ 1024 - (2 : ℚ) ^ 970)
    (hn : signedDecimal ts = some n) (hfit : fitsInt64 n) :
    ∃ x : Float64,
      DataPoint.UnmarshalJSON d (.array [.number (p.text upper plus), .number ts])
        = (⟨x, ⟨time.Unix n 0⟩⟩, .ok)
      ∧ IsNearestFloat64 p.value x
      ∧ (time.Unix n 0).Unix = n ∧ (time.Unix n 0).Nanosecond = 0
      ∧ (n ≤ 2 ^ 63 - 1 - time.unixToInternal →
          (time.Unix n 0).sec = (time.Unix 0 0).sec + n ∧ (time.Unix n 0).nsec = 0) := by
  have hv := splitNumber_text p upper plus hp
  obtain ⟨hnone, hsome⟩ := parseFloat_short _ p hv hlen
  cases hpf : strconv.ParseFloat (p.text upper plus) with
  | none => exact absurd (hnone.mp hpf) (not_le.mpr hrange)
  | some x =>
    exact ⟨x, dataPoint_value_ok d _ ts x n hpf hn hfit, (hsome x hpf).2,
      (unix_roundtrip n hfit).1, (unix_roundtrip n hfit).2, fun hhi => unix_sec n hfit.1 hhi⟩

/-- C6 on `[1.5, 1609459200]`: the value is `1.5` (`3 * 2 ^ 51 * 2 ^ -52`) and the time
stamp is 2021-01-01T00:00:00 UTC, 1609459200 seconds after 1970-01-01T00:00:00 UTC. -/
theorem dataPoint_decode_witness :
    (∃ x : Float64,
      DataPoint.UnmarshalJSON DataPoint.zero
          (.array [.number (NumberLit.text ⟨false, bytes "1", bytes "5", false, []⟩ false false),
            .number (bytes "1609459200")])
        = (⟨x, ⟨time.Unix 1609459200 0⟩⟩, .ok)
      ∧ IsNearestFloat64 (NumberLit.value ⟨false, bytes "1", bytes "5", false, []⟩) x
      ∧ (time.Unix 1609459200 0).Unix = 1609459200
      ∧ (time.Unix 1609459200 0).Nanosecond = 0
      ∧ (1609459200 ≤ 2 ^ 63 - 1 - time.unixToInternal →
          (time.Unix 1609459200 0).sec = (time.Unix 0 0).sec + 1609459200
          ∧ (time.Unix 1609459200 0).nsec = 0))
    ∧ NumberLit.text ⟨false, bytes "1", bytes "5", false, []⟩ false false = bytes "1.5"
    ∧ DataPoint.UnmarshalJSON DataPoint.zero
          (.array [.number (bytes "1.5"), .number (bytes "1609459200")])
        = (⟨⟨false, 3 * 2 ^ 51, -52⟩, ⟨time.Unix 1609459200 0⟩⟩, .ok)
    ∧ Float64.toRat ⟨false, 3 * 2 ^ 51, -52⟩ = 3 / 2
    ∧ NumberLit.value ⟨false, bytes "1", bytes "5", false, []⟩ = 3 / 2
    ∧ time.utcSeconds 2021 1 1 0 0 0 = 1609459200 :=
  ⟨dataPoint_decode DataPoint.zero ⟨false, bytes "1", bytes "5", false, []⟩ false false
      (bytes "1609459200") 1609459200 (by decide) (by decide)
      (by
        have h1 : decVal (bytes "1" ++ bytes "5") = 15 := by decide
        have h2 : decVal ([] : GoString) = 0 := by decide
        have h3 : (bytes "5").length = 1 := by decide
        simp only [NumberLit.value, decimalValue, NumberLit.significand, NumberLit.exponent,
          h1, h2, h3]
        norm_num [abs_of_pos])
      (by decide) (by decide),
   by decide,
   by decide,
   by norm_num [Float64.toRat],
   by
    have h1 : decVal (bytes "1" ++ bytes "5") = 15 := by decide
    have h2 : decVal ([] : GoString) = 0 := by decide
    have h3 : (bytes "5").length = 1 := by decide
    simp only [NumberLit.value, decimalValue, NumberLit.significand, NumberLit.exponent, h1, h2,
      h3]
    norm_num,
   by decide⟩

/-! ## Fetch -/

/-- What `Fetch` returns, by cases on what the library and the transport do. -/
theorem fetch_eq (lib : Lib) (c : Client) (ctx : Context) (mr : MetricRequest) :
    c.Fetch lib ctx mr
      = (match lib.NewRequest (bytes "GET")
            (lib.URLString { c.renderURL with RawQuery := mr.Encode }) with
        | .error _ => .returned none none
        | .ok req =>
          match c.httpClient.Do (prepareRequest req ctx) with
          | .error err => .returned none (some err)
          | .ok resp =>
            if resp.StatusCode < 200 ∨ resp.StatusCode ≥ 300 then
              .returned none
                (some (.errorString (bytes "Error: " ++ formatInt resp.StatusCode)))
            else if resp.StatusCode ≠ http.StatusNoContent then
              match json.Decode resp.Body with
              | (_, .error err) => .returned none (some err)
              | (_, .panic) => .panicked
              | (m, .ok) => .returned m none
            else .returned (some []) none) := by
  unfold Client.Fetch Client.fetchRun
  simp only []
  split
  · rfl
  · split <;> rfl

/-- C8: when the status code of the response is below 200 or at least 300, `Fetch`
returns a nil `*Metrics` and the error `Error: <status>`, whatever the body is: the
body is not decoded. -/
theorem fetch_bad_status (lib : Lib) (c : Client) (ctx : Context) (mr : MetricRequest)
    (req : http.Request) (resp : http.Response)
    (hreq : lib.NewRequest (bytes "GET")
      (lib.URLString { c.renderURL with RawQuery := mr.Encode }) = .ok req)
    (hdo : c.httpClient.Do (prepareRequest req ctx) = .ok resp)
    (hs : resp.StatusCode < 200 ∨ resp.StatusCode ≥ 300) :
    c.Fetch lib ctx mr
      = .returned none (some (.errorString (bytes "Error: " ++ formatInt resp.StatusCode))) := by
  rw [fetch_eq]
  simp only [hreq, hdo, hs, if_true]

/-- C8 on a server that answers 500 with a well-formed body: the error is `Error: 500`
and there is no data. -/
theorem fetch_bad_status_witness :
    (exampleClient 500 (.ok exampleBody)).Fetch exampleLib ⟨none⟩ ⟨[], [], [bytes "a"]⟩
      = .returned none (some (.errorString (bytes "Error: 500"))) :=
  (fetch_bad_status exampleLib (exampleClient 500 (.ok exampleBody)) ⟨none⟩
    ⟨[], [], [bytes "a"]⟩ ⟨bytes "GET", url.URL.empty, [], ⟨none⟩⟩ ⟨500, .ok exampleBody⟩
    rfl rfl (Or.inr (by decide))).trans (by decide)

/-- C9: when the status code of the response is 204, `Fetch` returns a non-nil pointer
to an empty `Metrics` and a nil error, whatever the body is: the body is not decoded. -/
theorem fetch_no_content (lib : Lib) (c : Client) (ctx : Context) (mr : MetricRequest)
    (req : http.Request) (resp : http.Response)
    (hreq : lib.NewRequest (bytes "GET")
      (lib.URLString { c.renderURL with RawQuery := mr.Encode }) = .ok req)
    (hdo : c.httpClient.Do (prepareRequest req ctx) = .ok resp)
    (hs : resp.StatusCode = 204) :
    c.Fetch lib ctx mr = .returned (some []) none
    ∧ ∀ m, c.Fetch lib ctx mr = .returned (some m) none → m.length = 0 := by
  have h : c.Fetch lib ctx mr = .returned (some []) none := by
    rw [fetch_eq]
    simp [hreq, hdo, hs, http.StatusNoContent]
  refine ⟨h, ?_⟩
  intro m hm
  rw [h] at hm
  simp only [FetchResult.returned.injEq, Option.some.injEq, and_true] at hm
  rw [← hm]
  rfl

/-- C9 on a server that answers 204 with a body that is not JSON, and one that answers
204 with a well-formed body. -/
theorem fetch_no_content_witness :
    (exampleClient 204 (.error (.external (bytes "EOF")))).Fetch exampleLib ⟨none⟩
        ⟨[], [], [bytes "a"]⟩ = .returned (some []) none
    ∧ (exampleClient 204 (.ok exampleBody)).Fetch exampleLib ⟨none⟩ ⟨[], [], [bytes "a"]⟩
        = .returned (some []) none :=
  ⟨(fetch_no_content exampleLib (exampleClient 204 (.error (.external (bytes "EOF"))))
      ⟨none⟩ ⟨[], [], [bytes "a"]⟩ ⟨bytes "GET", url.URL.empty, [], ⟨none⟩⟩
      ⟨204, .error (.external (bytes "EOF"))⟩ rfl rfl rfl).1,
   (fetch_no_content exampleLib (exampleClient 204 (.ok exampleBody))
      ⟨none⟩ ⟨[], [], [bytes "a"]⟩ ⟨bytes "GET", url.URL.empty, [], ⟨none⟩⟩
      ⟨204, .ok exampleBody⟩ rfl rfl rfl).1⟩

/-! ### Decoding a body -/

theorem decodeDataPoint_wire (p : WirePoint) (h : p.WellFormed) :
    ∃ dp, json.decodeDataPoint DataPoint.zero p.toJSON = .ok dp ∧ p.Decodes dp := by
  obtain ⟨hv, ht⟩ := h
  obtain ⟨n, hn, hfit⟩ := (isInt64Text_iff p.stamp).mp ht
  have htime : json.unmarshalJSONTime DataPoint.zero.TimeStamp (.number p.stamp)
      = (⟨time.Unix n 0⟩, none) := by
    simp only [json.unmarshalJSONTime, JSON.raw]
    exact jsonTime_unmarshal_ok _ p.stamp n hn hfit
  rcases hv with hnull | ⟨q, upper, plus, hlit, hq, hlen, hrange⟩
  · refine ⟨⟨Float64.zero, ⟨time.Unix n 0⟩⟩, ?_, ⟨n, hn, rfl⟩, fun _ => rfl, ?_⟩
    · unfold json.decodeDataPoint WirePoint.toJSON
      rw [dataPoint_unmarshal_pair, hnull]
      simp only [json.unmarshalFloat64, htime]
      rfl
    · intro q2 u2 p2 _ hl
      rw [hnull] at hl
      cases hl
  · have hsplit := splitNumber_text q upper plus hq
    obtain ⟨hnone, hsome⟩ := parseFloat_short _ q hsplit hlen
    cases hpf : strconv.ParseFloat (q.text upper plus) with
    | none => exact absurd (hnone.mp hpf) (not_le.mpr hrange)
    | some x =>
      refine ⟨⟨x, ⟨time.Unix n 0⟩⟩, ?_, ⟨n, hn, rfl⟩, ?_, ?_⟩
      · unfold json.decodeDataPoint WirePoint.toJSON
        rw [dataPoint_unmarshal_pair, hlit]
        simp only [json.unmarshalFloat64, hpf, htime]
      · intro hnull
        rw [hlit] at hnull
        cases hnull
      · intro q2 u2 p2 hq2 hl
        rw [hlit, JSON.number.injEq] at hl
        have hs2 := splitNumber_text q2 u2 p2 hq2
        rw [← hl, hsplit, Option.some.injEq] at hs2
        rw [← hs2]
        exact (hsome x hpf).2

theorem decodeDataPointElems_wire (pts : List WirePoint) (h : ∀ p ∈ pts, p.WellFormed) :
    ∃ dps, json.decodeDataPointElems [] (pts.map WirePoint.toJSON) = .ok dps
      ∧ List.Forall₂ WirePoint.Decodes pts dps := by
  induction pts with
  | nil => exact ⟨[], rfl, List.Forall₂.nil⟩
  | cons p pts ih =>
    obtain ⟨dp, hdp, hdec⟩ := decodeDataPoint_wire p (h p (List.mem_cons_self _ _))
    obtain ⟨dps, hdps, hall⟩ := ih (fun q hq => h q (List.mem_cons_of_mem _ hq))
    refine ⟨dp :: dps, ?_, List.Forall₂.cons hdec hall⟩
    simp only [List.map_cons, json.decodeDataPointElems, List.headD_nil, List.tail_nil, hdp,
      hdps]

theorem decodeMetric_wire (s : WireSeries) (saved : Option GoError)
    (h : ∀ p ∈ s.points, p.WellFormed) :
    ∃ cell, json.decodeMetric json.MetricCell.zero saved s.toJSON = .ok (cell, saved)
      ∧ s.Decodes cell.metric := by
  have k1 : json.metricField (bytes "target") = some .target := by decide
  have k2 : json.metricField (bytes "datapoints") = some .datapoints := by decide
  obtain ⟨dps, hdps, hall⟩ := decodeDataPointElems_wire s.points h
  refine ⟨⟨s.target, ⟨dps, []⟩⟩, ?_, rfl, hall⟩
  have hemp : s.points = [] → dps = [] := by
    intro he
    rw [he] at hall
    cases hall
    rfl
  unfold WireSeries.toJSON json.decodeMetric
  cases hf : s.datapointsFirst
  · simp only [Bool.false_eq_true, if_false, json.decodeMembers, json.decodeMember, k1, k2,
      json.decodeString, json.decodeDataPoints, json.MetricCell.zero, List.append_nil, hdps]
    cases hpts : s.points with
    | nil => simp [hemp hpts]
    | cons p ps => simp
  · simp only [if_true, json.decodeMembers, json.decodeMember, k1, k2,
      json.decodeString, json.decodeDataPoints, json.MetricCell.zero, List.append_nil, hdps]
    cases hpts : s.points with
    | nil => simp [hemp hpts]
    | cons p ps => simp

theorem decodeMetricElems_wire (series : List WireSeries) (saved : Option GoError)
    (h : ∀ s ∈ series, ∀ p ∈ s.points, p.WellFormed) :
    ∃ ms, json.decodeMetricElems saved (series.map WireSeries.toJSON) = .ok (ms, saved)
      ∧ List.Forall₂ WireSeries.Decodes series ms := by
  induction series with
  | nil => exact ⟨[], rfl, List.Forall₂.nil⟩
  | cons s rest ih =>
    obtain ⟨cell, hcell, hdec⟩ := decodeMetric_wire s saved (h s (List.mem_cons_self _ _))
    obtain ⟨ms, hms, hall⟩ := ih (fun q hq => h q (List.mem_cons_of_mem _ hq))
    refine ⟨cell.metric :: ms, ?_, List.Forall₂.cons hdec hall⟩
    simp only [List.map_cons, json.decodeMetricElems, hcell, hms]

/-- A body of the shape a render server sends decodes to its series, in order. -/
theorem decode_wire (series : List WireSeries)
    (h : ∀ s ∈ series, ∀ p ∈ s.points, p.WellFormed) :
    ∃ ms, json.Decode (.ok (.array (series.map WireSeries.toJSON))) = (some ms, .ok)
      ∧ List.Forall₂ WireSeries.Decodes series ms := by
  obtain ⟨ms, hms, hall⟩ := decodeMetricElems_wire series none h
  exact ⟨ms, by simp only [json.Decode, json.decodeMetricsPtr, hms], hall⟩

theorem unmarshalFloat64_error_indep (f g : Float64) (raw : JSON) :
    (json.unmarshalFloat64 f raw).2 = (json.unmarshalFloat64 g raw).2 := by
  cases raw with
  | number lit =>
    simp only [json.unmarshalFloat64]
    cases strconv.ParseFloat lit <;> rfl
  | null => rfl
  | bool b => rfl
  | string s => rfl
  | array a => rfl
  | object o => rfl

theorem jsonTime_error_indep (t u : JSONTime) (buf : GoString) :
    (JSONTime.UnmarshalJSON t buf).2 = (JSONTime.UnmarshalJSON u buf).2 := by
  unfold JSONTime.UnmarshalJSON
  generalize strconv.ParseInt buf = r
  obtain ⟨v, o⟩ := r
  cases o <;> rfl

/-- Whether a data point decodes does not depend on what the receiver held. -/
theorem dataPoint_status_indep (d e : DataPoint) (buf : JSON) :
    (DataPoint.UnmarshalJSON d buf).2 = (DataPoint.UnmarshalJSON e buf).2 := by
  unfold DataPoint.UnmarshalJSON
  generalize json.unmarshalRawMessages [] buf = r
  obtain ⟨tmp, o⟩ := r
  cases o with
  | some err => rfl
  | none =>
    simp only []
    by_cases hl : tmp.length ≠ 2
    · simp [hl]
    · simp only [hl, if_false]
      rcases tmp with _ | ⟨a, _ | ⟨b, _ | ⟨c, rest⟩⟩⟩
      · simp at hl
      · simp at hl
      · simp only [List.getElem?_cons_zero, List.getElem?_cons_succ]
        have h0 := unmarshalFloat64_error_indep d.Value e.Value a
        generalize json.unmarshalFloat64 d.Value a = r0 at h0
        generalize json.unmarshalFloat64 e.Value a = s0 at h0
        obtain ⟨x, o0⟩ := r0
        obtain ⟨y, p0⟩ := s0
        simp only at h0
        subst h0
        cases o0 with
        | some err => rfl
        | none =>
          simp only []
          have h1 := jsonTime_error_indep d.TimeStamp e.TimeStamp b.raw
          unfold json.unmarshalJSONTime
          generalize JSONTime.UnmarshalJSON d.TimeStamp b.raw = r1 at h1
          generalize JSONTime.UnmarshalJSON e.TimeStamp b.raw = s1 at h1
          obtain ⟨x1, o1⟩ := r1
          obtain ⟨y1, p1⟩ := s1
          simp only at h1
          subst h1
          cases o1 <;> rfl
      · simp at hl

/-- A value "decodes as a data point" when `DataPoint.UnmarshalJSON` returns nil on it. -/
theorem decodeDataPoint_cases (d : DataPoint) (j : JSON) :
    (∃ e, json.decodeDataPoint d j = .error (.error e))
    ∨ ((∃ dp, json.decodeDataPoint d j = .ok dp)
        ∧ (DataPoint.UnmarshalJSON DataPoint.zero j).2 = .ok) := by
  have hind := dataPoint_status_indep d DataPoint.zero j
  have hnp := dataPoint_no_panic d j
  unfold json.decodeDataPoint
  generalize DataPoint.UnmarshalJSON d j = r at hind hnp
  obtain ⟨d2, st⟩ := r
  simp only at hind hnp
  cases st with
  | ok => exact Or.inr ⟨⟨d2, rfl⟩, hind.symm⟩
  | error e => exact Or.inl ⟨e, rfl⟩
  | panic => exact absurd rfl hnp

theorem decodeDataPointElems_cases (cells : List DataPoint) (js : List JSON) :
    (∃ e, json.decodeDataPointElems cells js = .error (.error e))
    ∨ ((∃ ds, json.decodeDataPointElems cells js = .ok ds)
        ∧ ∀ j ∈ js, (DataPoint.UnmarshalJSON DataPoint.zero j).2 = .ok) := by
  induction js generalizing cells with
  | nil => exact Or.inr ⟨⟨[], rfl⟩, by simp⟩
  | cons j js ih =>
    rcases decodeDataPoint_cases (cells.headD DataPoint.zero) j with ⟨e, he⟩ | ⟨⟨dp, hdp⟩, hj⟩
    · exact Or.inl ⟨e, by simp only [json.decodeDataPointElems, he]⟩
    · rcases ih cells.tail with ⟨e, he⟩ | ⟨⟨ds, hds⟩, hall⟩
      · exact Or.inl ⟨e, by simp only [json.decodeDataPointElems, hdp, he]⟩
      · refine Or.inr ⟨⟨dp :: ds, by simp only [json.decodeDataPointElems, hdp, hds]⟩, ?_⟩
        intro k hk
        rcases List.mem_cons.mp hk with hk | hk
        · rw [hk]; exact hj
        · exact hall k hk

theorem decodeMember_cases (st : json.MetricCell) (saved : Option GoError)
    (key : GoString) (val : JSON) :
    (∃ e, json.decodeMember st saved key val = .error (.error e))
    ∨ ((∃ r, json.decodeMember st saved key val = .ok r)
        ∧ ∀ dp ∈ memberDataPoints [(key, val)],
            (DataPoint.UnmarshalJSON DataPoint.zero dp).2 = .ok) := by
  unfold json.decodeMember
  cases hk : json.metricField key with
  | none =>
    refine Or.inr ⟨⟨_, rfl⟩, ?_⟩
    simp [memberDataPoints, hk]
  | some f =>
    cases f with
    | target =>
      refine Or.inr ⟨⟨_, rfl⟩, ?_⟩
      simp [memberDataPoints, hk]
    | datapoints =>
      simp only [memberDataPoints, hk, if_true, List.append_nil]
      cases val with
      | array dps =>
        simp only [json.decodeDataPoints]
        rcases decodeDataPointElems_cases (st.DataPoints.elems ++ st.DataPoints.spare) dps
          with ⟨e, he⟩ | ⟨⟨ds, hds⟩, hall⟩
        · exact Or.inl ⟨e, by simp [he]⟩
        · refine Or.inr ⟨?_, hall⟩
          rw [hds]
          by_cases hemp : dps.isEmpty = true
          · exact ⟨_, by (simp [hemp]; rfl)⟩
          · exact ⟨_, by (simp [hemp]; rfl)⟩
      | null => exact Or.inr ⟨⟨_, rfl⟩, by simp⟩
      | bool b => exact Or.inr ⟨⟨_, rfl⟩, by simp⟩
      | number n => exact Or.inr ⟨⟨_, rfl⟩, by simp⟩
      | string s => exact Or.inr ⟨⟨_, rfl⟩, by simp⟩
      | object o => exact Or.inr ⟨⟨_, rfl⟩, by simp⟩

theorem memberDataPoints_cons (key : GoString) (val : JSON) (rest : List (GoString × JSON)) :
    memberDataPoints ((key, val) :: rest)
      = memberDataPoints [(key, val)] ++ memberDataPoints rest := by
  simp [memberDataPoints]

theorem decodeMembers_cases (st : json.MetricCell) (saved : Option GoError)
    (ms : List (GoString × JSON)) :
    (∃ e, json.decodeMembers st saved ms = .error (.error e))
    ∨ ((∃ r, json.decodeMembers st saved ms = .ok r)
        ∧ ∀ dp ∈ memberDataPoints ms,
            (DataPoint.UnmarshalJSON DataPoint.zero dp).2 = .ok) := by
  induction ms generalizing st saved with
  | nil => exact Or.inr ⟨⟨_, rfl⟩, by simp [memberDataPoints]⟩
  | cons m ms ih =>
    obtain ⟨key, val⟩ := m
    rcases decodeMember_cases st saved key val with ⟨e, he⟩ | ⟨⟨r, hr⟩, hall⟩
    · exact Or.inl ⟨e, by simp [json.decodeMembers, he]⟩
    · obtain ⟨st2, saved2⟩ := r
      rcases ih st2 saved2 with ⟨e, he⟩ | ⟨⟨r2, hr2⟩, hall2⟩
      · exact Or.inl ⟨e, by simp [json.decodeMembers, hr, he]⟩
      · refine Or.inr ⟨⟨r2, by simp [json.decodeMembers, hr, hr2]⟩, ?_⟩
        intro dp hdp
        rw [memberDataPoints_cons, List.mem_append] at hdp
        rcases hdp with hdp | hdp
        · exact hall dp hdp
        · exact hall2 dp hdp

theorem decodeMetricElems_cases (saved : Option GoError) (js : List JSON) :
    (∃ e, json.decodeMetricElems saved js = .error (.error e))
    ∨ ((∃ r, json.decodeMetricElems saved js = .ok r)
        ∧ ∀ dp ∈ elemDataPoints js,
            (DataPoint.UnmarshalJSON DataPoint.zero dp).2 = .ok) := by
  induction js generalizing saved with
  | nil => exact Or.inr ⟨⟨_, rfl⟩, by simp [elemDataPoints]⟩
  | cons j js ih =>
    have hstep : ∀ (r : json.MetricCell × Option GoError),
        json.decodeMetric json.MetricCell.zero saved j = .ok r →
        (∀ dp ∈ elemDataPoints [j], (DataPoint.UnmarshalJSON DataPoint.zero dp).2 = .ok) →
        elemDataPoints (j :: js) = elemDataPoints [j] ++ elemDataPoints js →
        (∃ e, json.decodeMetricElems saved (j :: js) = .error (.error e))
        ∨ ((∃ r, json.decodeMetricElems saved (j :: js) = .ok r)
            ∧ ∀ dp ∈ elemDataPoints (j :: js),
                (DataPoint.UnmarshalJSON DataPoint.zero dp).2 = .ok) := by
      intro r hr hall hsplit
      obtain ⟨cell, saved2⟩ := r
      rcases ih saved2 with ⟨e, he⟩ | ⟨⟨r2, hr2⟩, hall2⟩
      · exact Or.inl ⟨e, by simp [json.decodeMetricElems, hr, he]⟩
      · obtain ⟨ms, saved3⟩ := r2
        refine Or.inr ⟨⟨_, by (simp [json.decodeMetricElems, hr, hr2]; rfl)⟩, ?_⟩
        intro dp hdp
        rw [hsplit, List.mem_append] at hdp
        rcases hdp with hdp | hdp
        · exact hall dp hdp
        · exact hall2 dp hdp
    cases j with
    | object members =>
      rcases decodeMembers_cases json.MetricCell.zero saved members
        with ⟨e, he⟩ | ⟨⟨r, hr⟩, hall⟩
      · exact Or.inl ⟨e, by simp [json.decodeMetricElems, json.decodeMetric, he]⟩
      · exact hstep r (by simp [json.decodeMetric, hr])
          (by simpa [elemDataPoints] using hall) (by simp [elemDataPoints])
    | null => exact hstep _ rfl (by simp [elemDataPoints]) (by simp [elemDataPoints])
    | bool b => exact hstep _ rfl (by simp [elemDataPoints]) (by simp [elemDataPoints])
    | number n => exact hstep _ rfl (by simp [elemDataPoints]) (by simp [elemDataPoints])
    | string s => exact hstep _ rfl (by simp [elemDataPoints]) (by simp [elemDataPoints])
    | array a => exact hstep _ rfl (by simp [elemDataPoints]) (by simp [elemDataPoints])

/-- Decoding a body never panics, and it returns an error as soon as one of the values
it decodes as a data point does not decode. -/
theorem decode_cases (j : JSON) :
    (∃ m e, json.Decode (.ok j) = (m, .error e))
    ∨ ((∃ m, json.Decode (.ok j) = (m, .ok))
        ∧ ∀ dp ∈ bodyDataPoints j, (DataPoint.UnmarshalJSON DataPoint.zero dp).2 = .ok) := by
  cases j with
  | array elems =>
    rcases decodeMetricElems_cases none elems with ⟨e, he⟩ | ⟨⟨r, hr⟩, hall⟩
    · exact Or.inl ⟨_, e, by (simp [json.Decode, json.decodeMetricsPtr, he]; rfl)⟩
    · obtain ⟨ms, saved⟩ := r
      cases saved with
      | none =>
        exact Or.inr ⟨⟨_, by (simp [json.Decode, json.decodeMetricsPtr, hr]; rfl)⟩,
          by simpa [bodyDataPoints] using hall⟩
      | some e =>
        exact Or.inl ⟨_, e, by (simp [json.Decode, json.decodeMetricsPtr, hr]; rfl)⟩
  | null => exact Or.inr ⟨⟨_, rfl⟩, by simp [bodyDataPoints]⟩
  | bool b => exact Or.inl ⟨_, _, rfl⟩
  | number n => exact Or.inl ⟨_, _, rfl⟩
  | string s => exact Or.inl ⟨_, _, rfl⟩
  | object o => exact Or.inl ⟨_, _, rfl⟩

theorem decodeDataPoint_ok (d : DataPoint) (j : JSON)
    (h : (DataPoint.UnmarshalJSON DataPoint.zero j).2 = .ok) :
    ∃ dp, json.decodeDataPoint d j = .ok dp := by
  have hind := dataPoint_status_indep d DataPoint.zero j
  rw [h] at hind
  unfold json.decodeDataPoint
  generalize DataPoint.UnmarshalJSON d j = r at hind
  obtain ⟨d2, st⟩ := r
  simp only at hind
  subst hind
  exact ⟨d2, rfl⟩

theorem decodeDataPointElems_ok (cells : List DataPoint) (js : List JSON)
    (h : ∀ j ∈ js, (DataPoint.UnmarshalJSON DataPoint.zero j).2 = .ok) :
    ∃ ds, json.decodeDataPointElems cells js = .ok ds := by
  induction js generalizing cells with
  | nil => exact ⟨[], rfl⟩
  | cons j js ih =>
    obtain ⟨dp, hdp⟩ := decodeDataPoint_ok (cells.headD DataPoint.zero) j
      (h j (List.mem_cons_self _ _))
    obtain ⟨ds, hds⟩ := ih cells.tail (fun k hk => h k (List.mem_cons_of_mem _ hk))
    exact ⟨dp :: ds, by simp only [json.decodeDataPointElems, hdp, hds]⟩

theorem saveError_isSome (saved : Option GoError) (e : GoError) :
    (json.saveError saved e).isSome = true := by
  cases saved <;> rfl

/-- A member whose data points all decode is decoded without stopping, and an error is
on record afterwards exactly when one was before or the value is of the wrong kind. -/
theorem decodeMember_ok (st : json.MetricCell) (saved : Option GoError)
    (key : GoString) (val : JSON)
    (h : ∀ dp ∈ memberDataPoints [(key, val)],
      (DataPoint.UnmarshalJSON DataPoint.zero dp).2 = .ok) :
    ∃ st2 saved2, json.decodeMember st saved key val = .ok (st2, saved2)
      ∧ saved2.isSome = (saved.isSome || memberMismatch (key, val)) := by
  unfold json.decodeMember memberMismatch
  cases hk : json.metricField key with
  | none => exact ⟨_, _, rfl, by simp⟩
  | some f =>
    cases f with
    | target =>
      cases val with
      | string s => exact ⟨_, _, rfl, by simp [json.decodeString]⟩
      | null => exact ⟨_, _, rfl, by simp [json.decodeString]⟩
      | bool b => exact ⟨_, _, rfl, by simp [json.decodeString, saveError_isSome]⟩
      | number n => exact ⟨_, _, rfl, by simp [json.decodeString, saveError_isSome]⟩
      | array a => exact ⟨_, _, rfl, by simp [json.decodeString, saveError_isSome]⟩
      | object o => exact ⟨_, _, rfl, by simp [json.decodeString, saveError_isSome]⟩
    | datapoints =>
      cases val with
      | array dps =>
        have hall : ∀ j ∈ dps, (DataPoint.UnmarshalJSON DataPoint.zero j).2 = .ok := by
          intro j hj
          apply h j
          simp [memberDataPoints, hk, hj]
        obtain ⟨ds, hds⟩ := decodeDataPointElems_ok
          (st.DataPoints.elems ++ st.DataPoints.spare) dps hall
        simp only [json.decodeDataPoints, hds]
        by_cases hemp : dps.isEmpty = true
        · refine ⟨⟨st.Target, ⟨[], []⟩⟩, saved, ?_, by simp⟩
          simp only [hemp, if_true]
        · refine ⟨⟨st.Target,
            ⟨ds, (st.DataPoints.elems ++ st.DataPoints.spare).drop ds.length⟩⟩, saved, ?_,
            by simp⟩
          simp only [hemp]
          rfl
      | null => exact ⟨_, _, rfl, by simp⟩
      | bool b => exact ⟨_, _, rfl, by simp [saveError_isSome]⟩
      | number n => exact ⟨_, _, rfl, by simp [saveError_isSome]⟩
      | string s => exact ⟨_, _, rfl, by simp [saveError_isSome]⟩
      | object o => exact ⟨_, _, rfl, by simp [saveError_isSome]⟩

theorem decodeMembers_ok (st : json.MetricCell) (saved : Option GoError)
    (ms : List (GoString × JSON))
    (h : ∀ dp ∈ memberDataPoints ms, (DataPoint.UnmarshalJSON DataPoint.zero dp).2 = .ok) :
    ∃ st2 saved2, json.decodeMembers st saved ms = .ok (st2, saved2)
      ∧ saved2.isSome = (saved.isSome || ms.any memberMismatch) := by
  induction ms generalizing st saved with
  | nil => exact ⟨st, saved, rfl, by simp⟩
  | cons m ms ih =>
    obtain ⟨key, val⟩ := m
    rw [memberDataPoints_cons] at h
    obtain ⟨st2, saved2, h2, hs2⟩ := decodeMember_ok st saved key val
      (fun dp hdp => h dp (List.mem_append_left _ hdp))
    obtain ⟨st3, saved3, h3, hs3⟩ := ih st2 saved2
      (fun dp hdp => h dp (List.mem_append_right _ hdp))
    refine ⟨st3, saved3, by simp only [json.decodeMembers, h2, h3], ?_⟩
    rw [hs3, hs2, List.any_cons, Bool.or_assoc]

theorem elemDataPoints_cons (j : JSON) (js : List JSON) :
    elemDataPoints (j :: js) = elemDataPoints [j] ++ elemDataPoints js := by
  cases j <;> simp [elemDataPoints]

theorem decodeMetric_ok (st : json.MetricCell) (saved : Option GoError) (j : JSON)
    (h : ∀ dp ∈ elemDataPoints [j], (DataPoint.UnmarshalJSON DataPoint.zero dp).2 = .ok) :
    ∃ st2 saved2, json.decodeMetric st saved j = .ok (st2, saved2)
      ∧ saved2.isSome = (saved.isSome || elemMismatch j) := by
  cases j with
  | object members =>
    have hm : ∀ dp ∈ memberDataPoints members,
        (DataPoint.UnmarshalJSON DataPoint.zero dp).2 = .ok := by
      intro dp hdp
      apply h dp
      simpa [elemDataPoints] using hdp
    exact decodeMembers_ok st saved members hm
  | null => exact ⟨_, _, rfl, by simp [elemMismatch]⟩
  | bool b => exact ⟨_, _, rfl, by simp [elemMismatch, saveError_isSome]⟩
  | number n => exact ⟨_, _, rfl, by simp [elemMismatch, saveError_isSome]⟩
  | string s => exact ⟨_, _, rfl, by simp [elemMismatch, saveError_isSome]⟩
  | array a => exact ⟨_, _, rfl, by simp [elemMismatch, saveError_isSome]⟩

theorem decodeMetricElems_ok (saved : Option GoError) (js : List JSON)
    (h : ∀ dp ∈ elemDataPoints js, (DataPoint.UnmarshalJSON DataPoint.zero dp).2 = .ok) :
    ∃ ms saved2, json.decodeMetricElems saved js = .ok (ms, saved2)
      ∧ saved2.isSome = (saved.isSome || js.any elemMismatch) := by
  induction js generalizing saved with
  | nil => exact ⟨[], saved, rfl, by simp⟩
  | cons j js ih =>
    rw [elemDataPoints_cons] at h
    obtain ⟨st2, saved2, h2, hs2⟩ := decodeMetric_ok json.MetricCell.zero saved j
      (fun dp hdp => h dp (List.mem_append_left _ hdp))
    obtain ⟨ms, saved3, h3, hs3⟩ := ih saved2
      (fun dp hdp => h dp (List.mem_append_right _ hdp))
    refine ⟨st2.metric :: ms, saved3, by simp only [json.decodeMetricElems, h2, h3], ?_⟩
    rw [hs3, hs2, List.any_cons, Bool.or_assoc]

/-- A body decodes without an error exactly when every value in the place of a data
point decodes and no value is of a kind that its place does not take. -/
theorem decode_iff (j : JSON) :
    ((bodyMismatch j = true
        ∨ ∃ dp ∈ bodyDataPoints j, (DataPoint.UnmarshalJSON DataPoint.zero dp).2 ≠ .ok) →
      ∃ m e, json.Decode (.ok j) = (m, .error e))
    ∧ (¬ (bodyMismatch j = true
        ∨ ∃ dp ∈ bodyDataPoints j, (DataPoint.UnmarshalJSON DataPoint.zero dp).2 ≠ .ok) →
      ∃ m, json.Decode (.ok j) = (m, .ok)) := by
  by_cases hdp : ∃ dp ∈ bodyDataPoints j, (DataPoint.UnmarshalJSON DataPoint.zero dp).2 ≠ .ok
  · refine ⟨fun _ => ?_, fun hn => absurd (Or.inr hdp) hn⟩
    obtain ⟨dp, hmem, hfail⟩ := hdp
    rcases decode_cases j with ⟨m, e, he⟩ | ⟨_, hall⟩
    · exact ⟨m, e, he⟩
    · exact absurd (hall dp hmem) hfail
  · have hall : ∀ dp ∈ bodyDataPoints j,
        (DataPoint.UnmarshalJSON DataPoint.zero dp).2 = .ok := by
      intro dp hmem
      by_contra hc
      exact hdp ⟨dp, hmem, hc⟩
    cases j with
    | array elems =>
      obtain ⟨ms, saved2, h2, hs2⟩ := decodeMetricElems_ok none elems
        (by simpa [bodyDataPoints] using hall)
      simp only [Option.isSome_none, Bool.false_or] at hs2
      constructor
      · intro hbad
        rcases hbad with hbad | hbad
        · simp only [bodyMismatch] at hbad
          rw [hbad] at hs2
          obtain ⟨e, he⟩ := Option.isSome_iff_exists.mp hs2
          subst he
          exact ⟨some ms, e, by simp only [json.Decode, json.decodeMetricsPtr, h2]⟩
        · exact absurd hbad hdp
      · intro hgood
        have hmis : elems.any elemMismatch = false := by
          cases hm : elems.any elemMismatch
          · rfl
          · exact absurd (Or.inl (by simpa [bodyMismatch] using hm)) hgood
        rw [hmis] at hs2
        cases saved2 with
        | none => exact ⟨some ms, by simp only [json.Decode, json.decodeMetricsPtr, h2]⟩
        | some e => simp at hs2
    | null => exact ⟨fun hbad => by simp [bodyMismatch, bodyDataPoints] at hbad,
        fun _ => ⟨none, rfl⟩⟩
    | bool b => exact ⟨fun _ => ⟨_, _, rfl⟩, fun hn => absurd (Or.inl rfl) hn⟩
    | number n => exact ⟨fun _ => ⟨_, _, rfl⟩, fun hn => absurd (Or.inl rfl) hn⟩
    | string s => exact ⟨fun _ => ⟨_, _, rfl⟩, fun hn => absurd (Or.inl rfl) hn⟩
    | object o => exact ⟨fun _ => ⟨_, _, rfl⟩, fun hn => absurd (Or.inl rfl) hn⟩

/-- What `Fetch` returns for a response with a status in [200, 300) other than 204. -/
theorem fetch_body (lib : Lib) (c : Client) (ctx : Context) (mr : MetricRequest)
    (req : http.Request) (resp : http.Response)
    (hreq : lib.NewRequest (bytes "GET")
      (lib.URLString { c.renderURL with RawQuery := mr.Encode }) = .ok req)
    (hdo : c.httpClient.Do (prepareRequest req ctx) = .ok resp)
    (hs : 200 ≤ resp.StatusCode ∧ resp.StatusCode < 300) (h204 : resp.StatusCode ≠ 204) :
    c.Fetch lib ctx mr
      = (match json.Decode resp.Body with
        | (_, .error err) => .returned none (some err)
        | (_, .panic) => .panicked
        | (m, .ok) => .returned m none) := by
  have h1 : ¬ (resp.StatusCode < 200 ∨ resp.StatusCode ≥ 300) := by omega
  rw [fetch_eq]
  simp only [hreq, hdo, h1, if_false, http.StatusNoContent, h204, ne_eq, not_false_eq_true,
    if_true]
  try rfl

/-- C10, as the specification states it, fails in both directions.  Two bodies of the
stated shape do not decode: one whose time stamp is the base-10 integer
`9223372036854775808`, and one whose value is the number `1e999`.  And the body
`[{"target": "a"}]`, which is not of the stated shape, decodes without an error. -/
theorem fetch_decode_counterexample :
    (signedDecimal (bytes "9223372036854775808") = some 9223372036854775808
      ∧ (exampleClient 200 (.ok (.array [.object [(bytes "target", .string (bytes "a")),
          (bytes "datapoints",
            .array [.array [.number (bytes "1"),
              .number (bytes "9223372036854775808")]])]]))).Fetch
          exampleLib ⟨none⟩ ⟨[], [], [bytes "a"]⟩
        = .returned none (some (.numError (bytes "ParseInt") (bytes "9223372036854775808")
            strconv.NumErr.ErrRange)))
    ∧ (NumberLit.IsJSON ⟨false, bytes "1", [], false, bytes "999"⟩
      ∧ NumberLit.text ⟨false, bytes "1", [], false, bytes "999"⟩ false false = bytes "1e999"
      ∧ (exampleClient 200 (.ok (.array [.object [(bytes "target", .string (bytes "a")),
          (bytes "datapoints",
            .array [.array [.number (bytes "1e999"), .number (bytes "0")]])]]))).Fetch
          exampleLib ⟨none⟩ ⟨[], [], [bytes "a"]⟩
        = .returned none
            (some (.unmarshalTypeError (bytes "number 1e999") (bytes "float64"))))
    ∧ (exampleClient 200 (.ok (.array [.object [(bytes "target", .string (bytes "a"))]]))).Fetch
        exampleLib ⟨none⟩ ⟨[], [], [bytes "a"]⟩
      = .returned (some [⟨bytes "a", []⟩]) none := by
  exact ⟨by decide, ⟨by decide, by decide, by decide⟩, by decide⟩

/-- C10, amended: for a response with a status in [200, 300) other than 204.  When the
body is a JSON array of objects with the members `"target": s` and
`"datapoints": [[v, t], ...]`, in either order, in which every `v` is `null` or a
JSON number with at most 800 digits whose value is below `2 ^ 1024 - 2 ^ 970` in
magnitude, and every `t` the decimal text of an integer in the signed 64-bit range,
`Fetch` returns a nil error and one `Metric` per object in the server's order, with
`Target = s` and one `DataPoint` per pair in the server's order, whose `TimeStamp` is
`time.Unix(t, 0)` and whose `Value` is zero for `null` and the nearest `float64` for a
number.  When the body cannot be read as JSON, `Fetch` returns nil and that error.
For a body that is a JSON value, `Fetch` returns nil and an error when a value in the
place of a data point does not decode or a value is of a kind its place does not take
(the body other than an array or `null`, an element other than an object or `null`, a
target other than a string or `null`, data points other than an array or `null`), and
returns a nil error for every other body. -/
theorem fetch_decode (lib : Lib) (c : Client) (ctx : Context) (mr : MetricRequest)
    (req : http.Request) (resp : http.Response)
    (hreq : lib.NewRequest (bytes "GET")
      (lib.URLString { c.renderURL with RawQuery := mr.Encode }) = .ok req)
    (hdo : c.httpClient.Do (prepareRequest req ctx) = .ok resp)
    (hs : 200 ≤ resp.StatusCode ∧ resp.StatusCode < 300) (h204 : resp.StatusCode ≠ 204) :
    (∀ series : List WireSeries, resp.Body = .ok (.array (series.map WireSeries.toJSON)) →
        (∀ s ∈ series, ∀ p ∈ s.points, p.WellFormed) →
        ∃ ms, c.Fetch lib ctx mr = .returned (some ms) none
          ∧ List.Forall₂ WireSeries.Decodes series ms)
    ∧ (∀ e, resp.Body = .error e → c.Fetch lib ctx mr = .returned none (some e))
    ∧ (∀ j, resp.Body = .ok j →
        ((bodyMismatch j = true
            ∨ ∃ dp ∈ bodyDataPoints j, (DataPoint.UnmarshalJSON DataPoint.zero dp).2 ≠ .ok) →
          ∃ e, c.Fetch lib ctx mr = .returned none (some e))
        ∧ (¬ (bodyMismatch j = true
            ∨ ∃ dp ∈ bodyDataPoints j, (DataPoint.UnmarshalJSON DataPoint.zero dp).2 ≠ .ok) →
          ∃ m, c.Fetch lib ctx mr = .returned m none))
    ∧ (∀ j, resp.Body = .ok j → (∀ elems, j ≠ .array elems) → j ≠ .null →
        c.Fetch lib ctx mr = .returned none
          (some (.unmarshalTypeError (json.describe j) (bytes "render.Metrics")))) := by
  have hF := fetch_body lib c ctx mr req resp hreq hdo hs h204
  refine ⟨?_, ?_, ?_, ?_⟩
  · intro series hb hwf
    obtain ⟨ms, hms, hall⟩ := decode_wire series hwf
    exact ⟨ms, by rw [hF, hb, hms], hall⟩
  · intro e hb
    rw [hF, hb]
    rfl
  · intro j hb
    obtain ⟨hbad, hgood⟩ := decode_iff j
    constructor
    · intro h
      obtain ⟨m, e, he⟩ := hbad h
      exact ⟨e, by rw [hF, hb, he]⟩
    · intro h
      obtain ⟨m, hm⟩ := hgood h
      exact ⟨m, by rw [hF, hb, hm]⟩
  · intro j hb hna hnn
    rw [hF, hb]
    cases j with
    | array elems => exact absurd rfl (hna elems)
    | null => exact absurd rfl hnn
    | bool b => rfl
    | number n => rfl
    | string s => rfl
    | object o => rfl

/-- C10 on a server that answers 200.  With the body
`[{"target": "a", "datapoints": [[1.5, 1609459200]]}]` the result is that one series,
and so it is with the two members in the other order; with a body that is not JSON
the result is nil and the error of the decoder; with the body `[{"target": 5}]` it is
nil and an error. -/
theorem fetch_decode_witness :
    ((∃ ms, (exampleClient 200 (.ok exampleBody)).Fetch exampleLib ⟨none⟩
          ⟨[], [], [bytes "a"]⟩ = .returned (some ms) none
        ∧ List.Forall₂ WireSeries.Decodes
            [⟨bytes "a", [⟨.number (bytes "1.5"), bytes "1609459200"⟩], false⟩] ms)
      ∧ (exampleClient 200 (.ok exampleBody)).Fetch exampleLib ⟨none⟩ ⟨[], [], [bytes "a"]⟩
        = .returned
            (some [⟨bytes "a", [⟨⟨false, 3 * 2 ^ 51, -52⟩, ⟨time.Unix 1609459200 0⟩⟩]⟩]) none)
    ∧ ((∃ ms, (exampleClient 200 (.ok (.array
            [WireSeries.toJSON ⟨bytes "a", [⟨.null, bytes "1609459200"⟩], true⟩]))).Fetch
          exampleLib ⟨none⟩ ⟨[], [], [bytes "a"]⟩ = .returned (some ms) none
        ∧ List.Forall₂ WireSeries.Decodes
            [⟨bytes "a", [⟨.null, bytes "1609459200"⟩], true⟩] ms))
    ∧ (exampleClient 200 (.error (.external (bytes "unexpected EOF")))).Fetch exampleLib
        ⟨none⟩ ⟨[], [], [bytes "a"]⟩
      = .returned none (some (.external (bytes "unexpected EOF")))
    ∧ (∃ e, (exampleClient 200 (.ok (.array [.object [(bytes "target",
          .number (bytes "5"))]]))).Fetch exampleLib ⟨none⟩ ⟨[], [], [bytes "a"]⟩
        = .returned none (some e)) :=
  ⟨⟨(fetch_decode exampleLib (exampleClient 200 (.ok exampleBody)) ⟨none⟩
      ⟨[], [], [bytes "a"]⟩ ⟨bytes "GET", url.URL.empty, [], ⟨none⟩⟩ ⟨200, .ok exampleBody⟩
      rfl rfl (by decide) (by decide)).1
        [⟨bytes "a", [⟨.number (bytes "1.5"), bytes "1609459200"⟩], false⟩] rfl
        (by
          intro s hs p hp
          simp only [List.mem_singleton] at hs
          subst hs
          simp only [List.mem_singleton] at hp
          subst hp
          refine ⟨Or.inr ⟨⟨false, bytes "1", bytes "5", false, []⟩, false, false, rfl,
            by decide, by decide, ?_⟩, by decide⟩
          have h1 : decVal (bytes "1" ++ bytes "5") = 15 := by decide
          have h2 : decVal ([] : GoString) = 0 := by decide
          have h3 : (bytes "5").length = 1 := by decide
          simp only [NumberLit.value, decimalValue, NumberLit.significand,
            NumberLit.exponent, h1, h2, h3]
          norm_num [abs_of_pos]),
    by decide⟩,
   (fetch_decode exampleLib (exampleClient 200 (.ok (.array
      [WireSeries.toJSON ⟨bytes "a", [⟨.null, bytes "1609459200"⟩], true⟩]))) ⟨none⟩
      ⟨[], [], [bytes "a"]⟩ ⟨bytes "GET", url.URL.empty, [], ⟨none⟩⟩ ⟨200, _⟩
      rfl rfl (by decide) (by decide)).1
        [⟨bytes "a", [⟨.null, bytes "1609459200"⟩], true⟩] rfl
        (by
          intro s hs p hp
          simp only [List.mem_singleton] at hs
          subst hs
          simp only [List.mem_singleton] at hp
          subst hp
          exact ⟨Or.inl rfl, by decide⟩),
   (fetch_decode exampleLib (exampleClient 200 (.error (.external (bytes "unexpected EOF"))))
      ⟨none⟩ ⟨[], [], [bytes "a"]⟩ ⟨bytes "GET", url.URL.empty, [], ⟨none⟩⟩
      ⟨200, .error (.external (bytes "unexpected EOF"))⟩
      rfl rfl (by decide) (by decide)).2.1 _ rfl,
   ((fetch_decode exampleLib (exampleClient 200 (.ok (.array [.object [(bytes "target",
        .number (bytes "5"))]]))) ⟨none⟩ ⟨[], [], [bytes "a"]⟩
      ⟨bytes "GET", url.URL.empty, [], ⟨none⟩⟩ ⟨200, _⟩
      rfl rfl (by decide) (by decide)).2.2.1 _ rfl).1 (Or.inl (by decide))⟩

/-! ## The request URL

What `http.NewRequest` reads back from the text that `(*URL).String` writes. -/

theorem upperhex_roundtrip : ∀ c : Fin 256,
    Fin.ofNat (url.unhex (url.upperhex (c.val / 16)) * 16
      + url.unhex (url.upperhex (c.val % 16))) = c := by
  decide

theorem shouldEscapeMode_percent (m : url.encoding) :
    url.shouldEscapeMode 37 m = true := by
  cases m <;> decide

theorem escapeByteMode_cases (m : url.encoding) (hm : m ≠ .encodeQueryComponent)
    (c : Fin 256) :
    (url.escapeByteMode m c = [37, url.upperhex (c.val / 16), url.upperhex (c.val % 16)]
        ∧ Fin.ofNat (url.unhex (url.upperhex (c.val / 16)) * 16
            + url.unhex (url.upperhex (c.val % 16))) = c)
    ∨ (url.escapeByteMode m c = [c] ∧ c.val ≠ 37) := by
  unfold url.escapeByteMode
  have h1 : ¬ (c.val = 32 ∧ m = .encodeQueryComponent) := fun h => hm h.2
  rw [if_neg h1]
  by_cases hs : url.shouldEscapeMode c m = true
  · rw [if_pos hs]
    exact Or.inl ⟨rfl, upperhex_roundtrip c⟩
  · rw [if_neg hs]
    refine Or.inr ⟨rfl, ?_⟩
    intro h37
    have hc : c = 37 := Fin.ext h37
    rw [hc] at hs
    exact hs (shouldEscapeMode_percent m)

theorem escapeByteMode_mem (m : url.encoding) (c x : Fin 256)
    (hx : x ∈ url.escapeByteMode m c) :
    x = 43 ∨ x = 37 ∨ (∃ n : Fin 16, x = url.upperhex n.val)
      ∨ (x = c ∧ url.shouldEscapeMode c m = false) := by
  unfold url.escapeByteMode at hx
  split at hx
  · simp only [List.mem_singleton] at hx
    exact Or.inl hx
  · split at hx
    · simp only [List.mem_cons, List.mem_singleton, List.not_mem_nil, or_false] at hx
      rcases hx with hx | hx | hx
      · exact Or.inr (Or.inl hx)
      · exact Or.inr (Or.inr (Or.inl ⟨⟨c.val / 16, by omega⟩, hx⟩))
      · exact Or.inr (Or.inr (Or.inl ⟨⟨c.val % 16, by omega⟩, hx⟩))
    · simp only [List.mem_singleton] at hx
      rename_i hs
      exact Or.inr (Or.inr (Or.inr ⟨hx, by simpa using hs⟩))

theorem unescapeDecode_percent (m : url.encoding) (a b : Fin 256) (r : GoString) :
    url.unescapeDecode m (37 :: a :: b :: r)
      = Fin.ofNat (url.unhex a * 16 + url.unhex b) :: url.unescapeDecode m r := rfl

theorem unescapeDecode_plain (m : url.encoding) (hm : m ≠ .encodeQueryComponent)
    (c : Fin 256) (r : GoString) (h : c.val ≠ 37) :
    url.unescapeDecode m (c :: r) = c :: url.unescapeDecode m r := by
  have h43 : c.val = 43 → (43 : Fin 256) = c := fun h => (Fin.ext h).symm
  rcases r with _ | ⟨a, _ | ⟨b, r⟩⟩ <;> by_cases hc : c.val = 43 <;>
    simp [url.unescapeDecode, h, hc, hm, h43]

theorem unescapeCheck_percent (m : url.encoding) (a b : Fin 256) (r : GoString)
    (h : url.unescapeCheck m (37 :: a :: b :: r) = true) : url.unescapeCheck m r = true := by
  have e : url.unescapeCheck m (37 :: a :: b :: r)
      = (url.ishex a && url.ishex b
          && !(decide (m = .encodeHost ∧ url.unhex a < 8 ∧ ¬ (a.val = 50 ∧ b.val = 53)))
          && !(decide (m = .encodeZone ∧ ¬ (a.val = 50 ∧ b.val = 53)
                ∧ url.unhex a * 16 + url.unhex b ≠ 32
                ∧ url.shouldEscapeMode (Fin.ofNat (url.unhex a * 16 + url.unhex b))
                    .encodeHost = true))
          && url.unescapeCheck m r) := rfl
  rw [e, Bool.and_eq_true] at h
  exact h.2

theorem unescapeCheck_short1 (m : url.encoding) : url.unescapeCheck m [37] = false := rfl

theorem unescapeCheck_short2 (m : url.encoding) (a : Fin 256) :
    url.unescapeCheck m [37, a] = false := rfl

theorem unescapeCheck_plain (m : url.encoding) (c : Fin 256) (r : GoString) (h : c.val ≠ 37)
    (hc : url.unescapeCheck m (c :: r) = true) : url.unescapeCheck m r = true := by
  rcases r with _ | ⟨a, _ | ⟨b, r⟩⟩
  · rfl
  · by_cases h43 : c.val = 43
    · simpa [url.unescapeCheck, h, h43] using hc
    · simp only [url.unescapeCheck, h, h43, if_false] at hc
      split at hc
      · exact absurd hc (by simp)
      · exact hc
  · by_cases h43 : c.val = 43
    · simpa [url.unescapeCheck, h, h43] using hc
    · simp only [url.unescapeCheck, h, h43, if_false] at hc
      split at hc
      · exact absurd hc (by simp)
      · simpa [url.unescapeCheck] using hc

/-- A text that passes the first loop of `unescape` is decoded on its own when more text
follows it. -/
theorem unescapeDecode_append (m m2 : url.encoding) (hm2 : m2 ≠ .encodeQueryComponent)
    (n : Nat) (a b : GoString) (hn : a.length ≤ n) (h : url.unescapeCheck m a = true) :
    url.unescapeDecode m2 (a ++ b) = url.unescapeDecode m2 a ++ url.unescapeDecode m2 b := by
  induction n generalizing a with
  | zero =>
    have : a = [] := List.length_eq_zero.mp (Nat.le_zero.mp hn)
    subst this
    rfl
  | succ n ih =>
    rcases a with _ | ⟨c, r⟩
    · rfl
    · by_cases h37 : c.val = 37
      · have hc : c = 37 := Fin.ext h37
        subst hc
        rcases r with _ | ⟨x, _ | ⟨y, r⟩⟩
        · exact absurd h (by rw [unescapeCheck_short1]; simp)
        · exact absurd h (by rw [unescapeCheck_short2]; simp)
        · have hr := unescapeCheck_percent m x y r h
          have hlen : r.length ≤ n := by
            simp only [List.length_cons] at hn
            omega
          show url.unescapeDecode m2 (37 :: x :: y :: (r ++ b)) = _
          rw [unescapeDecode_percent, unescapeDecode_percent, ih r hlen hr]
          rfl
      · have hr := unescapeCheck_plain m c r h37 h
        have hlen : r.length ≤ n := by
          simp only [List.length_cons] at hn
          omega
        show url.unescapeDecode m2 (c :: (r ++ b)) = _
        rw [unescapeDecode_plain m2 hm2 c _ h37, unescapeDecode_plain m2 hm2 c _ h37,
          ih r hlen hr]
        rfl

theorem unescapeDecode_escapeByte (m m2 : url.encoding) (hm : m ≠ .encodeQueryComponent)
    (hm2 : m2 ≠ .encodeQueryComponent) (c : Fin 256) (rest : GoString) :
    url.unescapeDecode m2 (url.escapeByteMode m c ++ rest) = c :: url.unescapeDecode m2 rest := by
  rcases escapeByteMode_cases m hm c with ⟨he, hv⟩ | ⟨he, h37⟩
  · rw [he]
    show url.unescapeDecode m2 (37 :: _ :: _ :: rest) = _
    rw [unescapeDecode_percent, hv]
  · rw [he]
    exact unescapeDecode_plain m2 hm2 c rest h37

/-- Unescaping undoes escaping, in every mode but that of a query component, also when
the two modes differ. -/
theorem unescapeDecode_escape (m m2 : url.encoding) (hm : m ≠ .encodeQueryComponent)
    (hm2 : m2 ≠ .encodeQueryComponent) (s : GoString) :
    url.unescapeDecode m2 (url.escape s m) = s := by
  unfold url.escape
  induction s with
  | nil => rfl
  | cons c s ih =>
    rw [List.flatMap_cons, unescapeDecode_escapeByte m m2 hm hm2, ih]

theorem unescapeDecode_mode (m m2 : url.encoding) (hm : m ≠ .encodeQueryComponent)
    (hm2 : m2 ≠ .encodeQueryComponent) (n : Nat) (s : GoString) (hn : s.length ≤ n) :
    url.unescapeDecode m s = url.unescapeDecode m2 s := by
  induction n generalizing s with
  | zero =>
    have : s = [] := List.length_eq_zero.mp (Nat.le_zero.mp hn)
    subst this
    rfl
  | succ n ih =>
    rcases s with _ | ⟨c, r⟩
    · rfl
    · by_cases h37 : c.val = 37
      · have hc : c = 37 := Fin.ext h37
        subst hc
        rcases r with _ | ⟨x, _ | ⟨y, r⟩⟩
        · rfl
        · rfl
        · have hlen : r.length ≤ n := by
            simp only [List.length_cons] at hn
            omega
          rw [unescapeDecode_percent, unescapeDecode_percent, ih r hlen]
      · have hlen : r.length ≤ n := by
          simp only [List.length_cons] at hn
          omega
        rw [unescapeDecode_plain m hm c _ h37, unescapeDecode_plain m2 hm2 c _ h37, ih r hlen]

theorem unescape_some (m : url.encoding) (s r : GoString) (h : url.unescape s m = some r) :
    url.unescapeCheck m s = true ∧ r = url.unescapeDecode m s := by
  unfold url.unescape at h
  by_cases hc : url.unescapeCheck m s = true
  · rw [if_pos hc, Option.some.injEq] at h
    exact ⟨hc, h.symm⟩
  · rw [if_neg hc] at h
    exact absurd h (by simp)

/-! ### Bytes that the escaped parts do not hold -/

theorem upperhex_bytes : ∀ n : Fin 16, url.upperhex n.val ≠ 47 ∧ url.upperhex n.val ≠ 63
    ∧ url.upperhex n.val ≠ 35 ∧ url.upperhex n.val ≠ 64 := by
  decide

theorem shouldEscapeMode_host_bytes : ∀ c : Fin 256,
    url.shouldEscapeMode c .encodeHost = false → c ≠ 47 ∧ c ≠ 63 ∧ c ≠ 35 ∧ c ≠ 64 := by
  decide

theorem shouldEscapeMode_user_bytes : ∀ c : Fin 256,
    url.shouldEscapeMode c .encodeUserPassword = false →
      c ≠ 47 ∧ c ≠ 63 ∧ c ≠ 35 ∧ c ≠ 64 := by
  decide

theorem shouldEscapeMode_path_bytes : ∀ c : Fin 256,
    url.shouldEscapeMode c .encodePath = false → c ≠ 63 ∧ c ≠ 35 := by
  decide

theorem escapeByteMode_host_bytes (c x : Fin 256) (hx : x ∈ url.escapeByteMode .encodeHost c) :
    x ≠ 47 ∧ x ≠ 63 ∧ x ≠ 35 ∧ x ≠ 64 := by
  rcases escapeByteMode_mem _ c x hx with h | h | ⟨n, h⟩ | ⟨h, hs⟩
  · rw [h]; decide
  · rw [h]; decide
  · rw [h]; exact upperhex_bytes n
  · rw [h]; exact shouldEscapeMode_host_bytes c hs

theorem escapeByteMode_user_bytes (c x : Fin 256)
    (hx : x ∈ url.escapeByteMode .encodeUserPassword c) :
    x ≠ 47 ∧ x ≠ 63 ∧ x ≠ 35 ∧ x ≠ 64 := by
  rcases escapeByteMode_mem _ c x hx with h | h | ⟨n, h⟩ | ⟨h, hs⟩
  · rw [h]; decide
  · rw [h]; decide
  · rw [h]; exact upperhex_bytes n
  · rw [h]; exact shouldEscapeMode_user_bytes c hs

theorem escapeByteMode_path_bytes (c x : Fin 256) (hx : x ∈ url.escapeByteMode .encodePath c) :
    x ≠ 63 ∧ x ≠ 35 := by
  rcases escapeByteMode_mem _ c x hx with h | h | ⟨n, h⟩ | ⟨h, hs⟩
  · rw [h]; decide
  · rw [h]; decide
  · rw [h]; exact ⟨(upperhex_bytes n).2.1, (upperhex_bytes n).2.2.1⟩
  · rw [h]; exact shouldEscapeMode_path_bytes c hs

theorem validEncoded_path_byte : ∀ c : Fin 256,
    (decide (c.val ∈ [33, 36, 38, 39, 40, 41, 42, 43, 44, 59, 61, 58, 64, 91, 93, 37])
      || !url.shouldEscapeMode c .encodePath) = true → c ≠ 63 ∧ c ≠ 35 := by
  decide

theorem escapeByte_query_bytes : ∀ c : Fin 256, (63 : Fin 256) ∉ url.escapeByte c
    ∧ (35 : Fin 256) ∉ url.escapeByte c := by
  decide

theorem escape_bytes (m : url.encoding) (P : Fin 256 → Prop)
    (h : ∀ c x : Fin 256, x ∈ url.escapeByteMode m c → P x) (s : GoString) :
    ∀ x ∈ url.escape s m, P x := by
  intro x hx
  unfold url.escape at hx
  rw [List.mem_flatMap] at hx
  obtain ⟨c, _, hc⟩ := hx
  exact h c x hc

/-! ### Cutting a text -/

theorem cutAt_no_sep (sep : Fin 256) (s : GoString) (h : sep ∉ s) : cutAt sep s = (s, []) := by
  induction s with
  | nil => rfl
  | cons c s ih =>
    have hc : c ≠ sep := fun hc => h (by simp [hc])
    have hr : sep ∉ s := fun hr => h (List.mem_cons_of_mem _ hr)
    simp [cutAt, hc, ih hr]

theorem takeWhile_append_stop (p : Fin 256 → Bool) (a b : GoString)
    (ha : ∀ c ∈ a, p c = true) (hb : b = [] ∨ ∃ x t, b = x :: t ∧ p x = false) :
    (a ++ b).takeWhile p = a ∧ (a ++ b).dropWhile p = b := by
  induction a with
  | nil =>
    rcases hb with hb | ⟨x, t, hb, hx⟩
    · subst hb
      exact ⟨rfl, rfl⟩
    · subst hb
      simp [List.takeWhile_cons, List.dropWhile_cons, hx]
  | cons c a ih =>
    have hc := ha c (List.mem_cons_self _ _)
    obtain ⟨h1, h2⟩ := ih (fun x hx => ha x (List.mem_cons_of_mem _ hx))
    rw [List.cons_append, List.takeWhile_cons, List.dropWhile_cons, hc]
    exact ⟨by rw [if_pos rfl, h1], by rw [if_pos rfl, h2]⟩

theorem takeWhile_ne_append (a b : GoString) (ha : (47 : Fin 256) ∉ a)
    (hb : b = [] ∨ b.head? = some 47) :
    (a ++ b).takeWhile (fun c => c ≠ 47) = a ∧ (a ++ b).dropWhile (fun c => c ≠ 47) = b := by
  apply takeWhile_append_stop
  · intro c hc
    have : c ≠ 47 := fun h => ha (h ▸ hc)
    simp [this]
  · rcases hb with hb | hb
    · exact Or.inl hb
    · rcases b with _ | ⟨x, t⟩
      · exact Or.inl rfl
      · simp only [List.head?_cons, Option.some.injEq] at hb
        exact Or.inr ⟨x, t, rfl, by simp [hb]⟩

theorem lastIndexByte_none (sep : Fin 256) (s : GoString) (h : sep ∉ s) :
    url.lastIndexByte sep s = none := by
  induction s with
  | nil => rfl
  | cons c s ih =>
    have hc : c ≠ sep := fun hc => h (by simp [hc])
    have hr : sep ∉ s := fun hr => h (List.mem_cons_of_mem _ hr)
    simp [url.lastIndexByte, ih hr, hc]

theorem lastIndexByte_append (sep : Fin 256) (a b : GoString) (h : sep ∉ b) :
    url.lastIndexByte sep (a ++ sep :: b) = some a.length := by
  induction a with
  | nil => simp [url.lastIndexByte, lastIndexByte_none sep b h]
  | cons c a ih => simp [url.lastIndexByte, ih]

theorem dropWhile_head (s : GoString) :
    s.dropWhile (fun c => c ≠ 47) = [] ∨ (s.dropWhile (fun c => c ≠ 47)).head? = some 47 := by
  induction s with
  | nil => exact Or.inl rfl
  | cons c s ih =>
    by_cases hc : c = 47
    · subst hc
      exact Or.inr (by simp [List.dropWhile_cons])
    · simpa [List.dropWhile_cons, hc] using ih

/-! ### The scheme -/

theorem toLower_letter : ∀ c : Fin 256,
    ((97 ≤ c.val ∧ c.val ≤ 122) ∨ (65 ≤ c.val ∧ c.val ≤ 90)) →
      97 ≤ (if 65 ≤ c.val ∧ c.val ≤ 90 then (Fin.ofNat (c.val + 32) : Fin 256) else c).val
      ∧ (if 65 ≤ c.val ∧ c.val ≤ 90 then (Fin.ofNat (c.val + 32) : Fin 256) else c).val ≤ 122 := by
  decide

theorem toLower_other : ∀ c : Fin 256,
    ((48 ≤ c.val ∧ c.val ≤ 57) ∨ c.val = 43 ∨ c.val = 45 ∨ c.val = 46) →
      (if 65 ≤ c.val ∧ c.val ≤ 90 then (Fin.ofNat (c.val + 32) : Fin 256) else c) = c := by
  decide

theorem schemeByte_plain : ∀ c : Fin 256,
    ((97 ≤ c.val ∧ c.val ≤ 122) ∨ (48 ≤ c.val ∧ c.val ≤ 57)
      ∨ c.val = 43 ∨ c.val = 45 ∨ c.val = 46) →
    (if 65 ≤ c.val ∧ c.val ≤ 90 then (Fin.ofNat (c.val + 32) : Fin 256) else c) = c
      ∧ c ≠ 35 ∧ c ≠ 63 ∧ c ≠ 47 ∧ c ≠ 58 := by
  decide

/-- A scheme in lower case: a lower-case letter, then lower-case letters, digits and
`+` `-` `.`. -/
theorem getSchemeLoop_false (S r : GoString)
    (h : ∀ c ∈ S, (97 ≤ c.val ∧ c.val ≤ 122) ∨ (48 ≤ c.val ∧ c.val ≤ 57)
      ∨ c.val = 43 ∨ c.val = 45 ∨ c.val = 46) :
    url.getSchemeLoop false (S ++ 58 :: r) = some (some (S, r)) := by
  induction S with
  | nil => rfl
  | cons c S ih =>
    have hc := h c (List.mem_cons_self _ _)
    have ih2 := ih (fun x hx => h x (List.mem_cons_of_mem _ hx))
    show url.getSchemeLoop false (c :: (S ++ 58 :: r)) = _
    rw [url.getSchemeLoop, ih2]
    rcases hc with hc | hc | hc | hc | hc
    · simp [hc]
    · have hn : ¬ ((97 ≤ c.val ∧ c.val ≤ 122) ∨ (65 ≤ c.val ∧ c.val ≤ 90)) := by omega
      simp [hn, hc]
    · have hn : ¬ ((97 ≤ c.val ∧ c.val ≤ 122) ∨ (65 ≤ c.val ∧ c.val ≤ 90)) := by omega
      simp [hn, hc]
    · have hn : ¬ ((97 ≤ c.val ∧ c.val ≤ 122) ∨ (65 ≤ c.val ∧ c.val ≤ 90)) := by omega
      simp [hn, hc]
    · have hn : ¬ ((97 ≤ c.val ∧ c.val ≤ 122) ∨ (65 ≤ c.val ∧ c.val ≤ 90)) := by omega
      simp [hn, hc]

/-- What `getScheme` takes as a scheme: a letter first, and then letters, digits and
`+` `-` `.`. -/
theorem getSchemeLoop_inv (raw : GoString) (first : Bool) (S rest : GoString)
    (h : url.getSchemeLoop first raw = some (some (S, rest))) :
    (∀ c ∈ S, (97 ≤ c.val ∧ c.val ≤ 122) ∨ (65 ≤ c.val ∧ c.val ≤ 90)
        ∨ (48 ≤ c.val ∧ c.val ≤ 57) ∨ c.val = 43 ∨ c.val = 45 ∨ c.val = 46)
    ∧ (first = true → ∃ c t, S = c :: t
        ∧ ((97 ≤ c.val ∧ c.val ≤ 122) ∨ (65 ≤ c.val ∧ c.val ≤ 90))) := by
  induction raw generalizing first S rest with
  | nil => simp [url.getSchemeLoop] at h
  | cons c raw ih =>
    rw [url.getSchemeLoop] at h
    have hrec : ∀ (hany : (97 ≤ c.val ∧ c.val ≤ 122) ∨ (65 ≤ c.val ∧ c.val ≤ 90)
          ∨ (48 ≤ c.val ∧ c.val ≤ 57) ∨ c.val = 43 ∨ c.val = 45 ∨ c.val = 46),
        (match url.getSchemeLoop false raw with
          | some (some (scheme, path)) => some (some (c :: scheme, path))
          | other => other) = some (some (S, rest)) →
        (∀ x ∈ S, (97 ≤ x.val ∧ x.val ≤ 122) ∨ (65 ≤ x.val ∧ x.val ≤ 90)
          ∨ (48 ≤ x.val ∧ x.val ≤ 57) ∨ x.val = 43 ∨ x.val = 45 ∨ x.val = 46)
        ∧ ∃ t, S = c :: t := by
      intro hany hm
      cases hr : url.getSchemeLoop false raw with
      | none => rw [hr] at hm; simp at hm
      | some o =>
        cases o with
        | none => rw [hr] at hm; simp at hm
        | some p =>
          obtain ⟨S2, path⟩ := p
          rw [hr] at hm
          simp only [Option.some.injEq, Prod.mk.injEq] at hm
          obtain ⟨hS, _⟩ := hm
          subst hS
          obtain ⟨hall, _⟩ := ih false S2 path hr
          refine ⟨?_, S2, rfl⟩
          intro x hx
          rcases List.mem_cons.mp hx with hx | hx
          · rw [hx]; exact hany
          · exact hall x hx
    by_cases hl : (97 ≤ c.val ∧ c.val ≤ 122) ∨ (65 ≤ c.val ∧ c.val ≤ 90)
    · rw [if_pos hl] at h
      obtain ⟨hall, t, ht⟩ := hrec (by omega) h
      exact ⟨hall, fun _ => ⟨c, t, ht, hl⟩⟩
    · rw [if_neg hl] at h
      by_cases hd : (48 ≤ c.val ∧ c.val ≤ 57) ∨ c.val = 43 ∨ c.val = 45 ∨ c.val = 46
      · rw [if_pos hd] at h
        cases first with
        | true => simp at h
        | false =>
          simp only [Bool.false_eq_true, if_false] at h
          obtain ⟨hall, t, ht⟩ := hrec (by omega) h
          exact ⟨hall, fun hf => absurd hf (by simp)⟩
      · rw [if_neg hd] at h
        by_cases h58 : c.val = 58
        · rw [if_pos h58] at h
          cases first with
          | true => simp at h
          | false =>
            simp only [Bool.false_eq_true, if_false, Option.some.injEq, Prod.mk.injEq] at h
            obtain ⟨hS, _⟩ := h
            subst hS
            exact ⟨by simp, fun hf => absurd hf (by simp)⟩
        · rw [if_neg h58] at h
          simp at h

/-- The scheme that `parse` stores, the lower case of what `getScheme` found, is read
back by `getScheme` as it stands. -/
theorem scheme_lower (raw S rest : GoString) (h : url.getScheme raw = some (S, rest))
    (hne : url.toLower S ≠ []) :
    url.toLower (url.toLower S) = url.toLower S
    ∧ (∀ x ∈ url.toLower S, x ≠ 35 ∧ x ≠ 63 ∧ x ≠ 47)
    ∧ ∀ r, url.getScheme (url.toLower S ++ 58 :: r) = some (url.toLower S, r) := by
  unfold url.getScheme at h
  cases hl : url.getSchemeLoop true raw with
  | none => rw [hl] at h; simp at h
  | some o =>
    cases o with
    | none =>
      rw [hl] at h
      simp only [Option.some.injEq, Prod.mk.injEq] at h
      obtain ⟨hS, _⟩ := h
      subst hS
      exact absurd rfl hne
    | some p =>
      obtain ⟨S2, rest2⟩ := p
      rw [hl] at h
      simp only [Option.some.injEq, Prod.mk.injEq] at h
      obtain ⟨hS, _⟩ := h
      subst hS
      obtain ⟨hall, hfirst⟩ := getSchemeLoop_inv raw true S2 rest2 hl
      obtain ⟨c, t, hS, hc⟩ := hfirst rfl
      subst hS
      have hlow : ∀ x ∈ url.toLower (c :: t), (97 ≤ x.val ∧ x.val ≤ 122)
          ∨ (48 ≤ x.val ∧ x.val ≤ 57) ∨ x.val = 43 ∨ x.val = 45 ∨ x.val = 46 := by
        intro x hx
        unfold url.toLower at hx
        rw [List.mem_map] at hx
        obtain ⟨y, hy, hxy⟩ := hx
        have hyany := hall y hy
        rw [← hxy]
        by_cases hyl : (97 ≤ y.val ∧ y.val ≤ 122) ∨ (65 ≤ y.val ∧ y.val ≤ 90)
        · exact Or.inl (toLower_letter y hyl)
        · have hyo : (48 ≤ y.val ∧ y.val ≤ 57) ∨ y.val = 43 ∨ y.val = 45 ∨ y.val = 46 := by
            omega
          rw [toLower_other y hyo]
          omega
      refine ⟨?_, fun x hx => ?_, fun r => ?_⟩
      · have : ∀ l : GoString, (∀ x ∈ l, (97 ≤ x.val ∧ x.val ≤ 122)
            ∨ (48 ≤ x.val ∧ x.val ≤ 57) ∨ x.val = 43 ∨ x.val = 45 ∨ x.val = 46) →
            url.toLower l = l := by
          intro l hl
          induction l with
          | nil => rfl
          | cons a l ih =>
            unfold url.toLower
            rw [List.map_cons]
            have ha := (schemeByte_plain a (hl a (List.mem_cons_self _ _))).1
            rw [ha]
            congr 1
            exact ih (fun x hx => hl x (List.mem_cons_of_mem _ hx))
        exact this _ hlow
      · have hx2 := schemeByte_plain x (hlow x hx)
        exact ⟨hx2.2.1, hx2.2.2.1, hx2.2.2.2.1⟩
      · have hcl := toLower_letter c hc
        have htl : url.toLower (c :: t)
            = (if 65 ≤ c.val ∧ c.val ≤ 90 then (Fin.ofNat (c.val + 32) : Fin 256) else c)
              :: url.toLower t := rfl
        rw [htl] at hlow ⊢
        generalize (if 65 ≤ c.val ∧ c.val ≤ 90 then (Fin.ofNat (c.val + 32) : Fin 256) else c)
          = c2 at hcl hlow ⊢
        have hloop := getSchemeLoop_false (url.toLower t) r
          (fun x hx => hlow x (List.mem_cons_of_mem _ hx))
        unfold url.getScheme
        show (match url.getSchemeLoop true (c2 :: (url.toLower t ++ 58 :: r)) with
          | none => none
          | some none => some ([], c2 :: (url.toLower t ++ 58 :: r))
          | some (some r) => some r) = _
        rw [url.getSchemeLoop, if_pos (Or.inl hcl), hloop]

/-! ### What `url.Parse` leaves in a URL with a host -/

theorem setPath_some (base u : url.URL) (p : GoString) (h : base.setPath p = some u) :
    ∃ path, url.unescape p .encodePath = some path
      ∧ u = { base with
          Path := path, RawPath := if p = url.escape path .encodePath then [] else p } := by
  unfold url.URL.setPath at h
  cases hu : url.unescape p .encodePath with
  | none => rw [hu] at h; simp at h
  | some path =>
    rw [hu] at h
    simp only [Option.some.injEq] at h
    exact ⟨path, rfl, h.symm⟩

theorem unescape_head (p path : GoString) (m : url.encoding) (hm : m ≠ .encodeQueryComponent)
    (h : url.unescape p m = some path) (hp : p = [] ∨ p.head? = some 47) :
    path = [] ∨ path.head? = some 47 := by
  obtain ⟨_, hd⟩ := unescape_some m p path h
  rcases hp with hp | hp
  · subst hp
    exact Or.inl hd
  · rcases p with _ | ⟨x, t⟩
    · exact Or.inl hd
    · simp only [List.head?_cons, Option.some.injEq] at hp
      subst hp
      rw [unescapeDecode_plain m hm 47 t (by decide)] at hd
      exact Or.inr (by rw [hd]; rfl)

/-- A URL with a host that `parseAfterQuery` gives has no opaque part, and its path, and
the raw path when one is kept, are empty or start with a slash. -/
theorem parseAfterQuery_inv (scheme rawQuery rest : GoString) (forceQuery : Bool)
    (u : url.URL) (h : url.parseAfterQuery scheme forceQuery rawQuery rest = some u)
    (hh : u.Host ≠ []) :
    u.Scheme = scheme ∧ u.Opaque = []
    ∧ (u.Path = [] ∨ u.Path.head? = some 47)
    ∧ (u.RawPath = [] ∨ u.RawPath.head? = some 47) := by
  unfold url.parseAfterQuery at h
  split at h
  · simp only [Option.some.injEq] at h
    subst h
    exact absurd rfl hh
  · split at h
    · simp at h
    · split at h
      · cases ha : url.parseAuthority
            ((rest.drop 2).takeWhile (fun c => c ≠ 47)) with
        | none => rw [ha] at h; simp at h
        | some p =>
          obtain ⟨user, host⟩ := p
          rw [ha] at h
          simp only [] at h
          obtain ⟨path, hp, hu⟩ := setPath_some _ _ _ h
          have hd := dropWhile_head (rest.drop 2)
          have hpath := unescape_head _ _ .encodePath (by decide) hp hd
          subst hu
          refine ⟨rfl, rfl, hpath, ?_⟩
          dsimp only
          split
          · exact Or.inl rfl
          · exact hd
      · obtain ⟨path, hp, hu⟩ := setPath_some _ _ _ h
        subst hu
        exact absurd rfl hh

theorem parse_inv (raw : GoString) (u : url.URL) (h : url.parse raw = some u)
    (hh : u.Host ≠ []) :
    (u.Scheme ≠ [] → url.toLower u.Scheme = u.Scheme
        ∧ (∀ x ∈ u.Scheme, x ≠ 35 ∧ x ≠ 63 ∧ x ≠ 47)
        ∧ ∀ r, url.getScheme (u.Scheme ++ 58 :: r) = some (u.Scheme, r))
    ∧ u.Opaque = []
    ∧ (u.Path = [] ∨ u.Path.head? = some 47)
    ∧ (u.RawPath = [] ∨ u.RawPath.head? = some 47) := by
  unfold url.parse at h
  split at h
  · simp at h
  · split at h
    · simp only [Option.some.injEq] at h
      subst h
      exact absurd rfl hh
    · cases hg : url.getScheme raw with
      | none => rw [hg] at h; simp at h
      | some p =>
        obtain ⟨S, rest⟩ := p
        rw [hg] at h
        simp only [] at h
        have key : ∀ fq q r2, url.parseAfterQuery (url.toLower S) fq q r2 = some u →
            (u.Scheme ≠ [] → url.toLower u.Scheme = u.Scheme
              ∧ (∀ x ∈ u.Scheme, x ≠ 35 ∧ x ≠ 63 ∧ x ≠ 47)
              ∧ ∀ r, url.getScheme (u.Scheme ++ 58 :: r) = some (u.Scheme, r))
            ∧ u.Opaque = []
            ∧ (u.Path = [] ∨ u.Path.head? = some 47)
            ∧ (u.RawPath = [] ∨ u.RawPath.head? = some 47) := by
          intro fq q r2 hp
          obtain ⟨hs, ho, h1, h2⟩ := parseAfterQuery_inv _ _ _ _ u hp hh
          refine ⟨?_, ho, h1, h2⟩
          intro hne
          rw [hs] at hne ⊢
          exact scheme_lower raw S rest hg hne
        split at h
        · exact key _ _ _ h
        · exact key _ _ _ h

theorem setFragment_some (base u : url.URL) (f : GoString) (h : base.setFragment f = some u) :
    u.Scheme = base.Scheme ∧ u.Opaque = base.Opaque ∧ u.User = base.User
    ∧ u.Host = base.Host ∧ u.Path = base.Path ∧ u.RawPath = base.RawPath
    ∧ u.OmitHost = base.OmitHost ∧ u.RawQuery = base.RawQuery := by
  unfold url.URL.setFragment at h
  cases hu : url.unescape f .encodeFragment with
  | none => rw [hu] at h; simp at h
  | some frag =>
    rw [hu] at h
    simp only [Option.some.injEq] at h
    subst h
    exact ⟨rfl, rfl, rfl, rfl, rfl, rfl, rfl, rfl⟩

/-- What `url.Parse` leaves in a URL with a host: a scheme that `getScheme` reads back as
it stands, no opaque part, and a path, and a raw path when one is kept, that are empty
or start with a slash. -/
theorem Parse_inv (s0 : GoString) (u : url.URL) (h : url.Parse s0 = .ok u)
    (hh : u.Host ≠ []) :
    (u.Scheme ≠ [] → url.toLower u.Scheme = u.Scheme
        ∧ (∀ x ∈ u.Scheme, x ≠ 35 ∧ x ≠ 63 ∧ x ≠ 47)
        ∧ ∀ r, url.getScheme (u.Scheme ++ 58 :: r) = some (u.Scheme, r))
    ∧ u.Opaque = []
    ∧ (u.Path = [] ∨ u.Path.head? = some 47)
    ∧ (u.RawPath = [] ∨ u.RawPath.head? = some 47) := by
  unfold url.Parse at h
  cases hp : url.parse (cutAt 35 s0).1 with
  | none => rw [hp] at h; simp at h
  | some u1 =>
    rw [hp] at h
    simp only [] at h
    split at h
    · simp only [Except.ok.injEq] at h
      subst h
      exact parse_inv _ _ hp hh
    · cases hf : u1.setFragment (cutAt 35 s0).2 with
      | none => rw [hf] at h; simp at h
      | some u2 =>
        rw [hf] at h
        simp only [Except.ok.injEq] at h
        subst h
        obtain ⟨e1, e2, _, e4, e5, e6, _, _⟩ := setFragment_some _ _ _ hf
        rw [e1, e2, e5, e6]
        rw [e4] at hh
        exact parse_inv _ _ hp hh

/-! ### The text of a URL, part by part -/

theorem queryEscape_bytes (s : GoString) :
    (63 : Fin 256) ∉ url.QueryEscape s ∧ (35 : Fin 256) ∉ url.QueryEscape s := by
  unfold url.QueryEscape
  constructor
  · intro h
    rw [List.mem_flatMap] at h
    obtain ⟨c, _, hc⟩ := h
    exact (escapeByte_query_bytes c).1 hc
  · intro h
    rw [List.mem_flatMap] at h
    obtain ⟨c, _, hc⟩ := h
    exact (escapeByte_query_bytes c).2 hc

/-- The encoded request is not empty and holds neither `?` nor `#`. -/
theorem encode_bytes (m : MetricRequest) :
    m.Encode ≠ [] ∧ (63 : Fin 256) ∉ m.Encode ∧ (35 : Fin 256) ∉ m.Encode := by
  rw [encode_eq]
  have hfj : bytes "format=json" ≠ [] := by decide
  have key : ∀ x : Fin 256, x = 63 ∨ x = 35 →
      x ∉ bytes "format=json" ++ fromParam m ++ targetParams m ++ untilParam m := by
    intro x hx h
    have hlit : x ∉ bytes "format=json" ∧ x ∉ bytes "&from=" ∧ x ∉ bytes "&until="
        ∧ x ∉ bytes "&target=" := by
      rcases hx with hx | hx <;> subst hx <;> decide
    have hesc : ∀ s, x ∉ url.QueryEscape s := by
      intro s
      rcases hx with hx | hx
      · subst hx; exact (queryEscape_bytes s).1
      · subst hx; exact (queryEscape_bytes s).2
    simp only [List.mem_append] at h
    rcases h with ((h | h) | h) | h
    · exact hlit.1 h
    · unfold fromParam at h
      split at h
      · rw [List.mem_append] at h
        rcases h with h | h
        · exact hlit.2.1 h
        · exact hesc _ h
      · simp at h
    · unfold targetParams at h
      rw [List.mem_flatMap] at h
      obtain ⟨t, _, ht⟩ := h
      rw [List.mem_append] at ht
      rcases ht with ht | ht
      · exact hlit.2.2.2 ht
      · exact hesc _ ht
    · unfold untilParam at h
      split at h
      · rw [List.mem_append] at h
        rcases h with h | h
        · exact hlit.2.2.1 h
        · exact hesc _ h
      · simp at h
  refine ⟨?_, key 63 (Or.inl rfl), key 35 (Or.inr rfl)⟩
  intro h
  have : bytes "format=json" = [] := by
    simp only [List.append_eq_nil] at h
    exact h.1.1.1
  exact hfj this

theorem escape_path_slash (t : GoString) :
    url.escape (47 :: t) .encodePath = 47 :: url.escape t .encodePath := by
  unfold url.escape
  rw [List.flatMap_cons]
  have : url.escapeByteMode .encodePath 47 = [47] := by decide
  rw [this]
  rfl

/-- The escaped path of a URL whose path, and whose raw path when one is kept, are
empty or start with a slash: it is empty or starts with a slash, holds neither `?` nor
`#`, and unescapes to the path and to nothing else. -/
theorem escapedPath_props (u : url.URL) (hP : u.Path = [] ∨ u.Path.head? = some 47)
    (hR : u.RawPath = [] ∨ u.RawPath.head? = some 47) :
    (u.EscapedPath = [] ∨ u.EscapedPath.head? = some 47)
    ∧ (∀ x ∈ u.EscapedPath, x ≠ 63 ∧ x ≠ 35)
    ∧ (∀ p, url.unescape u.EscapedPath .encodePath = some p → p = u.Path) := by
  unfold url.URL.EscapedPath
  split
  · rename_i hc
    obtain ⟨hne, hvalid, hun⟩ := hc
    refine ⟨?_, ?_, ?_⟩
    · rcases hR with hR | hR
      · exact absurd hR hne
      · exact Or.inr hR
    · intro x hx
      unfold url.validEncoded at hvalid
      rw [List.all_eq_true] at hvalid
      exact validEncoded_path_byte x (hvalid x hx)
    · intro p hp
      rw [hun] at hp
      exact (Option.some.inj hp).symm
  · split
    · rename_i hstar
      rcases hP with hP | hP
      · rw [hstar] at hP
        exact absurd hP (by decide)
      · rw [hstar] at hP
        exact absurd hP (by decide)
    · refine ⟨?_, ?_, ?_⟩
      · rcases hP with hP | hP
        · rw [hP]
          exact Or.inl rfl
        · rcases hpath : u.Path with _ | ⟨x, t⟩
          · exact Or.inl rfl
          · rw [hpath] at hP
            simp only [List.head?_cons, Option.some.injEq] at hP
            subst hP
            rw [escape_path_slash]
            exact Or.inr rfl
      · exact escape_bytes .encodePath (fun x => x ≠ 63 ∧ x ≠ 35)
          escapeByteMode_path_bytes u.Path
      · intro p hp
        obtain ⟨_, hd⟩ := unescape_some _ _ _ hp
        rw [hd]
        exact unescapeDecode_escape .encodePath .encodePath (by decide) (by decide) u.Path

theorem indexOf_le (pat s : GoString) (k : Nat) (h : url.indexOf pat s = some k) :
    k ≤ s.length := by
  induction s generalizing k with
  | nil =>
    unfold url.indexOf at h
    split at h
    · simp only [Option.some.injEq] at h
      omega
    · simp at h
  | cons c s ih =>
    unfold url.indexOf at h
    split at h
    · simp only [Option.some.injEq] at h
      omega
    · cases hi : url.indexOf pat s with
      | none => rw [hi] at h; simp at h
      | some j =>
        rw [hi] at h
        simp only [Option.map_some', Option.some.injEq] at h
        have := ih j hi
        simp only [List.length_cons]
        omega

/-- The host that `parseHost` reads from an escaped host is that host. -/
theorem parseHost_escape (H h2 : GoString)
    (h : url.parseHost (url.escape H .encodeHost) = some h2) : h2 = H := by
  have hdec : ∀ r, url.unescape (url.escape H .encodeHost) .encodeHost = some r → r = H := by
    intro r hr
    obtain ⟨_, hd⟩ := unescape_some _ _ _ hr
    rw [hd]
    exact unescapeDecode_escape .encodeHost .encodeHost (by decide) (by decide) H
  generalize hT : url.escape H .encodeHost = T at h hdec
  have hTdec : url.unescapeDecode .encodeHost T = H := by
    rw [← hT]
    exact unescapeDecode_escape .encodeHost .encodeHost (by decide) (by decide) H
  unfold url.parseHost at h
  split at h
  · cases hl : url.lastIndexByte 93 T with
    | none => rw [hl] at h; simp at h
    | some i =>
      rw [hl] at h
      simp only [] at h
      split at h
      · simp at h
      · cases hz : url.indexOf (bytes "%25") (T.take i) with
        | none =>
          rw [hz] at h
          exact hdec _ h
        | some zone =>
          rw [hz] at h
          simp only [] at h
          cases h1 : url.unescape (T.take zone) .encodeHost with
          | none => rw [h1] at h; simp at h
          | some d1 =>
            cases h2' : url.unescape ((T.take i).drop zone) .encodeZone with
            | none => rw [h1, h2'] at h; simp at h
            | some d2 =>
              cases h3 : url.unescape (T.drop i) .encodeHost with
              | none => rw [h1, h2', h3] at h; simp at h
              | some d3 =>
                rw [h1, h2', h3] at h
                simp only [Option.some.injEq] at h
                obtain ⟨c1, e1⟩ := unescape_some _ _ _ h1
                obtain ⟨c2, e2⟩ := unescape_some _ _ _ h2'
                obtain ⟨_, e3⟩ := unescape_some _ _ _ h3
                have hzi : zone ≤ i := by
                  have := indexOf_le _ _ _ hz
                  rw [List.length_take] at this
                  omega
                have hsplit : T = T.take zone ++ ((T.take i).drop zone ++ T.drop i) := by
                  have a1 : T.take zone = (T.take i).take zone := by
                    rw [List.take_take, Nat.min_eq_left hzi]
                  rw [a1, ← List.append_assoc, List.take_append_drop, List.take_append_drop]
                have e2h : d2 = url.unescapeDecode .encodeHost ((T.take i).drop zone) := by
                  rw [e2]
                  exact unescapeDecode_mode .encodeZone .encodeHost (by decide) (by decide)
                    _ _ (le_refl _)
                rw [← h, ← hTdec, e1, e2h, e3]
                conv_rhs => rw [hsplit]
                rw [unescapeDecode_append .encodeHost .encodeHost (by decide) _ _ _
                    (le_refl _) c1,
                  unescapeDecode_append .encodeZone .encodeHost (by decide) _ _ _
                    (le_refl _) c2,
                  List.append_assoc]
  · cases hl : url.lastIndexByte 58 T with
    | none =>
      rw [hl] at h
      exact hdec _ h
    | some i =>
      rw [hl] at h
      simp only [] at h
      split at h
      · simp at h
      · exact hdec _ h

theorem userinfoString_bytes (ui : GoString × Option GoString) :
    ∀ x ∈ url.userinfoString ui, x ≠ 47 ∧ x ≠ 63 ∧ x ≠ 35 ∧ x ≠ 64 := by
  intro x hx
  unfold url.userinfoString at hx
  have hesc := fun s => escape_bytes .encodeUserPassword
    (fun x => x ≠ 47 ∧ x ≠ 63 ∧ x ≠ 35 ∧ x ≠ 64) escapeByteMode_user_bytes s
  rw [List.mem_append] at hx
  rcases hx with hx | hx
  · exact hesc _ x hx
  · cases hp : ui.2 with
    | none => rw [hp] at hx; simp at hx
    | some pw =>
      rw [hp] at hx
      simp only [List.mem_cons] at hx
      rcases hx with hx | hx
      · rw [hx]; decide
      · exact hesc _ x hx

/-- The host that `parseAuthority` reads from the user, when there is one, and the
escaped host is that host. -/
theorem parseAuthority_host (user : Option (GoString × Option GoString)) (H : GoString)
    (r : Option (GoString × Option GoString) × GoString)
    (h : url.parseAuthority
        (((user.map (fun ui => url.userinfoString ui ++ [64])).getD []) ++ url.escape H .encodeHost) = some r) :
    r.2 = H := by
  have hH : (64 : Fin 256) ∉ url.escape H .encodeHost := fun hm =>
    (escape_bytes .encodeHost (fun x => x ≠ 47 ∧ x ≠ 63 ∧ x ≠ 35 ∧ x ≠ 64)
      escapeByteMode_host_bytes H 64 hm).2.2.2 rfl
  unfold url.parseAuthority at h
  cases user with
  | none =>
    simp only [Option.map_none', Option.getD_none, List.nil_append] at h
    rw [lastIndexByte_none 64 _ hH] at h
    simp only [] at h
    cases hp : url.parseHost (url.escape H .encodeHost) with
    | none => rw [hp] at h; simp at h
    | some h2 =>
      rw [hp] at h
      simp only [Option.some.injEq] at h
      rw [← h]
      exact parseHost_escape H h2 hp
  | some ui =>
    have e : url.userinfoString ui ++ [64] ++ url.escape H .encodeHost
        = url.userinfoString ui ++ 64 :: url.escape H .encodeHost := by simp
    simp only [Option.map_some', Option.getD_some] at h
    rw [e, lastIndexByte_append 64 _ _ hH] at h
    simp only [] at h
    have hdrop : (url.userinfoString ui ++ 64 :: url.escape H .encodeHost).drop
        ((url.userinfoString ui).length + 1) = url.escape H .encodeHost := by
      rw [List.drop_append_eq_append_drop]
      simp
    rw [hdrop] at h
    cases hp : url.parseHost (url.escape H .encodeHost) with
    | none => rw [hp] at h; simp at h
    | some h2 =>
      rw [hp] at h
      simp only [] at h
      have hh2 := parseHost_escape H h2 hp
      split at h
      · simp at h
      · split at h
        · split at h
          · simp at h
          · simp only [Option.some.injEq] at h
            rw [← h]
            exact hh2
        · split at h
          · simp only [Option.some.injEq] at h
            rw [← h]
            exact hh2
          · simp at h

/-- The text of a URL with a host, no opaque part and a query. -/
theorem string_shape (u : url.URL) (hO : u.Opaque = []) (hH : u.Host ≠ [])
    (hq : u.RawQuery ≠ []) (hE : u.EscapedPath = [] ∨ u.EscapedPath.head? = some 47) :
    u.String
      = ((if u.Scheme ≠ [] then u.Scheme ++ [58] else [])
          ++ ((47 :: 47 :: ((((u.User.map (fun ui => url.userinfoString ui ++ [64])).getD []) ++ url.escape u.Host .encodeHost) ++ u.EscapedPath))
              ++ 63 :: u.RawQuery))
        ++ (if u.Fragment ≠ [] then 35 :: u.EscapedFragment else []) := by
  have hb : bytes "//" = [47, 47] := by decide
  have hpath : (¬ u.EscapedPath = [] ∧ ¬ u.EscapedPath.head? = some 47) ↔ False := by
    constructor
    · intro h
      rcases hE with hE | hE
      · exact h.1 hE
      · exact h.2 hE
    · exact False.elim
  unfold url.URL.String
  cases hU : u.User <;> by_cases hS : u.Scheme = [] <;> by_cases hF : u.Fragment = [] <;>
    simp [hO, hH, hq, hpath, hb, hS, hF]

theorem escape_ne_nil (H : GoString) (m : url.encoding) (h : H ≠ []) : url.escape H m ≠ [] := by
  rcases H with _ | ⟨c, t⟩
  · exact absurd rfl h
  · unfold url.escape
    rw [List.flatMap_cons]
    intro hnil
    have h1 : url.escapeByteMode m c = [] := (List.append_eq_nil.mp hnil).1
    unfold url.escapeByteMode at h1
    split at h1
    · simp at h1
    · split at h1 <;> simp at h1

/-- The bytes of the authority, the user when there is one and the escaped host: it is
not empty and holds none of `/` `?` `#`. -/
theorem authority_bytes (user : Option (GoString × Option GoString)) (H : GoString)
    (hH : H ≠ []) :
    (((user.map (fun ui => url.userinfoString ui ++ [64])).getD []) ++ url.escape H .encodeHost) ≠ []
    ∧ ∀ x ∈ (((user.map (fun ui => url.userinfoString ui ++ [64])).getD []) ++ url.escape H .encodeHost), x ≠ 47 ∧ x ≠ 63 ∧ x ≠ 35 := by
  have hHE := escape_ne_nil H .encodeHost hH
  have hhost := escape_bytes .encodeHost (fun x => x ≠ 47 ∧ x ≠ 63 ∧ x ≠ 35 ∧ x ≠ 64)
    escapeByteMode_host_bytes H
  constructor
  · intro h
    exact hHE (List.append_eq_nil.mp h).2
  · intro x hx
    rw [List.mem_append] at hx
    rcases hx with hx | hx
    · cases user with
      | none => simp at hx
      | some ui =>
        simp only [Option.map_some', Option.getD_some, List.mem_append,
          List.mem_singleton] at hx
        rcases hx with hx | hx
        · have := userinfoString_bytes ui x hx
          exact ⟨this.1, this.2.1, this.2.2.1⟩
        · rw [hx]
          decide
    · have := hhost x hx
      exact ⟨this.1, this.2.1, this.2.2.1⟩

/-- What `parseAfterQuery` reads from `//`, the authority and the escaped path. -/
theorem parseAfterQuery_text (S q H PE : GoString)
    (user : Option (GoString × Option GoString)) (u2 : url.URL)
    (hH : H ≠ []) (hPE : PE = [] ∨ PE.head? = some 47)
    (h : url.parseAfterQuery S false q
        (47 :: 47 :: ((((user.map (fun ui => url.userinfoString ui ++ [64])).getD []) ++ url.escape H .encodeHost) ++ PE)) = some u2) :
    u2.Scheme = S ∧ u2.Host = H ∧ u2.RawQuery = q
    ∧ url.unescape PE .encodePath = some u2.Path := by
  obtain ⟨hne, hbytes⟩ := authority_bytes user H hH
  generalize hA : (((user.map (fun ui => url.userinfoString ui ++ [64])).getD []) ++ url.escape H .encodeHost) = auth at h hne hbytes
  have h47 : (47 : Fin 256) ∉ auth := fun hm => (hbytes 47 hm).1 rfl
  obtain ⟨htake, hdrop⟩ := takeWhile_ne_append auth PE h47 hPE
  have hb2 : (bytes "//").isPrefixOf (47 :: 47 :: (auth ++ PE)) = true := by
    have : bytes "//" = [47, 47] := by decide
    rw [this]
    simp [List.isPrefixOf]
  have hb3 : (bytes "///").isPrefixOf (47 :: 47 :: (auth ++ PE)) = false := by
    have : bytes "///" = [47, 47, 47] := by decide
    rw [this]
    rcases auth with _ | ⟨a, t⟩
    · exact absurd rfl hne
    · have ha : a ≠ 47 := fun ha => h47 (by simp [ha])
      simp [List.isPrefixOf, ha.symm]
  unfold url.parseAfterQuery at h
  have c1 : ¬ ((47 :: 47 :: (auth ++ PE)).head? ≠ some 47 ∧ S ≠ []) := by simp
  have c2 : ¬ ((47 :: 47 :: (auth ++ PE)).head? ≠ some 47
      ∧ 58 ∈ (cutAt 47 (47 :: 47 :: (auth ++ PE))).1) := by simp
  have c3 : (S ≠ [] ∨ ¬ (bytes "///").isPrefixOf (47 :: 47 :: (auth ++ PE)) = true)
      ∧ (bytes "//").isPrefixOf (47 :: 47 :: (auth ++ PE)) = true := by
    rw [hb3, hb2]
    simp
  rw [if_neg c1, if_neg c2, if_pos c3] at h
  have hd2 : (47 :: 47 :: (auth ++ PE)).drop 2 = auth ++ PE := rfl
  rw [hd2, htake, hdrop] at h
  cases hp : url.parseAuthority auth with
  | none => rw [hp] at h; simp at h
  | some r =>
    obtain ⟨user2, host2⟩ := r
    rw [hp] at h
    simp only [] at h
    obtain ⟨path, hpath, hu⟩ := setPath_some _ _ _ h
    have hhost : host2 = H := by
      rw [← hA] at hp
      exact parseAuthority_host user H _ hp
    subst hu
    exact ⟨rfl, hhost, rfl, hpath⟩

theorem getScheme_slash (r : GoString) : url.getScheme (47 :: r) = some ([], 47 :: r) := rfl

theorem getLast?_append_sep (a q : GoString) (c : Fin 256) (hq : q ≠ []) :
    (a ++ c :: q).getLast? = q.getLast? := by
  have e : a ++ c :: q = (a ++ [c]) ++ q := by simp
  rw [e, List.getLast?_append_of_ne_nil _ hq]

/-- What `parse` reads from the text of a URL with a host, without its fragment. -/
theorem parse_text (S q H PE : GoString)
    (user : Option (GoString × Option GoString)) (u2 : url.URL)
    (hS : S ≠ [] → url.toLower S = S
      ∧ (∀ x ∈ S, x ≠ 35 ∧ x ≠ 63 ∧ x ≠ 47)
      ∧ ∀ r, url.getScheme (S ++ 58 :: r) = some (S, r))
    (hH : H ≠ []) (hPE : PE = [] ∨ PE.head? = some 47)
    (hPEb : ∀ x ∈ PE, x ≠ 63 ∧ x ≠ 35)
    (hq : q ≠ [] ∧ (63 : Fin 256) ∉ q ∧ (35 : Fin 256) ∉ q)
    (h : url.parse ((if S ≠ [] then S ++ [58] else [])
        ++ ((47 :: 47 :: ((((user.map (fun ui => url.userinfoString ui ++ [64])).getD []) ++ url.escape H .encodeHost) ++ PE)) ++ 63 :: q)) = some u2) :
    u2.Scheme = S ∧ u2.Host = H ∧ u2.RawQuery = q
    ∧ url.unescape PE .encodePath = some u2.Path := by
  obtain ⟨hne, hbytes⟩ := authority_bytes user H hH
  have hA63 : (63 : Fin 256) ∉ (47 :: 47 :: ((((user.map (fun ui => url.userinfoString ui ++ [64])).getD []) ++ url.escape H .encodeHost) ++ PE)) := by
    intro hm
    simp only [List.mem_cons, List.mem_append] at hm
    rcases hm with hm | hm | hm | hm
    · exact absurd hm (by decide)
    · exact absurd hm (by decide)
    · exact (hbytes 63 (List.mem_append.mpr hm)).2.1 rfl
    · exact (hPEb 63 hm).1 rfl
  generalize hAdef : (47 :: 47 :: ((((user.map (fun ui => url.userinfoString ui ++ [64])).getD []) ++ url.escape H .encodeHost) ++ PE)) = A at h hA63
  have hAhead : ∃ t, A = 47 :: t := ⟨_, hAdef.symm⟩
  have hgs : url.getScheme ((if S ≠ [] then S ++ [58] else []) ++ (A ++ 63 :: q))
      = some (S, A ++ 63 :: q) ∧ url.toLower S = S := by
    by_cases hSe : S = []
    · subst hSe
      obtain ⟨t, ht⟩ := hAhead
      simp only [ne_eq, not_true_eq_false, if_false, List.nil_append]
      rw [ht]
      exact ⟨getScheme_slash _, rfl⟩
    · obtain ⟨hl, _, hg⟩ := hS hSe
      rw [if_pos hSe, List.append_assoc]
      exact ⟨hg _, hl⟩
  have hstar : ¬ ((if S ≠ [] then S ++ [58] else []) ++ (A ++ 63 :: q)) = bytes "*" := by
    intro he
    have hmem : (63 : Fin 256) ∈ (if S ≠ [] then S ++ [58] else []) ++ (A ++ 63 :: q) := by
      simp
    rw [he] at hmem
    exact absurd hmem (by decide)
  generalize ((if S ≠ [] then S ++ [58] else []) ++ (A ++ 63 :: q)) = pre at h hgs hstar
  unfold url.parse at h
  split at h
  · simp at h
  · try rw [if_neg hstar] at h
    rw [hgs.1] at h
    simp only [] at h
    have hfq : ¬ ((A ++ 63 :: q).getLast? = some 63 ∧ (A ++ 63 :: q).count 63 = 1) := by
      intro hc
      rw [getLast?_append_sep A q 63 hq.1] at hc
      exact hq.2.1 (List.mem_of_getLast?_eq_some hc.1)
    rw [if_neg hfq, cutAt_append_sep 63 A q hA63, hgs.2] at h
    rw [← hAdef] at h
    exact parseAfterQuery_text S q H PE user u2 hH hPE h

/-! ### A text that parses -/

theorem containsCTL_false (s : GoString) (h : ∀ x ∈ s, ¬ (x.val < 32 ∨ x.val = 127)) :
    url.stringContainsCTLByte s = false := by
  unfold url.stringContainsCTLByte
  rw [List.any_eq_false]
  intro x hx
  simpa using h x hx

theorem upperhex_noctl : ∀ n : Fin 16,
    ¬ ((url.upperhex n.val).val < 32 ∨ (url.upperhex n.val).val = 127) := by decide

theorem upperhex_ishex : ∀ n : Fin 16, url.ishex (url.upperhex n.val) = true := by decide

theorem shouldEscapeMode_path_noctl : ∀ c : Fin 256,
    url.shouldEscapeMode c .encodePath = false → ¬ (c.val < 32 ∨ c.val = 127) := by decide

theorem escapeByteMode_path_noctl (c x : Fin 256)
    (hx : x ∈ url.escapeByteMode .encodePath c) : ¬ (x.val < 32 ∨ x.val = 127) := by
  rcases escapeByteMode_mem _ _ _ hx with h | h | ⟨n, h⟩ | ⟨h, hs⟩
  · subst h; decide
  · subst h; decide
  · rw [h]; exact upperhex_noctl n
  · rw [h]; exact shouldEscapeMode_path_noctl c hs

theorem validEncoded_path_noctl : ∀ c : Fin 256,
    (decide (c.val ∈ [33, 36, 38, 39, 40, 41, 42, 43, 44, 59, 61, 58, 64, 91, 93, 37])
      || !url.shouldEscapeMode c .encodePath) = true → ¬ (c.val < 32 ∨ c.val = 127) := by
  decide

/-- The escaped path holds no control byte. -/
theorem escapedPath_noctl (u : url.URL) :
    ∀ x ∈ u.EscapedPath, ¬ (x.val < 32 ∨ x.val = 127) := by
  unfold url.URL.EscapedPath
  split
  · rename_i hc
    obtain ⟨_, hvalid, _⟩ := hc
    intro x hx
    unfold url.validEncoded at hvalid
    rw [List.all_eq_true] at hvalid
    exact validEncoded_path_noctl x (hvalid x hx)
  · split
    · decide
    · exact escape_bytes .encodePath (fun x => ¬ (x.val < 32 ∨ x.val = 127))
        escapeByteMode_path_noctl u.Path

theorem escapeByte_noctl : ∀ c : Fin 256,
    (url.escapeByte c).all (fun x => decide (¬ (x.val < 32 ∨ x.val = 127))) = true := by
  decide

theorem queryEscape_noctl (s : GoString) :
    ∀ x ∈ url.QueryEscape s, ¬ (x.val < 32 ∨ x.val = 127) := by
  intro x hx
  unfold url.QueryEscape at hx
  rw [List.mem_flatMap] at hx
  obtain ⟨c, _, hc⟩ := hx
  have h := escapeByte_noctl c
  rw [List.all_eq_true] at h
  exact of_decide_eq_true (h x hc)

/-- The encoded request holds no control byte. -/
theorem encode_noctl (m : MetricRequest) :
    ∀ x ∈ m.Encode, ¬ (x.val < 32 ∨ x.val = 127) := by
  rw [encode_eq]
  have hlit : (∀ x ∈ bytes "format=json", ¬ (x.val < 32 ∨ x.val = 127))
      ∧ (∀ x ∈ bytes "&from=", ¬ (x.val < 32 ∨ x.val = 127))
      ∧ (∀ x ∈ bytes "&until=", ¬ (x.val < 32 ∨ x.val = 127))
      ∧ (∀ x ∈ bytes "&target=", ¬ (x.val < 32 ∨ x.val = 127)) := by decide
  intro x h
  simp only [List.mem_append] at h
  rcases h with ((h | h) | h) | h
  · exact hlit.1 x h
  · unfold fromParam at h
    split at h
    · rw [List.mem_append] at h
      rcases h with h | h
      · exact hlit.2.1 x h
      · exact queryEscape_noctl _ x h
    · simp at h
  · unfold targetParams at h
    rw [List.mem_flatMap] at h
    obtain ⟨t, _, ht⟩ := h
    rw [List.mem_append] at ht
    rcases ht with ht | ht
    · exact hlit.2.2.2 x ht
    · exact queryEscape_noctl _ x ht
  · unfold untilParam at h
    split at h
    · rw [List.mem_append] at h
      rcases h with h | h
      · exact hlit.2.2.1 x h
      · exact queryEscape_noctl _ x h
    · simp at h

/-- A scheme that `getScheme` reads back holds no control byte. -/
theorem scheme_noctl (S : GoString) (hne : S ≠ [])
    (h : url.getScheme (S ++ 58 :: []) = some (S, [])) :
    ∀ x ∈ S, ¬ (x.val < 32 ∨ x.val = 127) := by
  unfold url.getScheme at h
  cases hl : url.getSchemeLoop true (S ++ 58 :: []) with
  | none => rw [hl] at h; simp at h
  | some o =>
    rw [hl] at h
    cases o with
    | none =>
      simp only [Option.some.injEq, Prod.mk.injEq] at h
      exact absurd h.1.symm hne
    | some r =>
      simp only [Option.some.injEq] at h
      subst h
      obtain ⟨hc, _⟩ := getSchemeLoop_inv _ _ _ _ hl
      intro x hx
      have := hc x hx
      omega

theorem cutAt_spec (sep : Fin 256) (s : GoString) :
    (sep ∉ s ∧ cutAt sep s = (s, []))
    ∨ (s = (cutAt sep s).1 ++ sep :: (cutAt sep s).2 ∧ sep ∉ (cutAt sep s).1) := by
  induction s with
  | nil => exact Or.inl ⟨by simp, rfl⟩
  | cons c s ih =>
    by_cases hc : c = sep
    · right
      subst hc
      simp [cutAt]
    · rcases ih with ⟨h1, h2⟩ | ⟨h1, h2⟩
      · left
        refine ⟨?_, ?_⟩
        · intro hm
          rcases List.mem_cons.mp hm with hm | hm
          · exact hc hm.symm
          · exact h1 hm
        · simp only [cutAt, if_neg hc, h2]
      · right
        simp only [cutAt, if_neg hc]
        refine ⟨?_, ?_⟩
        · rw [List.cons_append, ← h1]
        · intro hm
          rcases List.mem_cons.mp hm with hm | hm
          · exact hc hm.symm
          · exact h2 hm

theorem plainHostByte_props : ∀ c : Fin 256,
    ((97 ≤ c.val ∧ c.val ≤ 122) ∨ (65 ≤ c.val ∧ c.val ≤ 90) ∨ (48 ≤ c.val ∧ c.val ≤ 57)
      ∨ c.val = 46 ∨ c.val = 45 ∨ c.val = 58) →
    url.escapeByteMode .encodeHost c = [c] ∧ ¬ (c.val < 32 ∨ c.val = 127) ∧ c ≠ 64
      ∧ c ≠ 91 ∧ c.val ≠ 37 ∧ c.val ≠ 43 ∧ c.val < 128
      ∧ url.shouldEscapeMode c .encodeHost = false := by decide

/-- The bytes of a plain host: letters, digits, `.`, `-` and `:`; and after its last
colon, if it has one, there are only digits. -/
theorem isPlainHost_bytes (H : GoString) (h : isPlainHost H = true) :
    (∀ c ∈ H, (97 ≤ c.val ∧ c.val ≤ 122) ∨ (65 ≤ c.val ∧ c.val ≤ 90)
        ∨ (48 ≤ c.val ∧ c.val ≤ 57) ∨ c.val = 46 ∨ c.val = 45 ∨ c.val = 58)
    ∧ (∀ i, url.lastIndexByte 58 H = some i → url.validOptionalPort (H.drop i) = true) := by
  unfold isPlainHost at h
  rw [Bool.and_eq_true, List.all_eq_true, List.all_eq_true] at h
  obtain ⟨h1, h2⟩ := h
  rcases cutAt_spec 58 H with ⟨hno, hc⟩ | ⟨hc, hno⟩
  · rw [hc] at h1
    refine ⟨?_, ?_⟩
    · intro c hcm
      have := of_decide_eq_true (h1 c hcm)
      omega
    · intro i hi
      rw [lastIndexByte_none 58 H hno] at hi
      simp at hi
  · generalize (cutAt 58 H).1 = name at h1 hc hno
    generalize (cutAt 58 H).2 = port at h2 hc
    have hport : (58 : Fin 256) ∉ port := by
      intro hm
      have := of_decide_eq_true (h2 58 hm)
      revert this
      decide
    refine ⟨?_, ?_⟩
    · intro c hcm
      rw [hc] at hcm
      rcases List.mem_append.mp hcm with hm | hm
      · have := of_decide_eq_true (h1 c hm)
        omega
      · rcases List.mem_cons.mp hm with hm | hm
        · subst hm
          decide
        · have := of_decide_eq_true (h2 c hm)
          omega
    · intro i hi
      rw [hc, lastIndexByte_append 58 name port hport] at hi
      simp only [Option.some.injEq] at hi
      subst hi
      rw [hc, List.drop_left]
      unfold url.validOptionalPort
      simp only [Bool.and_eq_true, decide_eq_true_eq]
      exact ⟨rfl, List.all_eq_true.mpr h2⟩

theorem escape_plain (H : GoString)
    (h : ∀ c ∈ H, (97 ≤ c.val ∧ c.val ≤ 122) ∨ (65 ≤ c.val ∧ c.val ≤ 90)
        ∨ (48 ≤ c.val ∧ c.val ≤ 57) ∨ c.val = 46 ∨ c.val = 45 ∨ c.val = 58) :
    url.escape H .encodeHost = H := by
  induction H with
  | nil => rfl
  | cons c t ih =>
    unfold url.escape
    rw [List.flatMap_cons, (plainHostByte_props c (h c (List.mem_cons_self _ _))).1]
    have := ih (fun x hx => h x (List.mem_cons_of_mem _ hx))
    unfold url.escape at this
    rw [this]
    rfl

theorem unescape_plain (H : GoString)
    (h : ∀ c ∈ H, (97 ≤ c.val ∧ c.val ≤ 122) ∨ (65 ≤ c.val ∧ c.val ≤ 90)
        ∨ (48 ≤ c.val ∧ c.val ≤ 57) ∨ c.val = 46 ∨ c.val = 45 ∨ c.val = 58) :
    url.unescape H .encodeHost = some H := by
  have key : url.unescapeCheck .encodeHost H = true ∧ url.unescapeDecode .encodeHost H = H := by
    induction H with
    | nil => exact ⟨rfl, rfl⟩
    | cons c t ih =>
      obtain ⟨_, _, _, _, h37, h43, _, hs⟩ := plainHostByte_props c (h c (List.mem_cons_self _ _))
      obtain ⟨i1, i2⟩ := ih (fun x hx => h x (List.mem_cons_of_mem _ hx))
      refine ⟨?_, ?_⟩
      · unfold url.unescapeCheck
        rw [if_neg h37, if_neg h43, hs]
        simpa using i1
      · rw [unescapeDecode_plain .encodeHost (by decide) c t h37, i2]
  unfold url.unescape
  rw [key.1, key.2]
  rfl

/-- A plain host is read back by `parseHost` as it stands. -/
theorem parseHost_plain (H : GoString) (h : isPlainHost H = true) :
    url.parseHost H = some H := by
  obtain ⟨hb, hport⟩ := isPlainHost_bytes H h
  have hhead : ¬ H.head? = some 91 := by
    intro hh
    rcases H with _ | ⟨c, t⟩
    · simp at hh
    · simp only [List.head?_cons, Option.some.injEq] at hh
      exact (plainHostByte_props c (hb c (List.mem_cons_self _ _))).2.2.2.1 hh
  unfold url.parseHost
  rw [if_neg hhead]
  cases hl : url.lastIndexByte 58 H with
  | none => exact unescape_plain H hb
  | some i =>
    simp only []
    have := hport i hl
    rw [this]
    simp only [not_true_eq_false, if_false]
    exact unescape_plain H hb

/-- The authority of a URL with a plain host and no user is read back as it stands. -/
theorem parseAuthority_plain (H : GoString) (h : isPlainHost H = true) :
    url.parseAuthority H = some (none, H) := by
  obtain ⟨hb, _⟩ := isPlainHost_bytes H h
  have h64 : (64 : Fin 256) ∉ H := fun hm =>
    (plainHostByte_props 64 (hb 64 hm)).2.2.1 rfl
  unfold url.parseAuthority
  rw [lastIndexByte_none 64 H h64]
  simp only []
  rw [parseHost_plain H h]

theorem unescapeCheck_cons_percent (m : url.encoding) (hm1 : m ≠ .encodeHost)
    (hm2 : m ≠ .encodeZone) (a b : Fin 256) (r : GoString) (ha : url.ishex a = true)
    (hb : url.ishex b = true) :
    url.unescapeCheck m (37 :: a :: b :: r) = url.unescapeCheck m r := by
  have e : url.unescapeCheck m (37 :: a :: b :: r)
      = (url.ishex a && url.ishex b
          && !(decide (m = .encodeHost ∧ url.unhex a < 8 ∧ ¬ (a.val = 50 ∧ b.val = 53)))
          && !(decide (m = .encodeZone ∧ ¬ (a.val = 50 ∧ b.val = 53)
                ∧ url.unhex a * 16 + url.unhex b ≠ 32
                ∧ url.shouldEscapeMode (Fin.ofNat (url.unhex a * 16 + url.unhex b))
                    .encodeHost = true))
          && url.unescapeCheck m r) := rfl
  rw [e, ha, hb]
  simp [hm1, hm2]

theorem unescapeCheck_cons_plain (m : url.encoding) (hm1 : m ≠ .encodeHost)
    (hm2 : m ≠ .encodeZone) (c : Fin 256) (r : GoString) (hc : c.val ≠ 37) :
    url.unescapeCheck m (c :: r) = url.unescapeCheck m r := by
  rcases r with _ | ⟨a, _ | ⟨b, r⟩⟩ <;> by_cases h43 : c.val = 43 <;>
    simp [url.unescapeCheck, hc, h43, hm1, hm2]

/-- What `escape` writes for a path, a fragment or user information passes the check of
`unescape`. -/
theorem unescapeCheck_escape (m : url.encoding) (hm1 : m ≠ .encodeHost)
    (hm2 : m ≠ .encodeZone) (hm3 : m ≠ .encodeQueryComponent) (s : GoString) :
    url.unescapeCheck m (url.escape s m) = true := by
  induction s with
  | nil => rfl
  | cons c t ih =>
    unfold url.escape at ih ⊢
    rw [List.flatMap_cons]
    rcases escapeByteMode_cases m hm3 c with ⟨h, _⟩ | ⟨h, hc⟩
    · rw [h]
      have h1 : c.val / 16 < 16 := by have := c.isLt; omega
      have h2 : c.val % 16 < 16 := by omega
      simp only [List.cons_append, List.nil_append]
      rw [unescapeCheck_cons_percent m hm1 hm2 _ _ _ (upperhex_ishex ⟨c.val / 16, h1⟩)
        (upperhex_ishex ⟨c.val % 16, h2⟩)]
      exact ih
    · rw [h]
      simp only [List.cons_append, List.nil_append]
      rw [unescapeCheck_cons_plain m hm1 hm2 c _ hc]
      exact ih

theorem unescape_escape (m : url.encoding) (hm1 : m ≠ .encodeHost)
    (hm2 : m ≠ .encodeZone) (hm3 : m ≠ .encodeQueryComponent) (s : GoString) :
    url.unescape (url.escape s m) m = some s := by
  unfold url.unescape
  rw [unescapeCheck_escape m hm1 hm2 hm3 s, unescapeDecode_escape m m hm3 hm3 s]
  rfl

/-- The escaped path unescapes to the path. -/
theorem escapedPath_unescape (u : url.URL) (hP : u.Path = [] ∨ u.Path.head? = some 47) :
    url.unescape u.EscapedPath .encodePath = some u.Path := by
  unfold url.URL.EscapedPath
  split
  · rename_i hc
    exact hc.2.2
  · split
    · rename_i hstar
      rcases hP with hP | hP
      · rw [hstar] at hP
        exact absurd hP (by decide)
      · rw [hstar] at hP
        exact absurd hP (by decide)
    · exact unescape_escape .encodePath (by decide) (by decide) (by decide) u.Path

/-- The escaped fragment unescapes to the fragment. -/
theorem escapedFragment_unescape (u : url.URL) :
    url.unescape u.EscapedFragment .encodeFragment = some u.Fragment := by
  unfold url.URL.EscapedFragment
  split
  · rename_i hc
    exact hc.2.2
  · exact unescape_escape .encodeFragment (by decide) (by decide) (by decide) u.Fragment

theorem upperhex_user : ∀ n : Fin 16, url.upperhex n.val ≠ 58
    ∧ url.validUserinfo [url.upperhex n.val] = true := by decide

theorem shouldEscapeMode_user_props : ∀ c : Fin 256,
    url.shouldEscapeMode c .encodeUserPassword = false →
      ¬ (c.val < 32 ∨ c.val = 127) ∧ c ≠ 58 ∧ url.validUserinfo [c] = true := by decide

theorem escapeByteMode_user_props (c x : Fin 256)
    (hx : x ∈ url.escapeByteMode .encodeUserPassword c) :
    ¬ (x.val < 32 ∨ x.val = 127) ∧ x ≠ 58 ∧ url.validUserinfo [x] = true := by
  rcases escapeByteMode_mem _ _ _ hx with h | h | ⟨n, h⟩ | ⟨h, hs⟩
  · subst h; decide
  · subst h; decide
  · rw [h]; exact ⟨upperhex_noctl n, (upperhex_user n).1, (upperhex_user n).2⟩
  · rw [h]; exact shouldEscapeMode_user_props c hs

theorem validUserinfo_iff (s : GoString) :
    url.validUserinfo s = true ↔ ∀ x ∈ s, url.validUserinfo [x] = true := by
  unfold url.validUserinfo
  simp only [List.all_eq_true, List.all_cons, List.all_nil, Bool.and_true]

/-- The text of the user information holds no control byte and is valid user
information. -/
theorem userinfoString_props (ui : GoString × Option GoString) :
    (∀ x ∈ url.userinfoString ui, ¬ (x.val < 32 ∨ x.val = 127))
    ∧ url.validUserinfo (url.userinfoString ui) = true := by
  have hesc := fun s => escape_bytes .encodeUserPassword
    (fun x => ¬ (x.val < 32 ∨ x.val = 127) ∧ x ≠ 58 ∧ url.validUserinfo [x] = true)
    escapeByteMode_user_props s
  have key : ∀ x ∈ url.userinfoString ui,
      ¬ (x.val < 32 ∨ x.val = 127) ∧ url.validUserinfo [x] = true := by
    intro x hx
    unfold url.userinfoString at hx
    rw [List.mem_append] at hx
    rcases hx with hx | hx
    · exact ⟨(hesc _ x hx).1, (hesc _ x hx).2.2⟩
    · cases hp : ui.2 with
      | none => rw [hp] at hx; simp at hx
      | some pw =>
        rw [hp] at hx
        simp only [List.mem_cons] at hx
        rcases hx with hx | hx
        · subst hx
          decide
        · exact ⟨(hesc _ x hx).1, (hesc _ x hx).2.2⟩
  exact ⟨fun x hx => (key x hx).1, (validUserinfo_iff _).mpr (fun x hx => (key x hx).2)⟩

/-- The authority that `(*URL).String` writes for a plain host, with or without a user,
is read back by `parseAuthority` as the user and the host. -/
theorem parseAuthority_text (user : Option (GoString × Option GoString)) (H : GoString)
    (h : isPlainHost H = true) :
    url.parseAuthority
        (((user.map (fun ui => url.userinfoString ui ++ [64])).getD [])
          ++ url.escape H .encodeHost) = some (user, H) := by
  obtain ⟨hb, _⟩ := isPlainHost_bytes H h
  rw [escape_plain H hb]
  cases user with
  | none =>
    simp only [Option.map_none', Option.getD_none, List.nil_append]
    exact parseAuthority_plain H h
  | some ui =>
    obtain ⟨name, pw⟩ := ui
    simp only [Option.map_some', Option.getD_some]
    have h64 : (64 : Fin 256) ∉ H := fun hm =>
      (plainHostByte_props 64 (hb 64 hm)).2.2.1 rfl
    have hvalid := (userinfoString_props (name, pw)).2
    have hesc := fun s => escape_bytes .encodeUserPassword
      (fun x => ¬ (x.val < 32 ∨ x.val = 127) ∧ x ≠ 58 ∧ url.validUserinfo [x] = true)
      escapeByteMode_user_props s
    have h58 : ∀ s, (58 : Fin 256) ∉ url.escape s .encodeUserPassword :=
      fun s hm => (hesc s 58 hm).2.1 rfl
    have hun := fun s => unescape_escape .encodeUserPassword (by decide) (by decide)
      (by decide) s
    generalize hU : url.userinfoString (name, pw) = U at hvalid
    have e : (U ++ [64]) ++ H = U ++ 64 :: H := by simp
    rw [e]
    unfold url.parseAuthority
    rw [lastIndexByte_append 64 U H h64]
    simp only []
    have hd : (U ++ 64 :: H).drop (U.length + 1) = H := by simp
    have ht : (U ++ 64 :: H).take U.length = U := by simp
    rw [hd, ht, parseHost_plain H h]
    simp only [hvalid, not_true_eq_false, if_false]
    cases pw with
    | none =>
      have hU2 : U = url.escape name .encodeUserPassword := by
        rw [← hU]
        unfold url.userinfoString
        simp
      rw [if_pos (by rw [hU2]; exact h58 name), hU2, hun name]
    | some p =>
      have hU2 : U = url.escape name .encodeUserPassword
          ++ 58 :: url.escape p .encodeUserPassword := by
        rw [← hU]
        unfold url.userinfoString
        simp
      have hin : ¬ (58 : Fin 256) ∉ U := by
        rw [hU2]
        simp
      rw [if_neg hin, hU2, cutAt_append_sep 58 _ _ (h58 name)]
      simp only []
      rw [hun name, hun p]

/-- What `parseAfterQuery` does with `//`, an authority and the escaped path. -/
theorem parseAfterQuery_authority (S q auth PE : GoString)
    (user : Option (GoString × Option GoString)) (host : GoString)
    (hne : auth ≠ []) (h47 : (47 : Fin 256) ∉ auth) (hPE : PE = [] ∨ PE.head? = some 47)
    (hp : url.parseAuthority auth = some (user, host)) :
    url.parseAfterQuery S false q (47 :: 47 :: (auth ++ PE))
      = url.URL.setPath ⟨S, [], user, host, [], [], false, false, q, [], []⟩ PE := by
  obtain ⟨htake, hdrop⟩ := takeWhile_ne_append auth PE h47 hPE
  have hb2 : (bytes "//").isPrefixOf (47 :: 47 :: (auth ++ PE)) = true := by
    have : bytes "//" = [47, 47] := by decide
    rw [this]
    simp [List.isPrefixOf]
  have hb3 : (bytes "///").isPrefixOf (47 :: 47 :: (auth ++ PE)) = false := by
    have : bytes "///" = [47, 47, 47] := by decide
    rw [this]
    rcases auth with _ | ⟨a, t⟩
    · exact absurd rfl hne
    · have ha : a ≠ 47 := fun ha => h47 (by simp [ha])
      simp [List.isPrefixOf, ha.symm]
  unfold url.parseAfterQuery
  have c1 : ¬ ((47 :: 47 :: (auth ++ PE)).head? ≠ some 47 ∧ S ≠ []) := by simp
  have c2 : ¬ ((47 :: 47 :: (auth ++ PE)).head? ≠ some 47
      ∧ 58 ∈ (cutAt 47 (47 :: 47 :: (auth ++ PE))).1) := by simp
  have c3 : (S ≠ [] ∨ ¬ (bytes "///").isPrefixOf (47 :: 47 :: (auth ++ PE)) = true)
      ∧ (bytes "//").isPrefixOf (47 :: 47 :: (auth ++ PE)) = true := by
    rw [hb3, hb2]
    simp
  rw [if_neg c1, if_neg c2, if_pos c3]
  have hd2 : (47 :: 47 :: (auth ++ PE)).drop 2 = auth ++ PE := rfl
  rw [hd2, htake, hdrop, hp]

/-- What `parse` does with a text without control bytes that is a scheme, a part that
starts with a slash and has no `?`, and a query. -/
theorem parse_authority (S q A : GoString)
    (hS : S ≠ [] → url.toLower S = S
      ∧ (∀ x ∈ S, x ≠ 35 ∧ x ≠ 63 ∧ x ≠ 47)
      ∧ ∀ r, url.getScheme (S ++ 58 :: r) = some (S, r))
    (hA : ∃ t, A = 47 :: t) (hA63 : (63 : Fin 256) ∉ A)
    (hq : q ≠ [] ∧ (63 : Fin 256) ∉ q)
    (hctl : url.stringContainsCTLByte
      ((if S ≠ [] then S ++ [58] else []) ++ (A ++ 63 :: q)) = false) :
    url.parse ((if S ≠ [] then S ++ [58] else []) ++ (A ++ 63 :: q))
      = url.parseAfterQuery S false q A := by
  have hgs : url.getScheme ((if S ≠ [] then S ++ [58] else []) ++ (A ++ 63 :: q))
      = some (S, A ++ 63 :: q) ∧ url.toLower S = S := by
    by_cases hSe : S = []
    · subst hSe
      obtain ⟨t, ht⟩ := hA
      simp only [ne_eq, not_true_eq_false, if_false, List.nil_append]
      rw [ht]
      exact ⟨getScheme_slash _, rfl⟩
    · obtain ⟨hl, _, hg⟩ := hS hSe
      rw [if_pos hSe, List.append_assoc]
      exact ⟨hg _, hl⟩
  have hstar : ¬ ((if S ≠ [] then S ++ [58] else []) ++ (A ++ 63 :: q)) = bytes "*" := by
    intro he
    have hmem : (63 : Fin 256) ∈ (if S ≠ [] then S ++ [58] else []) ++ (A ++ 63 :: q) := by
      simp
    rw [he] at hmem
    exact absurd hmem (by decide)
  generalize ((if S ≠ [] then S ++ [58] else []) ++ (A ++ 63 :: q)) = pre at hgs hstar hctl ⊢
  unfold url.parse
  rw [hctl]
  simp only [Bool.false_eq_true, if_false]
  rw [if_neg hstar, hgs.1]
  simp only []
  have hfq : ¬ ((A ++ 63 :: q).getLast? = some 63 ∧ (A ++ 63 :: q).count 63 = 1) := by
    intro hc
    rw [getLast?_append_sep A q 63 hq.1] at hc
    exact hq.2 (List.mem_of_getLast?_eq_some hc.1)
  rw [if_neg hfq, cutAt_append_sep 63 A q hA63, hgs.2]

/-! ### The request that `Fetch` sends -/

/-- What `http.NewRequest` reads back from the text of a base URL with a host, with its
query replaced by the encoded request: the scheme, the path and the query as they
are, and the host without an empty port. -/
theorem newRequest_url (u0 : url.URL) (s0 : GoString) (mr : MetricRequest)
    (req : http.Request) (hparse : url.Parse s0 = .ok u0) (hhost : u0.Host ≠ [])
    (h : http.NewRequest (bytes "GET")
        (url.URL.String { u0 with RawQuery := mr.Encode }) = .ok req) :
    req.Method = bytes "GET" ∧ req.URL.Scheme = u0.Scheme
    ∧ req.URL.Host = http.removeEmptyPort u0.Host
    ∧ req.URL.Path = u0.Path ∧ req.URL.RawQuery = mr.Encode := by
  obtain ⟨hS, hO, hP, hR⟩ := Parse_inv s0 u0 hparse hhost
  obtain ⟨hE1, hE2, hE3⟩ := escapedPath_props u0 hP hR
  obtain ⟨hq1, hq2, hq3⟩ := encode_bytes mr
  have hshape := string_shape { u0 with RawQuery := mr.Encode } hO hhost hq1 hE1
  have hEP : url.URL.EscapedPath { u0 with RawQuery := mr.Encode } = u0.EscapedPath := rfl
  simp only [hEP] at hshape
  obtain ⟨_, hauth⟩ := authority_bytes u0.User u0.Host hhost
  generalize hpre : ((if u0.Scheme ≠ [] then u0.Scheme ++ [58] else [])
      ++ ((47 :: 47 :: ((((u0.User.map (fun ui => url.userinfoString ui ++ [64])).getD [])
            ++ url.escape u0.Host .encodeHost) ++ u0.EscapedPath))
          ++ 63 :: mr.Encode)) = pre at hshape
  have hpre35 : (35 : Fin 256) ∉ pre := by
    rw [← hpre]
    intro hm
    simp only [List.mem_append, List.mem_cons] at hm
    rcases hm with hm | ((hm | hm | (hm | hm) | hm) | hm | hm)
    · by_cases hSe : u0.Scheme = []
      · simp [hSe] at hm
      · rw [if_pos hSe] at hm
        simp only [List.mem_append, List.mem_singleton] at hm
        rcases hm with hm | hm
        · exact ((hS hSe).2.1 35 hm).1 rfl
        · exact absurd hm (by decide)
    · exact absurd hm (by decide)
    · exact absurd hm (by decide)
    · exact (hauth 35 (List.mem_append_left _ hm)).2.2 rfl
    · exact (hauth 35 (List.mem_append_right _ hm)).2.2 rfl
    · exact (hE2 35 hm).2 rfl
    · exact absurd hm (by decide)
    · exact hq3 hm
  have hparse2 : ∀ u2, url.parse pre = some u2 →
      u2.Scheme = u0.Scheme ∧ u2.Host = u0.Host ∧ u2.RawQuery = mr.Encode
      ∧ u2.Path = u0.Path := by
    intro u2 h2
    rw [← hpre] at h2
    obtain ⟨a1, a2, a3, a4⟩ := parse_text u0.Scheme mr.Encode u0.Host u0.EscapedPath u0.User
      u2 hS hhost hE1 hE2 ⟨hq1, hq2, hq3⟩ h2
    exact ⟨a1, a2, a3, (hE3 _ a4)⟩
  have hParse : ∀ u3, url.Parse (url.URL.String { u0 with RawQuery := mr.Encode }) = .ok u3 →
      u3.Scheme = u0.Scheme ∧ u3.Host = u0.Host ∧ u3.RawQuery = mr.Encode
      ∧ u3.Path = u0.Path := by
    intro u3 h3
    rw [hshape] at h3
    have hcut : (cutAt 35 (pre ++ if u0.Fragment ≠ [] then
          35 :: url.URL.EscapedFragment { u0 with RawQuery := mr.Encode } else [])).1 = pre := by
      by_cases hF : u0.Fragment = []
      · simp only [hF, ne_eq, not_true_eq_false, if_false, List.append_nil]
        rw [cutAt_no_sep 35 pre hpre35]
      · rw [if_pos hF, cutAt_append_sep 35 pre _ hpre35]
    unfold url.Parse at h3
    rw [hcut] at h3
    generalize (cutAt 35 (pre ++ if u0.Fragment ≠ [] then
      35 :: url.URL.EscapedFragment { u0 with RawQuery := mr.Encode } else [])).2 = frag at h3
    cases hp : url.parse pre with
    | none => rw [hp] at h3; simp at h3
    | some u2 =>
      rw [hp] at h3
      simp only [] at h3
      have hf := hparse2 u2 hp
      by_cases hfe : frag = []
      · rw [if_pos hfe, Except.ok.injEq] at h3
        rw [← h3]
        exact hf
      · rw [if_neg hfe] at h3
        cases hset : u2.setFragment frag with
        | none => rw [hset] at h3; simp at h3
        | some u4 =>
          rw [hset] at h3
          simp only [Except.ok.injEq] at h3
          obtain ⟨e1, _, _, e4, e5, _, _, e8⟩ := setFragment_some _ _ _ hset
          rw [← h3, e1, e4, e5, e8]
          exact hf
  unfold http.NewRequest at h
  have hm : (if bytes "GET" = [] then bytes "GET" else bytes "GET") = bytes "GET" := by decide
  have hv : ¬ ¬ http.validMethod (bytes "GET") = true := by decide
  simp only [hm] at h
  rw [if_neg hv] at h
  cases hP3 : url.Parse (url.URL.String { u0 with RawQuery := mr.Encode }) with
  | error e => rw [hP3] at h; simp at h
  | ok u3 =>
    rw [hP3] at h
    simp only [Except.ok.injEq] at h
    obtain ⟨f1, f2, f3, f4⟩ := hParse u3 hP3
    rw [← h]
    exact ⟨rfl, f1, by show http.removeEmptyPort u3.Host = _; rw [f2], f4, f3⟩

/-- The text of a base URL with a plain host, with its query replaced by the encoded
request, is a text from which `http.NewRequest` builds a request. -/
theorem newRequest_ok (u0 : url.URL) (s0 : GoString) (mr : MetricRequest)
    (hparse : url.Parse s0 = .ok u0) (hhost : u0.Host ≠ [])
    (hplain : isPlainHost u0.Host = true) :
    ∃ req, http.NewRequest (bytes "GET")
      (url.URL.String { u0 with RawQuery := mr.Encode }) = .ok req := by
  obtain ⟨hS, hO, hP, hR⟩ := Parse_inv s0 u0 hparse hhost
  obtain ⟨hE1, hE2, _⟩ := escapedPath_props u0 hP hR
  obtain ⟨hq1, hq2, hq3⟩ := encode_bytes mr
  obtain ⟨hb, _⟩ := isPlainHost_bytes u0.Host hplain
  have hshape := string_shape { u0 with RawQuery := mr.Encode } hO hhost hq1 hE1
  have hEP : url.URL.EscapedPath { u0 with RawQuery := mr.Encode } = u0.EscapedPath := rfl
  have hEF : url.URL.EscapedFragment { u0 with RawQuery := mr.Encode } = u0.EscapedFragment :=
    rfl
  simp only [hEP, hEF] at hshape
  obtain ⟨hane, hauth⟩ := authority_bytes u0.User u0.Host hhost
  have hpa := parseAuthority_text u0.User u0.Host hplain
  have hauthctl : ∀ x ∈ (((u0.User.map (fun ui => url.userinfoString ui ++ [64])).getD [])
      ++ url.escape u0.Host .encodeHost), ¬ (x.val < 32 ∨ x.val = 127) := by
    intro x hx
    rw [escape_plain u0.Host hb, List.mem_append] at hx
    rcases hx with hx | hx
    · cases hU : u0.User with
      | none => rw [hU] at hx; simp at hx
      | some ui =>
        rw [hU] at hx
        simp only [Option.map_some', Option.getD_some, List.mem_append,
          List.mem_singleton] at hx
        rcases hx with hx | hx
        · exact (userinfoString_props ui).1 x hx
        · subst hx
          decide
    · exact (plainHostByte_props x (hb x hx)).2.1
  generalize hauthdef : (((u0.User.map (fun ui => url.userinfoString ui ++ [64])).getD [])
      ++ url.escape u0.Host .encodeHost) = auth at hshape hane hauth hpa hauthctl
  have hSctl : ∀ x ∈ (if u0.Scheme ≠ [] then u0.Scheme ++ [58] else []),
      ¬ (x.val < 32 ∨ x.val = 127) := by
    intro x hx
    by_cases hSe : u0.Scheme = []
    · simp [hSe] at hx
    · rw [if_pos hSe, List.mem_append, List.mem_singleton] at hx
      rcases hx with hx | hx
      · exact scheme_noctl u0.Scheme hSe ((hS hSe).2.2 []) x hx
      · subst hx
        decide
  have hA63 : (63 : Fin 256) ∉ (47 :: 47 :: (auth ++ u0.EscapedPath)) := by
    intro hm
    simp only [List.mem_cons, List.mem_append] at hm
    rcases hm with hm | hm | hm | hm
    · exact absurd hm (by decide)
    · exact absurd hm (by decide)
    · exact (hauth 63 hm).2.1 rfl
    · exact (hE2 63 hm).1 rfl
  have hctl : url.stringContainsCTLByte
      ((if u0.Scheme ≠ [] then u0.Scheme ++ [58] else [])
        ++ ((47 :: 47 :: (auth ++ u0.EscapedPath)) ++ 63 :: mr.Encode)) = false := by
    apply containsCTL_false
    intro x hx
    simp only [List.mem_append, List.mem_cons] at hx
    rcases hx with hx | ((hx | hx | hx | hx) | hx | hx)
    · exact hSctl x hx
    · subst hx; decide
    · subst hx; decide
    · exact hauthctl x hx
    · exact escapedPath_noctl u0 x hx
    · subst hx; decide
    · exact encode_noctl mr x hx
  have hparse1 := parse_authority u0.Scheme mr.Encode (47 :: 47 :: (auth ++ u0.EscapedPath))
    hS ⟨_, rfl⟩ hA63 ⟨hq1, hq2⟩ hctl
  have h47 : (47 : Fin 256) ∉ auth := fun hm => (hauth 47 hm).1 rfl
  rw [parseAfterQuery_authority u0.Scheme mr.Encode auth u0.EscapedPath u0.User u0.Host
    hane h47 hE1 hpa] at hparse1
  have hpre35 : (35 : Fin 256) ∉ ((if u0.Scheme ≠ [] then u0.Scheme ++ [58] else [])
      ++ ((47 :: 47 :: (auth ++ u0.EscapedPath)) ++ 63 :: mr.Encode)) := by
    intro hm
    simp only [List.mem_append, List.mem_cons] at hm
    rcases hm with hm | ((hm | hm | hm | hm) | hm | hm)
    · by_cases hSe : u0.Scheme = []
      · simp [hSe] at hm
      · rw [if_pos hSe] at hm
        simp only [List.mem_append, List.mem_singleton] at hm
        rcases hm with hm | hm
        · exact ((hS hSe).2.1 35 hm).1 rfl
        · exact absurd hm (by decide)
    · exact absurd hm (by decide)
    · exact absurd hm (by decide)
    · exact (hauth 35 hm).2.2 rfl
    · exact (hE2 35 hm).2 rfl
    · exact absurd hm (by decide)
    · exact hq3 hm
  generalize ((if u0.Scheme ≠ [] then u0.Scheme ++ [58] else [])
      ++ ((47 :: 47 :: (auth ++ u0.EscapedPath)) ++ 63 :: mr.Encode)) = pre
    at hshape hparse1 hpre35
  unfold url.URL.setPath at hparse1
  rw [escapedPath_unescape u0 hP] at hparse1
  simp only [] at hparse1
  have hParse : ∃ u3, url.Parse (url.URL.String { u0 with RawQuery := mr.Encode })
      = .ok u3 := by
    rw [hshape]
    unfold url.Parse
    by_cases hF : u0.Fragment = []
    · simp only [hF, ne_eq, not_true_eq_false, if_false, List.append_nil]
      rw [cutAt_no_sep 35 pre hpre35, hparse1]
      exact ⟨_, rfl⟩
    · rw [if_pos hF, cutAt_append_sep 35 pre _ hpre35, hparse1]
      simp only []
      by_cases hfe : u0.EscapedFragment = []
      · rw [if_pos hfe]
        exact ⟨_, rfl⟩
      · rw [if_neg hfe]
        unfold url.URL.setFragment
        rw [escapedFragment_unescape u0]
        exact ⟨_, rfl⟩
  obtain ⟨u3, hu3⟩ := hParse
  unfold http.NewRequest
  have hm : (if bytes "GET" = [] then bytes "GET" else bytes "GET") = bytes "GET" := by decide
  have hv : ¬ ¬ http.validMethod (bytes "GET") = true := by decide
  simp only [hm]
  rw [if_neg hv, hu3]
  exact ⟨_, rfl⟩

/-- C11, as the specification states it, fails.  A client made from the text
`http://h:/render` stores the host `h:`, and the request that `Fetch` sends has the
host `h`: `http.NewRequest` removes the empty port.  And a client made from the
relative reference `a%3Ab c` stores the path `a:b c`, and the request has the path
`./a:b c`: `(*URL).String` puts `./` before a first segment with a colon. -/
theorem fetch_url_counterexample :
    (url.Parse (bytes "http://h:/render")
        = .ok ⟨bytes "http", [], none, bytes "h:", bytes "/render", [], false, false, [], [],
            []⟩
      ∧ ((Client.fetchRun goLib
            ⟨⟨5000000000, exampleDo⟩,
              ⟨bytes "http", [], none, bytes "h:", bytes "/render", [], false, false, [], [],
                []⟩⟩ ⟨none⟩ ⟨[], [], []⟩).sent.map (fun r => (r.URL.Host, r.URL.Path)))
          = some (bytes "h", bytes "/render")
      ∧ bytes "h" ≠ bytes "h:")
    ∧ (url.Parse (bytes "a%3Ab c")
        = .ok ⟨[], [], none, [], bytes "a:b c", bytes "a%3Ab c", false, false, [], [], []⟩
      ∧ ((Client.fetchRun goLib
            ⟨⟨5000000000, exampleDo⟩,
              ⟨[], [], none, [], bytes "a:b c", bytes "a%3Ab c", false, false, [], [], []⟩⟩
            ⟨none⟩ ⟨[], [], []⟩).sent.map (fun r => (r.URL.Host, r.URL.Path)))
          = some ([], bytes "./a:b c")
      ∧ bytes "./a:b c" ≠ bytes "a:b c") :=
  ⟨⟨rfl, by decide, by decide⟩, ⟨rfl, by decide, by decide⟩⟩

/-- C11, amended: for a client whose base URL was made by `url.Parse` and has a host,
every request that `Fetch` sends has the method `GET` and a URL with the scheme and
the path of the base URL, its host without an empty port, and the query
`mr.Encode()`, whatever query the base URL has; a request is sent whenever the host is
a plain name with an optional port; the text handed to `http.NewRequest` is the text
of the base URL with its query replaced; the client, its base URL with its own query
and its transport, is the same after the call as before it, so a second call with the
same request sends the same request. -/
theorem fetch_url_frame (c : Client) (ctx : Context) (mr : MetricRequest) (s0 : GoString)
    (hparse : url.Parse s0 = .ok c.renderURL) (hhost : c.renderURL.Host ≠ []) :
    (c.fetchRun goLib ctx mr).client = c
    ∧ (c.fetchRun goLib ctx mr).urlText
        = url.URL.String { c.renderURL with RawQuery := mr.Encode }
    ∧ (∀ req, (c.fetchRun goLib ctx mr).sent = some req →
        req.Method = bytes "GET" ∧ req.URL.Scheme = c.renderURL.Scheme
        ∧ req.URL.Host = http.removeEmptyPort c.renderURL.Host
        ∧ req.URL.Path = c.renderURL.Path ∧ req.URL.RawQuery = mr.Encode)
    ∧ (isPlainHost c.renderURL.Host = true →
        ∃ req, (c.fetchRun goLib ctx mr).sent = some req)
    ∧ ((c.fetchRun goLib ctx mr).client.fetchRun goLib ctx mr).urlText
        = (c.fetchRun goLib ctx mr).urlText
    ∧ ((c.fetchRun goLib ctx mr).client.fetchRun goLib ctx mr).sent
        = (c.fetchRun goLib ctx mr).sent := by
  have hclient : (c.fetchRun goLib ctx mr).client = c := by
    unfold Client.fetchRun
    simp only []
    split
    · rfl
    · split <;> rfl
  have htext : (c.fetchRun goLib ctx mr).urlText
      = url.URL.String { c.renderURL with RawQuery := mr.Encode } := by
    unfold Client.fetchRun
    simp only []
    split
    · rfl
    · split <;> rfl
  have hsome : isPlainHost c.renderURL.Host = true →
      ∃ req, (c.fetchRun goLib ctx mr).sent = some req := by
    intro hplain
    obtain ⟨r0, hr0⟩ := newRequest_ok c.renderURL s0 mr hparse hhost hplain
    refine ⟨prepareRequest r0 ctx, ?_⟩
    unfold Client.fetchRun
    simp only [goLib, hr0]
    split <;> rfl
  refine ⟨hclient, htext, ?_, hsome, by rw [hclient], by rw [hclient]⟩
  intro req hsent
  cases hnr : http.NewRequest (bytes "GET")
      (url.URL.String { c.renderURL with RawQuery := mr.Encode }) with
  | error e =>
    have : (c.fetchRun goLib ctx mr).sent = none := by
      unfold Client.fetchRun
      simp only [goLib, hnr]
    rw [this] at hsent
    exact absurd hsent (by simp)
  | ok r0 =>
    have : (c.fetchRun goLib ctx mr).sent = some (prepareRequest r0 ctx) := by
      unfold Client.fetchRun
      simp only [goLib, hnr]
      split <;> rfl
    rw [this, Option.some.injEq] at hsent
    obtain ⟨g1, g2, g3, g4, g5⟩ := newRequest_url c.renderURL s0 mr r0 hparse hhost hnr
    rw [← hsent]
    exact ⟨g1, g2, g3, g4, g5⟩

/-- C11 on a client made from `http://graphite.example/render?format=csv&x=1#top`: the
request sent for the target `a` has the URL
`http://graphite.example/render?format=json&target=a#top`. -/
theorem fetch_url_frame_witness :
    ((exampleQueryClient.fetchRun goLib ⟨none⟩ ⟨[], [], [bytes "a"]⟩).client
        = exampleQueryClient
      ∧ (exampleQueryClient.fetchRun goLib ⟨none⟩ ⟨[], [], [bytes "a"]⟩).urlText
        = url.URL.String
            { exampleQueryClient.renderURL with
              RawQuery := MetricRequest.Encode ⟨[], [], [bytes "a"]⟩ }
      ∧ (∀ req, (exampleQueryClient.fetchRun goLib ⟨none⟩ ⟨[], [], [bytes "a"]⟩).sent
            = some req →
          req.Method = bytes "GET" ∧ req.URL.Scheme = exampleQueryClient.renderURL.Scheme
          ∧ req.URL.Host = http.removeEmptyPort exampleQueryClient.renderURL.Host
          ∧ req.URL.Path = exampleQueryClient.renderURL.Path
          ∧ req.URL.RawQuery = MetricRequest.Encode ⟨[], [], [bytes "a"]⟩)
      ∧ (isPlainHost exampleQueryClient.renderURL.Host = true →
          ∃ req, (exampleQueryClient.fetchRun goLib ⟨none⟩ ⟨[], [], [bytes "a"]⟩).sent
            = some req)
      ∧ ((exampleQueryClient.fetchRun goLib ⟨none⟩ ⟨[], [], [bytes "a"]⟩).client.fetchRun
            goLib ⟨none⟩ ⟨[], [], [bytes "a"]⟩).urlText
          = (exampleQueryClient.fetchRun goLib ⟨none⟩ ⟨[], [], [bytes "a"]⟩).urlText
      ∧ ((exampleQueryClient.fetchRun goLib ⟨none⟩ ⟨[], [], [bytes "a"]⟩).client.fetchRun
            goLib ⟨none⟩ ⟨[], [], [bytes "a"]⟩).sent
          = (exampleQueryClient.fetchRun goLib ⟨none⟩ ⟨[], [], [bytes "a"]⟩).sent)
    ∧ (exampleQueryClient.fetchRun goLib ⟨none⟩ ⟨[], [], [bytes "a"]⟩).urlText
        = bytes "http://graphite.example/render?format=json&target=a#top"
    ∧ (exampleQueryClient.fetchRun goLib ⟨none⟩ ⟨[], [], [bytes "a"]⟩).sent
        = some ⟨bytes "GET",
            ⟨bytes "http", [], none, bytes "graphite.example", bytes "/render", [], false,
              false, bytes "format=json&target=a", bytes "top", []⟩,
            [(bytes "Accept", [bytes "application/json"]),
              (bytes "User-Agent", [bytes "FooBAr/200.1"])], ⟨none⟩⟩ :=
  ⟨fetch_url_frame exampleQueryClient ⟨none⟩ ⟨[], [], [bytes "a"]⟩
      (bytes "http://graphite.example/render?format=csv&x=1#top") rfl (by decide),
    by decide, by decide⟩

/-! ## Construction and the remaining outcomes of `Fetch` -/

/-- C12: `NewClient` returns nil and the error of `url.Parse` exactly when the text does
not parse; when it parses, the client holds the parsed URL and either the transport it
was given, unchanged, or, given none, a new `http.Client` whose timeout is 5 seconds. -/
theorem newClient_spec (parse : GoString → Except GoError url.URL)
    (defaultDo : http.Request → Except GoError http.Response)
    (httpClient : Option http.Client) (renderURI : GoString) :
    ((NewClient parse defaultDo httpClient renderURI).1 = none
        ↔ ∃ err, parse renderURI = .error err)
    ∧ (∀ err, parse renderURI = .error err →
        NewClient parse defaultDo httpClient renderURI = (none, some err))
    ∧ (∀ u, parse renderURI = .ok u →
        NewClient parse defaultDo none renderURI
            = (some ⟨⟨5 * 1000000000, defaultDo⟩, u⟩, none)
        ∧ ∀ given : http.Client,
            NewClient parse defaultDo (some given) renderURI = (some ⟨given, u⟩, none)) := by
  refine ⟨?_, ?_, ?_⟩
  · unfold NewClient
    cases h : parse renderURI with
    | error err => simp
    | ok u => simp
  · intro err h
    simp [NewClient, h]
  · intro u h
    constructor
    · simp only [NewClient, h]
      rfl
    · intro given
      simp [NewClient, h]

/-- C12 on a text that does not parse and on one that does, without and with a
transport. -/
theorem newClient_spec_witness :
    NewClient exampleParse exampleDo none (bytes "http://graphite.example\n/render")
        = (none, some (.external (bytes "net/url: invalid control character in URL")))
    ∧ NewClient exampleParse exampleDo none (bytes "/render")
        = (some ⟨⟨5000000000, exampleDo⟩,
            ⟨[], [], none, [], bytes "/render", [], false, false, [], [], []⟩⟩, none)
    ∧ NewClient exampleParse exampleDo (some ⟨30000000000, exampleDo⟩) (bytes "/render")
        = (some ⟨⟨30000000000, exampleDo⟩,
            ⟨[], [], none, [], bytes "/render", [], false, false, [], [], []⟩⟩, none) :=
  ⟨(newClient_spec exampleParse exampleDo none
      (bytes "http://graphite.example\n/render")).2.1 _ rfl,
   ((newClient_spec exampleParse exampleDo none (bytes "/render")).2.2 _ rfl).1,
   ((newClient_spec exampleParse exampleDo none (bytes "/render")).2.2 _ rfl).2
      ⟨30000000000, exampleDo⟩⟩

/-- C13: for every request `Encode` writes the parameters grouped by key, the keys in
ascending byte order, `format`, `from`, `target`, `until`: the result is
`format=json`, then `&from=` and the escaped `From` if `From` is non-empty, then
`&target=` and the escaped target for each non-empty target in input order, then
`&until=` and the escaped `Until` if `Until` is non-empty. -/
theorem encode_key_order (m : MetricRequest) :
    m.Encode = bytes "format=json" ++ fromParam m ++ targetParams m ++ untilParam m
    ∧ strLess (bytes "format") (bytes "from") = true
    ∧ strLess (bytes "from") (bytes "target") = true
    ∧ strLess (bytes "target") (bytes "until") = true
    ∧ (MetricRequest.mk (bytes "a") (bytes "b") [bytes "x", bytes "y"]).Encode
        = bytes "format=json&from=a&target=x&target=y&until=b" :=
  ⟨encode_eq m, by decide, by decide, by decide, by decide⟩

/-- C14, as the specification states it, fails: `[null, 5]` decodes without an error,
the value staying zero, since `json.Unmarshal` of `null` into a `float64` changes
nothing and returns nil. -/
theorem dataPoint_null_counterexample :
    DataPoint.UnmarshalJSON DataPoint.zero (.array [.null, .number (bytes "5")])
        = (⟨Float64.zero, ⟨time.Unix 5 0⟩⟩, .ok)
    ∧ json.unmarshalFloat64 Float64.zero .null = (Float64.zero, none) := by
  decide

/-- C14, amended: for every decimal text of an integer `n` in the signed 64-bit range,
decoding the two-element array `[null, n]` succeeds: decoding `null` into `Value`
returns no error and leaves `Value` as it was, and `TimeStamp` becomes
`time.Unix(n, 0)`. -/
theorem dataPoint_null_value (d : DataPoint) (ts : GoString) (n : Int)
    (hn : signedDecimal ts = some n) (hfit : fitsInt64 n) :
    DataPoint.UnmarshalJSON d (.array [.null, .number ts])
        = (⟨d.Value, ⟨time.Unix n 0⟩⟩, .ok)
    ∧ ∀ f : Float64, json.unmarshalFloat64 f .null = (f, none) := by
  refine ⟨?_, fun _ => rfl⟩
  rw [dataPoint_unmarshal_pair]
  have h1 : json.unmarshalJSONTime d.TimeStamp (.number ts) = (⟨time.Unix n 0⟩, none) := by
    simp only [json.unmarshalJSONTime, JSON.raw]
    exact jsonTime_unmarshal_ok _ ts n hn hfit
  simp only [json.unmarshalFloat64, h1]

/-- C14 on `[null, 1609459200]`, decoded into a fresh data point and into one that
already holds the value 1.5. -/
theorem dataPoint_null_value_witness :
    DataPoint.UnmarshalJSON DataPoint.zero (.array [.null, .number (bytes "1609459200")])
        = (⟨Float64.zero, ⟨time.Unix 1609459200 0⟩⟩, .ok)
    ∧ DataPoint.UnmarshalJSON ⟨⟨false, 3 * 2 ^ 51, -52⟩, JSONTime.zero⟩
          (.array [.null, .number (bytes "1609459200")])
        = (⟨⟨false, 3 * 2 ^ 51, -52⟩, ⟨time.Unix 1609459200 0⟩⟩, .ok) :=
  ⟨(dataPoint_null_value DataPoint.zero (bytes "1609459200") 1609459200
      (by decide) (by decide)).1,
   (dataPoint_null_value ⟨⟨false, 3 * 2 ^ 51, -52⟩, JSONTime.zero⟩ (bytes "1609459200")
      1609459200 (by decide) (by decide)).1⟩

/-- C15: when `http.NewRequest` returns an error, `Fetch` returns a nil `*Metrics` and a
nil error: the error is dropped, the transport is not called, and the error returned
is the one every successful call returns. -/
theorem fetch_request_error_dropped (lib : Lib) (c : Client) (ctx : Context)
    (mr : MetricRequest) (e : GoError)
    (h : lib.NewRequest (bytes "GET")
      (lib.URLString { c.renderURL with RawQuery := mr.Encode }) = .error e) :
    c.Fetch lib ctx mr = .returned none none
    ∧ (c.fetchRun lib ctx mr).sent = none
    ∧ (c.Fetch lib ctx mr).err = none
    ∧ ∀ (lib2 : Lib) (c2 : Client) (ctx2 : Context) (mr2 : MetricRequest) (m : Metrics),
        c2.Fetch lib2 ctx2 mr2 = .returned (some m) none →
        (c.Fetch lib ctx mr).err = (c2.Fetch lib2 ctx2 mr2).err := by
  have hF : c.Fetch lib ctx mr = .returned none none := by
    rw [fetch_eq]
    simp only [h]
  refine ⟨hF, ?_, ?_, ?_⟩
  · unfold Client.fetchRun
    simp only [h]
  · rw [hF]
    rfl
  · intro lib2 c2 ctx2 mr2 m h2
    rw [hF, h2]
    rfl

/-- C15 on library functions that fail to build the request: the result is nil and nil,
though the server would have answered. -/
theorem fetch_request_error_dropped_witness :
    (exampleClient 200 (.ok exampleBody)).Fetch failingLib ⟨none⟩ ⟨[], [], [bytes "a"]⟩
        = .returned none none
    ∧ ((exampleClient 200 (.ok exampleBody)).fetchRun failingLib ⟨none⟩
        ⟨[], [], [bytes "a"]⟩).sent = none :=
  ⟨(fetch_request_error_dropped failingLib (exampleClient 200 (.ok exampleBody)) ⟨none⟩
      ⟨[], [], [bytes "a"]⟩ (.external (bytes "net/http: invalid method")) rfl).1,
   (fetch_request_error_dropped failingLib (exampleClient 200 (.ok exampleBody)) ⟨none⟩
      ⟨[], [], [bytes "a"]⟩ (.external (bytes "net/http: invalid method")) rfl).2.1⟩

/-- C16: when the status is in [200, 300) and not 204 and the body is the JSON literal
`null`, `Fetch` returns a nil `*Metrics` together with a nil error: decoding through
`&m` sets the pointer `m` to nil. -/
theorem fetch_null_body (lib : Lib) (c : Client) (ctx : Context) (mr : MetricRequest)
    (req : http.Request) (resp : http.Response)
    (hreq : lib.NewRequest (bytes "GET")
      (lib.URLString { c.renderURL with RawQuery := mr.Encode }) = .ok req)
    (hdo : c.httpClient.Do (prepareRequest req ctx) = .ok resp)
    (hs : 200 ≤ resp.StatusCode ∧ resp.StatusCode < 300) (h204 : resp.StatusCode ≠ 204)
    (hb : resp.Body = .ok .null) :
    c.Fetch lib ctx mr = .returned none none
    ∧ json.Decode (.ok .null) = (none, .ok) := by
  have h1 : ¬ (resp.StatusCode < 200 ∨ resp.StatusCode ≥ 300) := by omega
  refine ⟨?_, rfl⟩
  rw [fetch_eq]
  simp only [hreq, hdo, h1, if_false, http.StatusNoContent, h204, ne_eq, not_false_eq_true,
    if_true, hb]
  rfl

/-- C16 on a server that answers 200 with the body `null`. -/
theorem fetch_null_body_witness :
    (exampleClient 200 (.ok .null)).Fetch exampleLib ⟨none⟩ ⟨[], [], [bytes "a"]⟩
      = .returned none none :=
  (fetch_null_body exampleLib (exampleClient 200 (.ok .null)) ⟨none⟩ ⟨[], [], [bytes "a"]⟩
    ⟨bytes "GET", url.URL.empty, [], ⟨none⟩⟩ ⟨200, .ok .null⟩ rfl rfl (by decide) (by decide)
    rfl).1
